import Mathlib

/-!
Verification development for the property-transformation engine of the
HyperOS-Port-Python repository (`src/core/props.py`).

The engine edits `key=value` property files inside a working tree.  We give a
shallow embedding: file contents are lists of characters, a working tree is a
list of files, and each pass of `PropertyModifier.run` becomes a Lean function
translated from the Python source.  Python regular-expression operations of the
shape `key=.*` (where `.` does not match a newline) are modelled line-wise over
the newline-split of the content, which is faithful whenever the key and the
substituted value contain no newline; theorems quantifying over keys and values
carry that hypothesis.
-/

set_option maxHeartbeats 2000000
set_option maxRecDepth 10000

namespace HyperProps

/-- Character-list representation of strings used throughout the model. -/
abbrev Str := List Char

/-- Conversion from Lean string literals into the model representation. -/
def S (s : String) : Str := s.data

/-- Python `str.strip()` whitespace test (ASCII whitespace). -/
def isSpaceChar (c : Char) : Bool :=
  c = ' ' || c = '\t' || c = '\n' || c = '\r' || c = '\x0b' || c = '\x0c'

/-- Python `str.strip()`: drop whitespace from both ends. -/
def strip (s : Str) : Str :=
  ((s.dropWhile isSpaceChar).reverse.dropWhile isSpaceChar).reverse

/-- Substring occurrence, as a proposition: `n` occurs contiguously in `h`. -/
def Occurs (n h : Str) : Prop := ∃ a b, h = a ++ n ++ b

/-- Python's `n in h` substring test. -/
def containsSub (n : Str) : Str → Bool
  | [] => n.isEmpty
  | c :: t => n.isPrefixOf (c :: t) || containsSub n t

theorem containsSub_iff (n h : Str) : containsSub n h = true ↔ Occurs n h := by
  induction h with
  | nil =>
    constructor
    · intro hc
      have hn : n = [] := List.isEmpty_iff.mp (by simpa [containsSub] using hc)
      exact ⟨[], [], by simp [hn]⟩
    · rintro ⟨a, b, hab⟩
      rcases List.append_eq_nil.mp hab.symm with ⟨h1, _⟩
      have hn : n = [] := (List.append_eq_nil.mp h1).2
      simp [containsSub, hn]
  | cons c t ih =>
    constructor
    · intro hc
      have hor : n.isPrefixOf (c :: t) = true ∨ containsSub n t = true := by
        have hc' : (n.isPrefixOf (c :: t) || containsSub n t) = true := by
          simpa [containsSub] using hc
        exact Bool.or_eq_true_iff.mp hc'
      rcases hor with hp | hrest
      · obtain ⟨rest, hr⟩ := List.isPrefixOf_iff_prefix.mp hp
        exact ⟨[], rest, by simpa using hr.symm⟩
      · obtain ⟨a, b, hab⟩ := ih.mp hrest
        exact ⟨c :: a, b, by simp [hab]⟩
    · rintro ⟨a, b, hab⟩
      cases a with
      | nil =>
        have hp : n.isPrefixOf (c :: t) :=
          List.isPrefixOf_iff_prefix.mpr ⟨b, by simpa using hab.symm⟩
        simp [containsSub, hp]
      | cons x xs =>
        have hx : t = xs ++ n ++ b := by simpa using congrArg List.tail hab
        have hrest : containsSub n t = true := ih.mpr ⟨xs, b, hx⟩
        simp [containsSub, hrest]

theorem occurs_trans_sub {p n h : Str} (hpn : Occurs p n) (hnh : Occurs n h) :
    Occurs p h := by
  obtain ⟨a, b, rfl⟩ := hpn
  obtain ⟨x, y, hy⟩ := hnh
  exact ⟨x ++ a, b ++ y, by simp [hy]⟩

/-- Split `h` at the first occurrence of `n`: `some (a, b)` with `h = a ++ b`,
`n` a prefix of `b`, and `a` shortest possible. -/
def splitFirst (n : Str) : Str → Option (Str × Str)
  | [] => if n.isEmpty then some ([], []) else none
  | c :: t =>
    if n.isPrefixOf (c :: t) then some ([], c :: t)
    else match splitFirst n t with
         | some (a, b) => some (c :: a, b)
         | none => none

theorem splitFirst_eq_append {n h a b : Str} (hs : splitFirst n h = some (a, b)) :
    h = a ++ b ∧ n.isPrefixOf b = true := by
  induction h generalizing a b with
  | nil =>
    by_cases he : n.isEmpty
    · have h1 : a = [] ∧ b = [] := by
        have := hs
        simp only [splitFirst, he, if_true] at this
        have h2 : (([], []) : Str × Str) = (a, b) := Option.some.inj this
        exact ⟨(congrArg Prod.fst h2).symm, (congrArg Prod.snd h2).symm⟩
      obtain ⟨rfl, rfl⟩ := h1
      refine ⟨rfl, ?_⟩
      rw [List.isEmpty_iff.mp he]
      exact List.isPrefixOf_iff_prefix.mpr (List.nil_prefix)
    · simp [splitFirst, he] at hs
  | cons c t ih =>
    by_cases hp : n.isPrefixOf (c :: t)
    · have h2 : (([], c :: t) : Str × Str) = (a, b) := by
        have := hs
        simp only [splitFirst, hp, if_true] at this
        exact Option.some.inj this
      have ha : a = [] := (congrArg Prod.fst h2).symm
      have hb : b = c :: t := (congrArg Prod.snd h2).symm
      subst ha; subst hb
      exact ⟨rfl, hp⟩
    · have hs' : (match splitFirst n t with
         | some (a, b) => some (c :: a, b)
         | none => none) = some (a, b) := by
        have := hs
        simp only [splitFirst, hp, if_neg, Bool.false_eq_true, if_false] at this
        exact this
      cases hrec : splitFirst n t with
      | none => rw [hrec] at hs'; simp at hs'
      | some p =>
        obtain ⟨a0, b0⟩ := p
        rw [hrec] at hs'
        have h2 : ((c :: a0, b0) : Str × Str) = (a, b) := Option.some.inj hs'
        have ha : a = c :: a0 := (congrArg Prod.fst h2).symm
        have hb : b = b0 := (congrArg Prod.snd h2).symm
        subst ha; subst hb
        obtain ⟨h3, h4⟩ := ih hrec
        exact ⟨by simp [h3], h4⟩

theorem splitFirst_min {n h a b : Str} (hs : splitFirst n h = some (a, b)) :
    ∀ a' b', h = a' ++ b' → n.isPrefixOf b' = true → a.length ≤ a'.length := by
  induction h generalizing a b with
  | nil =>
    intro a' b' _ _
    by_cases he : n.isEmpty
    · have h2 : (([], []) : Str × Str) = (a, b) := by
        have := hs
        simp only [splitFirst, he, if_true] at this
        exact Option.some.inj this
      have ha : a = [] := (congrArg Prod.fst h2).symm
      simp [ha]
    · simp [splitFirst, he] at hs
  | cons c t ih =>
    intro a' b' hab hp'
    by_cases hp : n.isPrefixOf (c :: t)
    · have h2 : (([], c :: t) : Str × Str) = (a, b) := by
        have := hs
        simp only [splitFirst, hp, if_true] at this
        exact Option.some.inj this
      have ha : a = [] := (congrArg Prod.fst h2).symm
      simp [ha]
    · have hs' : (match splitFirst n t with
         | some (a, b) => some (c :: a, b)
         | none => none) = some (a, b) := by
        have := hs
        simp only [splitFirst, hp, if_neg, Bool.false_eq_true, if_false] at this
        exact this
      cases hrec : splitFirst n t with
      | none => rw [hrec] at hs'; simp at hs'
      | some p =>
        obtain ⟨a0, b0⟩ := p
        rw [hrec] at hs'
        have h2 : ((c :: a0, b0) : Str × Str) = (a, b) := Option.some.inj hs'
        have ha : a = c :: a0 := (congrArg Prod.fst h2).symm
        subst ha
        cases a' with
        | nil =>
          exfalso
          have hb : b' = c :: t := by simpa using hab.symm
          exact hp (hb ▸ hp')
        | cons x xs =>
          have hx : t = xs ++ b' := by simpa using congrArg List.tail hab
          have := ih hrec xs b' hx hp'
          simpa using Nat.succ_le_succ this

theorem splitFirst_none_iff (n h : Str) : splitFirst n h = none ↔ ¬ Occurs n h := by
  induction h with
  | nil =>
    constructor
    · intro hs ho
      obtain ⟨a, b, hab⟩ := ho
      rcases List.append_eq_nil.mp hab.symm with ⟨h1, _⟩
      have hn : n = [] := (List.append_eq_nil.mp h1).2
      simp [splitFirst, hn, List.isEmpty_iff] at hs
    · intro ho
      by_cases he : n.isEmpty
      · exact absurd ⟨[], [], by simp [List.isEmpty_iff.mp he]⟩ ho
      · simp [splitFirst, he]
  | cons c t ih =>
    by_cases hp : n.isPrefixOf (c :: t)
    · constructor
      · intro hs; simp [splitFirst, hp] at hs
      · intro ho
        exfalso
        obtain ⟨rest, hr⟩ := List.isPrefixOf_iff_prefix.mp hp
        exact ho ⟨[], rest, by simpa using hr.symm⟩
    · constructor
      · intro hs ho
        obtain ⟨a, b, hab⟩ := ho
        cases a with
        | nil =>
          exact hp (List.isPrefixOf_iff_prefix.mpr ⟨b, by simpa using hab.symm⟩)
        | cons x xs =>
          have hx : t = xs ++ n ++ b := by simpa using congrArg List.tail hab
          have hnone : splitFirst n t = none := by
            cases hrec : splitFirst n t with
            | none => rfl
            | some p =>
              exfalso
              simp [splitFirst, hp, hrec] at hs
          exact (ih.mp hnone) ⟨xs, b, hx⟩
      · intro ho
        cases hrec : splitFirst n t with
        | none => simp [splitFirst, hp, hrec]
        | some p =>
          exfalso
          obtain ⟨a0, b0⟩ := p
          obtain ⟨h1, h2⟩ := splitFirst_eq_append hrec
          obtain ⟨rest, hr⟩ := List.isPrefixOf_iff_prefix.mp h2
          refine ho ⟨c :: a0, rest, ?_⟩
          rw [h1, ← hr]
          simp

theorem splitFirst_isSome_of_occurs {n h : Str} (ho : Occurs n h) :
    ∃ a b, splitFirst n h = some (a, b) := by
  cases hs : splitFirst n h with
  | none => exact absurd ho ((splitFirst_none_iff n h).mp hs)
  | some p => exact ⟨p.1, p.2, by simp⟩

/-- Uniqueness: the minimal decomposition is what `splitFirst` returns. -/
theorem splitFirst_eq_of_min {n h a b : Str} (hab : h = a ++ b)
    (hpre : n.isPrefixOf b = true)
    (hmin : ∀ a' b', h = a' ++ b' → n.isPrefixOf b' = true → a.length ≤ a'.length) :
    splitFirst n h = some (a, b) := by
  obtain ⟨rest, hr⟩ := List.isPrefixOf_iff_prefix.mp hpre
  have ho : Occurs n h := ⟨a, rest, by rw [hab, ← hr]; simp⟩
  obtain ⟨a0, b0, hs⟩ := splitFirst_isSome_of_occurs ho
  obtain ⟨h1, h2⟩ := splitFirst_eq_append hs
  have hle1 : a0.length ≤ a.length := splitFirst_min hs a b hab hpre
  have hle2 : a.length ≤ a0.length := hmin a0 b0 h1 h2
  have hlen : a0.length = a.length := Nat.le_antisymm hle1 hle2
  have heq : a0 ++ b0 = a ++ b := h1.symm.trans hab
  have ha : a0 = a := List.append_inj_left heq hlen
  have hb : b0 = b := List.append_inj_right heq hlen
  rw [hs, ha, hb]

/-- Worker for `replaceAllSub`: a positive counter skips characters already
consumed by an emitted replacement. -/
def replaceAllAux (n r : Str) : Str → Nat → Str
  | [], _ => []
  | _ :: t, Nat.succ k => replaceAllAux n r t k
  | c :: t, 0 =>
    if n.isPrefixOf (c :: t) ∧ n ≠ [] then r ++ replaceAllAux n r t (n.length - 1)
    else c :: replaceAllAux n r t 0

/-- Python `str.replace` (replace every non-overlapping occurrence, left to
right).  The engine only calls it with a nonempty needle; for an empty needle
this model leaves the string unchanged. -/
def replaceAllSub (n r h : Str) : Str := replaceAllAux n r h 0

theorem replaceAllAux_skip (n r : Str) :
    ∀ (x rest : Str), replaceAllAux n r (x ++ rest) x.length = replaceAllAux n r rest 0 := by
  intro x
  induction x with
  | nil => intro rest; simp
  | cons c t ih => intro rest; simpa [replaceAllAux] using ih rest

theorem replaceAllSub_nil (n r : Str) : replaceAllSub n r [] = [] := rfl

/-- Unfolding at a match site. -/
theorem replaceAllSub_pos {n : Str} (r : Str) {c : Str} (hne : n ≠ [])
    (hp : n.isPrefixOf c = true) :
    ∃ rest, c = n ++ rest ∧
      replaceAllSub n r c = r ++ replaceAllSub n r rest := by
  obtain ⟨rest, hrest⟩ := List.isPrefixOf_iff_prefix.mp hp
  refine ⟨rest, hrest.symm, ?_⟩
  cases hcn : n with
  | nil => exact absurd hcn hne
  | cons a nt =>
    rw [← hcn]
    cases hc : c with
    | nil =>
      rw [hc] at hrest
      simp at hrest
      exact absurd hrest.1 hne
    | cons ch t =>
      rw [← hc]
      show replaceAllAux n r c 0 = r ++ replaceAllAux n r rest 0
      rw [hc]
      rw [show replaceAllAux n r (ch :: t) 0 =
        (if n.isPrefixOf (ch :: t) ∧ n ≠ [] then r ++ replaceAllAux n r t (n.length - 1)
         else ch :: replaceAllAux n r t 0) from by rw [hcn]; rfl]
      rw [if_pos ⟨hc ▸ hp, hne⟩]
      congr 1
      have ht : t = n.tail ++ rest := by
        have h1 : ch :: t = n ++ rest := hc ▸ hrest.symm
        rw [hcn] at h1
        simpa [hcn] using congrArg List.tail h1
      have hlen : n.length - 1 = n.tail.length := by
        rw [hcn]; simp
      rw [ht, hlen]
      exact replaceAllAux_skip n r n.tail rest

/-- Unfolding at a non-match site. -/
theorem replaceAllSub_neg {n : Str} (r : Str) {c : Char} {t : Str}
    (h : ¬ (n.isPrefixOf (c :: t) = true ∧ n ≠ [])) :
    replaceAllSub n r (c :: t) = c :: replaceAllSub n r t := by
  show replaceAllAux n r (c :: t) 0 = c :: replaceAllAux n r t 0
  rw [show replaceAllAux n r (c :: t) 0 =
    (if n.isPrefixOf (c :: t) ∧ n ≠ [] then r ++ replaceAllAux n r t (n.length - 1)
     else c :: replaceAllAux n r t 0) from rfl]
  rw [if_neg h]

/-! ### Newline handling

`splitOnNl` models Python `content.split("\n")` (segments without the
terminator; always nonempty).  `readlines` models Python file-line iteration /
`readlines()` (lines keep their trailing newline; a last unterminated line is
kept as is). -/

def splitOnNl : Str → List Str
  | [] => [[]]
  | c :: t =>
    if c = '\n' then [] :: splitOnNl t
    else (c :: (splitOnNl t).headI) :: (splitOnNl t).tail

/-- Joining newline segments back: `"\n".join(...)`. -/
def joinNl : List Str → Str
  | [] => []
  | [s] => s
  | s :: s2 :: ss => s ++ '\n' :: joinNl (s2 :: ss)

theorem splitOnNl_cons_nl (t : Str) : splitOnNl ('\n' :: t) = [] :: splitOnNl t := by
  simp [splitOnNl]

theorem splitOnNl_cons_ne {c : Char} (hc : c ≠ '\n') (t : Str) :
    splitOnNl (c :: t) = (c :: (splitOnNl t).headI) :: (splitOnNl t).tail := by
  simp [splitOnNl, hc]

theorem splitOnNl_ne_nil (c : Str) : splitOnNl c ≠ [] := by
  cases c with
  | nil => simp [splitOnNl]
  | cons x t =>
    by_cases hx : x = '\n'
    · subst hx; simp [splitOnNl_cons_nl]
    · simp [splitOnNl_cons_ne hx]

theorem headI_tail_of_ne_nil {l : List Str} (h : l ≠ []) : l = l.headI :: l.tail := by
  cases l with
  | nil => exact absurd rfl h
  | cons a t => rfl

theorem joinNl_single (s : Str) : joinNl [s] = s := rfl

theorem joinNl_cons {ss : List Str} (s : Str) (h : ss ≠ []) :
    joinNl (s :: ss) = s ++ '\n' :: joinNl ss := by
  cases ss with
  | nil => exact absurd rfl h
  | cons a b => rw [joinNl]

theorem splitOnNl_dest (t : Str) : ∃ s ss, splitOnNl t = s :: ss := by
  cases h : splitOnNl t with
  | nil => exact absurd h (splitOnNl_ne_nil t)
  | cons a b => exact ⟨a, b, rfl⟩

theorem joinNl_splitOnNl (c : Str) : joinNl (splitOnNl c) = c := by
  induction c with
  | nil => simp [splitOnNl, joinNl]
  | cons x t ih =>
    obtain ⟨s, ss, hs⟩ := splitOnNl_dest t
    rw [hs] at ih
    by_cases hx : x = '\n'
    · subst hx
      rw [splitOnNl_cons_nl, hs, joinNl_cons _ (List.cons_ne_nil s ss), ih]
      simp
    · rw [splitOnNl_cons_ne hx, hs]
      simp only [List.headI, List.tail]
      cases ss with
      | nil =>
        rw [joinNl_single] at ih
        rw [joinNl_single, ih]
      | cons s2 ss2 =>
        rw [joinNl_cons _ (List.cons_ne_nil s2 ss2)] at ih
        rw [joinNl_cons _ (List.cons_ne_nil s2 ss2), ← ih]
        simp

/-- A newline closes the current segment: splitting distributes over it. -/
theorem splitOnNl_append_nl (x y : Str) :
    splitOnNl (x ++ '\n' :: y) = splitOnNl x ++ splitOnNl y := by
  induction x with
  | nil => simp [splitOnNl_cons_nl, splitOnNl]
  | cons c t ih =>
    by_cases hc : c = '\n'
    · subst hc
      rw [List.cons_append, splitOnNl_cons_nl, splitOnNl_cons_nl, ih]
      simp
    · obtain ⟨s, ss, hs⟩ := splitOnNl_dest t
      obtain ⟨s2, ss2, hs2⟩ := splitOnNl_dest (t ++ '\n' :: y)
      rw [List.cons_append, splitOnNl_cons_ne hc, splitOnNl_cons_ne hc, hs, hs2]
      rw [hs, hs2] at ih
      have h1 : s2 = s := (List.cons.injEq _ _ _ _ ▸ ih).1
      have h2 : ss2 = ss ++ splitOnNl y := (List.cons.injEq _ _ _ _ ▸ ih).2
      simp [h1, h2]

theorem splitOnNl_no_nl {z : Str} (hz : '\n' ∉ z) : splitOnNl z = [z] := by
  induction z with
  | nil => simp [splitOnNl]
  | cons c t ih =>
    have hc : c ≠ '\n' := fun h => hz (h ▸ List.mem_cons_self c t)
    have ht : '\n' ∉ t := fun h => hz (List.mem_cons_of_mem c h)
    rw [splitOnNl_cons_ne hc, ih ht]
    simp [List.headI, List.tail]

/-- Segments produced by `splitOnNl` contain no newline. -/
theorem splitOnNl_seg_no_nl {c : Str} {s : Str} (hs : s ∈ splitOnNl c) :
    '\n' ∉ s := by
  induction c generalizing s with
  | nil =>
    simp [splitOnNl] at hs
    simp [hs]
  | cons x t ih =>
    by_cases hx : x = '\n'
    · subst hx
      rw [splitOnNl_cons_nl] at hs
      rcases List.mem_cons.mp hs with rfl | hmem
      · simp
      · exact ih hmem
    · obtain ⟨s0, ss0, h0⟩ := splitOnNl_dest t
      rw [splitOnNl_cons_ne hx, h0] at hs
      simp only [List.headI, List.tail] at hs
      rcases List.mem_cons.mp hs with rfl | hmem
      · intro hin
        rcases List.mem_cons.mp hin with h1 | h2
        · exact hx h1.symm
        · exact ih (h0 ▸ List.mem_cons_self s0 ss0) h2
      · exact ih (h0 ▸ List.mem_cons_of_mem s0 hmem)

theorem occurs_joinNl_of_mem {s : Str} {l : List Str} (hs : s ∈ l) :
    Occurs s (joinNl l) := by
  induction l with
  | nil => simp at hs
  | cons s0 ss ih =>
    rcases List.mem_cons.mp hs with rfl | hmem
    · cases ss with
      | nil => exact ⟨[], [], by simp [joinNl]⟩
      | cons s1 ss1 => exact ⟨[], '\n' :: joinNl (s1 :: ss1), by simp [joinNl]⟩
    · obtain ⟨a, b, hab⟩ := ih hmem
      cases ss with
      | nil => simp at hmem
      | cons s1 ss1 =>
        exact ⟨s0 ++ '\n' :: a, b, by simp [joinNl, hab]⟩

/-- Every segment occurs as a contiguous substring of the content. -/
theorem splitOnNl_seg_occurs {c s : Str} (hs : s ∈ splitOnNl c) : Occurs s c := by
  have := occurs_joinNl_of_mem hs
  rwa [joinNl_splitOnNl] at this

/-- Python `readlines()` / file-line iteration: split after each newline,
keeping the newline; a final unterminated chunk is kept as a line. -/
def readlines : Str → List Str
  | [] => []
  | c :: t =>
    if c = '\n' then ['\n'] :: readlines t
    else (c :: (readlines t).headI) :: (readlines t).tail

theorem readlines_cons_nl (t : Str) : readlines ('\n' :: t) = ['\n'] :: readlines t := by
  simp [readlines]

theorem readlines_cons_ne {c : Char} (hc : c ≠ '\n') (t : Str) :
    readlines (c :: t) = (c :: (readlines t).headI) :: (readlines t).tail := by
  simp [readlines, hc]

theorem readlines_eq_nil {t : Str} (h : readlines t = []) : t = [] := by
  cases t with
  | nil => rfl
  | cons c u =>
    by_cases hc : c = '\n'
    · subst hc; rw [readlines_cons_nl] at h; simp at h
    · rw [readlines_cons_ne hc] at h; simp at h

theorem join_readlines (c : Str) : (readlines c).join = c := by
  induction c with
  | nil => simp [readlines]
  | cons x t ih =>
    by_cases hx : x = '\n'
    · subst hx
      rw [readlines_cons_nl]
      simp [ih]
    · rw [readlines_cons_ne hx]
      cases hr : readlines t with
      | nil =>
        have ht : t = [] := readlines_eq_nil hr
        subst ht
        rfl
      | cons l ls =>
        rw [hr] at ih
        simp only [List.headI, List.tail, List.join_cons]
        simp only [List.join_cons] at ih
        rw [← ih]
        simp

/-- Shape of a list of raw lines: every line ends with its only newline,
except that the final line may instead be newline-free and nonempty. -/
inductive LineList : List Str → Prop
  | nil : LineList []
  | last {a : Str} : '\n' ∉ a → a ≠ [] → LineList [a]
  | cons {a : Str} {rest : List Str} : '\n' ∉ a → LineList rest →
      LineList ((a ++ ['\n']) :: rest)

theorem readlines_lineList (c : Str) : LineList (readlines c) := by
  induction c with
  | nil => exact LineList.nil
  | cons x t ih =>
    by_cases hx : x = '\n'
    · subst hx
      rw [readlines_cons_nl]
      exact LineList.cons (List.not_mem_nil '\n') ih
    · rw [readlines_cons_ne hx]
      cases hr : readlines t with
      | nil =>
        show LineList [[x]]
        refine LineList.last ?_ (by simp)
        intro hmem
        exact hx (List.mem_singleton.mp hmem).symm
      | cons l ls =>
        rw [hr] at ih
        simp only [List.headI, List.tail]
        cases ih with
        | last hnl hne =>
          refine LineList.last ?_ (by simp)
          intro hmem
          rcases List.mem_cons.mp hmem with h1 | h2
          · exact hx h1.symm
          · exact hnl h2
        | cons hnl hrest =>
          rename_i a
          show LineList ((x :: (a ++ ['\n'])) :: ls)
          have hfold : x :: (a ++ ['\n']) = (x :: a) ++ ['\n'] := by simp
          rw [hfold]
          refine LineList.cons ?_ hrest
          intro hmem
          rcases List.mem_cons.mp hmem with h1 | h2
          · exact hx h1.symm
          · exact hnl h2

theorem readlines_no_nl {a : Str} (hnl : '\n' ∉ a) (hne : a ≠ []) :
    readlines a = [a] := by
  induction a with
  | nil => exact absurd rfl hne
  | cons c t ih =>
    have hc : c ≠ '\n' := fun h => hnl (h ▸ List.mem_cons_self c t)
    have ht : '\n' ∉ t := fun h => hnl (List.mem_cons_of_mem c h)
    rw [readlines_cons_ne hc]
    cases t with
    | nil => rfl
    | cons y u =>
      rw [ih ht (by simp)]
      simp [List.headI, List.tail]

theorem readlines_append_nl {a : Str} (hnl : '\n' ∉ a) (y : Str) :
    readlines (a ++ '\n' :: y) = (a ++ ['\n']) :: readlines y := by
  induction a with
  | nil => simp [readlines_cons_nl]
  | cons c t ih =>
    have hc : c ≠ '\n' := fun h => hnl (h ▸ List.mem_cons_self c t)
    have ht : '\n' ∉ t := fun h => hnl (List.mem_cons_of_mem c h)
    rw [List.cons_append, readlines_cons_ne hc, ih ht]
    simp [List.headI, List.tail]

theorem readlines_join {ls : List Str} (h : LineList ls) :
    readlines ls.join = ls := by
  induction h with
  | nil => simp [readlines]
  | last hnl hne => simpa using readlines_no_nl hnl hne
  | cons hnl hrest ih =>
    rename_i a rest
    have : ((a ++ ['\n']) :: rest).join = a ++ '\n' :: rest.join := by simp
    rw [this, readlines_append_nl hnl, ih]

/-- Joins of line lists are uniquely decodable. -/
theorem lineList_join_inj {xs ys : List Str} (hx : LineList xs) (hy : LineList ys)
    (h : xs.join = ys.join) : xs = ys := by
  have h1 : readlines xs.join = xs := readlines_join hx
  have h2 : readlines ys.join = ys := readlines_join hy
  rw [← h1, ← h2, h]

/-- A terminated line. -/
def GoodLine (l : Str) : Prop := ∃ a, l = a ++ ['\n'] ∧ '\n' ∉ a

theorem lineList_append {xs ys : List Str} (hx : ∀ l ∈ xs, GoodLine l)
    (hy : LineList ys) : LineList (xs ++ ys) := by
  induction xs with
  | nil => simpa using hy
  | cons l ls ih =>
    obtain ⟨a, hl, hnl⟩ := hx l (List.mem_cons_self l ls)
    rw [List.cons_append, hl]
    exact LineList.cons hnl (ih (fun l' hl' => hx l' (List.mem_cons_of_mem l hl')))

/-! ### Files and trees

A working tree is the ordered list of `build.prop` files the walk
`target_dir.rglob("build.prop")` enumerates; a file is identified by its
partition directory (first path component) and its sub-path within the
partition.  The per-partition walk `(target_dir / part).rglob(...)` is the
subsequence of the whole-tree walk restricted to that partition. -/

structure PFile where
  part : Str
  sub : Str
  content : Str
deriving DecidableEq

abbrev Tree := List PFile

def getFile (t : Tree) (p s : Str) : Option Str :=
  (t.find? (fun f => f.part = p ∧ f.sub = s)).map PFile.content

def setFile (t : Tree) (p s c : Str) : Tree :=
  t.map (fun f => if f.part = p ∧ f.sub = s then PFile.mk f.part f.sub c else f)

/-- Canonical `product/etc/build.prop`. -/
def prodPart : Str := S ("product")

def prodSub : Str := S ("etc")

/-- Canonical `vendor/build.prop`. -/
def vendPart : Str := S ("vendor")

def vendSub : Str := []

/-! ### The `key=.*` regular-expression primitives

`re.search(f"{re.escape(key)}=.*", content)` and the corresponding `re.sub`:
since `.` does not match a newline, a match starts at an occurrence of `key=`
and runs to the end of that line, and `re.sub` rewrites every line containing
such an occurrence.  We model both line-wise over `splitOnNl`. -/

def keyPat (key : Str) : Str := key ++ ['=']

/-- The text matched by `re.search(key=.*, content)`: the tail, up to end of
line, of the first line containing `key=`. -/
def reSearchKey (key c : Str) : Option Str :=
  (splitOnNl c).findSome? (fun seg => (splitFirst (keyPat key) seg).map Prod.snd)

/-- `re.sub` on a single line: replace from the first `key=` to end of line. -/
def subKeySeg (key val seg : Str) : Str :=
  match splitFirst (keyPat key) seg with
  | some (a, _) => a ++ keyPat key ++ val
  | none => seg

/-- `re.sub(f"{re.escape(key)}=.*", f"{key}={val}", content)`. -/
def reSubKey (key val c : Str) : Str :=
  joinNl ((splitOnNl c).map (subKeySeg key val))

/-- `PropertyModifier._update_or_append_prop` on the content of an existing
file; the boolean records whether the file is written. -/
def updateOrAppendPropW (c key val : Str) : Str × Bool :=
  let repl := keyPat key ++ val
  match reSearchKey key c with
  | some m => if m ≠ repl then (reSubKey key val c, true) else (c, false)
  | none => (c ++ '\n' :: repl ++ ['\n'], true)

/-- `PropertyModifier._update_or_append_prop`: entirely a no-op when the file
does not exist. -/
def updateOrAppendProp (file : Option Str) (key val : Str) : Option Str :=
  match file with
  | none => none
  | some c => some (updateOrAppendPropW c key val).1

/-- Update-or-append applied to a file of the tree (no-op if absent). -/
def uoaTree (t : Tree) (p s key val : Str) : Tree :=
  match getFile t p s with
  | none => t
  | some c => setFile t p s (updateOrAppendPropW c key val).1

/-! ### Replacement rules and the line-rewrite loops -/

/-- A `(prefix, replacement-line)` rule: `pre = "key="`, `out = "key=value"`. -/
structure Rule where
  pre : Str
  out : Str
deriving DecidableEq

/-- First rule whose prefix matches the stripped line (dict iteration order). -/
def ruleFor (rules : List Rule) (strippedLine : Str) : Option Rule :=
  rules.find? (fun r => r.pre.isPrefixOf strippedLine)

/-- Hard-coded deletion key of `_update_general_info`. -/
def delKey : Str := S ("ro.miui.density.primaryscale")

/-- One iteration of the `_update_general_info` per-line loop: the produced
lines (empty on deletion) and whether `file_changed` is set. -/
def generalLineOut (rules : List Rule) (line : Str) : List Str × Bool :=
  match ruleFor rules (strip line) with
  | some r => if strip line ≠ r.out then ([r.out ++ ['\n']], true) else ([line], false)
  | none =>
    if (keyPat delKey).isPrefixOf (strip line) then ([], true)
    else ([line], false)

/-- `_update_general_info` on one file: new content and the write flag. -/
def generalFileW (rules : List Rule) (c : Str) : Str × Bool :=
  let rs := (readlines c).map (generalLineOut rules)
  if rs.any (fun p => p.2) then ((rs.map Prod.fst).join.join, true) else (c, false)

/-- One iteration of the `_regenerate_fingerprint` per-line loop (same shape,
but with no deletion rule). -/
def fpLineOut (rules : List Rule) (line : Str) : Str × Bool :=
  match ruleFor rules (strip line) with
  | some r => if strip line ≠ r.out then (r.out ++ ['\n'], true) else (line, false)
  | none => (line, false)

/-- `_regenerate_fingerprint`'s write-back loop on one file. -/
def fpFileW (rules : List Rule) (c : Str) : Str × Bool :=
  let rs := (readlines c).map (fpLineOut rules)
  if rs.any (fun p => p.2) then ((rs.map Prod.fst).join, true) else (c, false)

/-! ### Build context and configuration -/

/-- The externally supplied porting context (read-only). -/
structure Ctx where
  stock_rom_code : Str
  target_rom_version : Str
  is_port_eu_rom : Bool
  port_android_version : Str
  /-- `self.ctx.stock.get_prop`: empty string when the key is unknown. -/
  stockProps : Str → Str

/-- Build metadata resolved at pass time: the formatted UTC timestamp, the
epoch seconds, and the `BUILD_USER`/`BUILD_HOST` environment overrides. -/
structure BuildMeta where
  build_date : Str
  build_utc : Str
  build_user : Str
  build_host : Str

/-- A value template of `props_global.json`: literal chunks and `{name}`
placeholders, as consumed by Python `str.format`. -/
inductive TplPart
  | lit (s : Str)
  | ph (n : Str)
deriving DecidableEq

abbrev Tpl := List TplPart

/-- The placeholder context `fmt_map` of `_update_general_info`. -/
structure FmtEnv where
  build_date : Str
  build_utc : Str
  base_code : Str
  rom_version : Str
  build_user : Str
  build_host : Str

def mkFmtEnv (ctx : Ctx) (m : BuildMeta) : FmtEnv :=
  FmtEnv.mk m.build_date m.build_utc ctx.stock_rom_code ctx.target_rom_version
    m.build_user m.build_host

/-- The placeholder names admitted by `fmt_map`. -/
def phNames : List Str :=
  [S ("build_date"), S ("build_utc"), S ("base_code"), S ("rom_version"),
   S ("build_user"), S ("build_host")]

def phLookup (e : FmtEnv) (n : Str) : Option Str :=
  if n = S ("build_date") then some e.build_date
  else if n = S ("build_utc") then some e.build_utc
  else if n = S ("base_code") then some e.base_code
  else if n = S ("rom_version") then some e.rom_version
  else if n = S ("build_user") then some e.build_user
  else if n = S ("build_host") then some e.build_host
  else none

/-- `v.format(**fmt_map)`: substitution of placeholders; a reference to a name
outside `fmt_map` raises (`KeyError`), modelled as `Except.error name`. -/
def renderTpl (e : FmtEnv) : Tpl → Except Str Str
  | [] => Except.ok []
  | TplPart.lit s :: rest => (renderTpl e rest).map (fun v => s ++ v)
  | TplPart.ph n :: rest =>
    match phLookup e n with
    | some v => (renderTpl e rest).map (fun w => v ++ w)
    | none => Except.error n

/-- The `final_replacements` loop: one rule `("k=", "k=" + formatted)` per
entry, failing at the first template whose formatting raises. -/
def mkRules (e : FmtEnv) : List (Str × Tpl) → Except Str (List Rule)
  | [] => Except.ok []
  | (k, v) :: rest =>
    match renderTpl e v with
    | Except.error n => Except.error n
    | Except.ok fv =>
      match mkRules e rest with
      | Except.error n => Except.error n
      | Except.ok rs => Except.ok (Rule.mk (keyPat k) (keyPat k ++ fv) :: rs)

/-- First-match association-list lookup (Python dict access). -/
def lookupA {α : Type} (l : List (Str × α)) (k : Str) : Option α :=
  (l.find? (fun p => p.1 = k)).map Prod.snd

/-- Python `dict.update`: existing keys keep their position with the new
value; new keys are appended in order. -/
def dictUpdate {α : Type} (base upd : List (Str × α)) : List (Str × α) :=
  base.map (fun p => (p.1, (lookupA upd p.1).getD p.2)) ++
    upd.filter (fun p => (lookupA base p.1).isNone)

/-- `props_global.json`: `common` plus the `eu_rom`/`cn_rom` overlays. -/
structure GCfg where
  common : List (Str × Tpl)
  eu_rom : List (Str × Tpl)
  cn_rom : List (Str × Tpl)

/-- Result of loading an external rule table. -/
inductive Load (α : Type)
  | missing
  | malformed
  | ok (a : α)

/-- The merged rule table: `common` updated with the regional overlay. -/
def mergedTpls (ctx : Ctx) (g : GCfg) : List (Str × Tpl) :=
  if ctx.is_port_eu_rom then dictUpdate g.common g.eu_rom
  else dictUpdate g.common g.cn_rom

/-- `PropertyModifier._update_general_info`.  A missing or unparsable
`props_global.json` returns early (no-op); a failing template substitution
propagates as an error. -/
def updateGeneralInfo (ctx : Ctx) (m : BuildMeta) (g : Load GCfg) (t : Tree) :
    Except Str Tree :=
  match g with
  | Load.missing => Except.ok t
  | Load.malformed => Except.ok t
  | Load.ok cfg =>
    match mkRules (mkFmtEnv ctx m) (mergedTpls ctx cfg) with
    | Except.error n => Except.error n
    | Except.ok rules =>
      Except.ok (t.map (fun f => PFile.mk f.part f.sub (generalFileW rules f.content).1))

/-! ### Density pass -/

def lcdKey : Str := S ("ro.sf.lcd_density")

def densityV2Key : Str := S ("persist.miui.density_v2")

/-- The base density: the stock accessor probed (identically) for each of
`product`/`system`, falling back to the literal `"560"`. -/
def baseDensity (ctx : Ctx) : Str :=
  let v := ctx.stockProps lcdKey
  if v ≠ [] then v else S ("560")

/-- `_update_density` per-file rewriting: both `in content` checks are made on
the original content, the substitutions chain on the new content. -/
def densityFileNew (base c : Str) : Str :=
  let c1 := if containsSub (keyPat lcdKey) c then reSubKey lcdKey base c else c
  if containsSub (keyPat densityV2Key) c then reSubKey densityV2Key base c1 else c1

/-- `PropertyModifier._update_density`. -/
def updateDensity (ctx : Ctx) (t : Tree) : Tree :=
  let base := baseDensity ctx
  let t' := t.map (fun f => PFile.mk f.part f.sub (densityFileNew base f.content))
  let found := t.any (fun f => containsSub (keyPat lcdKey) f.content)
  if found then t'
  else
    match getFile t' prodPart prodSub with
    | some c => setFile t' prodPart prodSub (c ++ '\n' :: keyPat lcdKey ++ base ++ ['\n'])
    | none => t'

/-! ### Specific fixes pass -/

def milletNeedle : Str := S ("persist.sys.millet.cgroup1")

def hashNeedle : Str := S ("#persist")

/-- The vendor cgroup fix: comment the property out unless a `#persist`
marker is already present anywhere in the file. -/
def milletFix (c : Str) : Str :=
  if containsSub milletNeedle c && !(containsSub hashNeedle c) then
    replaceAllSub milletNeedle ('#' :: milletNeedle) c
  else c

/-- `ro.millet.netlink` from the stock accessor, defaulting to `"29"`. -/
def milletVer (ctx : Ctx) : Str :=
  let v := ctx.stockProps (S ("ro.millet.netlink"))
  if v = [] then S ("29") else v

/-- `PropertyModifier._apply_specific_fixes`. -/
def applySpecificFixes (ctx : Ctx) (t : Tree) : Tree :=
  let t1 := uoaTree t prodPart prodSub (S ("ro.miui.cust_erofs")) (S ("0"))
  let t2 := uoaTree t1 prodPart prodSub (S ("ro.millet.netlink")) (milletVer ctx)
  let t3 := uoaTree t2 prodPart prodSub (S ("persist.sys.background_blur_supported")) (S ("true"))
  let t4 := uoaTree t3 prodPart prodSub (S ("persist.sys.background_blur_version")) (S ("2"))
  match getFile t4 vendPart vendSub with
  | none => t4
  | some c => setFile t4 vendPart vendSub (milletFix c)

/-! ### Fingerprint regeneration -/

/-- The fixed partition search order of `get_current_prop`. -/
def fpParts : List Str := [S ("product"), S ("system"), S ("vendor"), S ("mi_ext")]

/-- Python `line.split("=", 1)[1]`: everything after the first `=`. -/
def afterFirstEq : Str → Str
  | [] => []
  | c :: t => if c = '=' then t else afterFirstEq t

/-- The value read from a matching line. -/
def lineVal (line : Str) : Str := strip (afterFirstEq line)

/-- First line of a file whose stripped form starts with `key=`. -/
def filePropVal (key c : Str) : Option Str :=
  (readlines c).findSome? (fun l =>
    if (keyPat key).isPrefixOf (strip l) then some (lineVal l) else none)

def partFiles (t : Tree) (p : Str) : List PFile := t.filter (fun f => f.part = p)

/-- `get_current_prop`: priority search over the partition order, first match
wins across the whole ordered search. -/
def getCurrentProp (t : Tree) (key dflt : Str) : Str :=
  match fpParts.findSome? (fun p =>
      (partFiles t p).findSome? (fun f => filePropVal key f.content)) with
  | some v => v
  | none => dflt

/-- The seven fingerprint components (with the source's defaults). -/
structure FpComps where
  brand : Str
  name : Str
  device : Str
  version : Str
  build_id : Str
  incremental : Str
  build_type : Str
  tags : Str
deriving DecidableEq

def readFpComps (t : Tree) : FpComps :=
  FpComps.mk
    (getCurrentProp t (S ("ro.product.brand")) (S ("Xiaomi")))
    (getCurrentProp t (S ("ro.product.mod_device")) [])
    (getCurrentProp t (S ("ro.product.device")) (S ("miproduct")))
    (getCurrentProp t (S ("ro.build.version.release")) [])
    (getCurrentProp t (S ("ro.build.id")) [])
    (getCurrentProp t (S ("ro.build.version.incremental")) [])
    (getCurrentProp t (S ("ro.build.type")) (S ("user")))
    (getCurrentProp t (S ("ro.build.tags")) (S ("release-keys")))

/-- `Brand/Name/Device:Release/ID/Incremental:Type/Tags`. -/
def mkFingerprint (f : FpComps) : Str :=
  f.brand ++ '/' :: f.name ++ '/' :: f.device ++ ':' :: f.version ++
    '/' :: f.build_id ++ '/' :: f.incremental ++ ':' :: f.build_type ++ '/' :: f.tags

/-- `f"{name}-{build_type} {version} {build_id} {incremental} {tags}"`. -/
def mkDescription (f : FpComps) : Str :=
  f.name ++ '-' :: f.build_type ++ ' ' :: f.version ++ ' ' :: f.build_id ++
    ' ' :: f.incremental ++ ' ' :: f.tags

/-- The replacement table of `_regenerate_fingerprint`, in dict order. -/
def fpRules (fp desc : Str) : List Rule :=
  [ Rule.mk (S ("ro.build.fingerprint=")) (S ("ro.build.fingerprint=") ++ fp),
    Rule.mk (S ("ro.bootimage.build.fingerprint=")) (S ("ro.bootimage.build.fingerprint=") ++ fp),
    Rule.mk (S ("ro.system.build.fingerprint=")) (S ("ro.system.build.fingerprint=") ++ fp),
    Rule.mk (S ("ro.product.build.fingerprint=")) (S ("ro.product.build.fingerprint=") ++ fp),
    Rule.mk (S ("ro.system_ext.build.fingerprint=")) (S ("ro.system_ext.build.fingerprint=") ++ fp),
    Rule.mk (S ("ro.vendor.build.fingerprint=")) (S ("ro.vendor.build.fingerprint=") ++ fp),
    Rule.mk (S ("ro.odm.build.fingerprint=")) (S ("ro.odm.build.fingerprint=") ++ fp),
    Rule.mk (S ("ro.build.description=")) (S ("ro.build.description=") ++ desc),
    Rule.mk (S ("ro.system.build.description=")) (S ("ro.system.build.description=") ++ desc) ]

/-- `PropertyModifier._regenerate_fingerprint`. -/
def regenerateFingerprint (t : Tree) : Tree :=
  let comps := readFpComps t
  let rules := fpRules (mkFingerprint comps) (mkDescription comps)
  t.map (fun f => PFile.mk f.part f.sub (fpFileW rules f.content).1)

/-! ### Scheduler tuning pass -/

/-- `scheduler.json`: platform code (or sentinel) to property set. -/
abbrev SCfg := List (Str × List (Str × Str))

/-- `get_platform_code`: substring probes of the vendor file, in order. -/
def getPlatformCode (t : Tree) : Str :=
  match getFile t vendPart vendSub with
  | some c =>
    if containsSub (S ("sm8550")) c then S ("sm8550")
    else if containsSub (S ("sm8450")) c then S ("sm8450")
    else if containsSub (S ("sm8250")) c then S ("sm8250")
    else S ("unknown")
  | none => S ("unknown")

/-- The selection policy of `_optimize_core_affinity` (match logic step 4). -/
def selectSchedProps (cfg : SCfg) (platform androidVer : Str) : List (Str × Str) :=
  match lookupA cfg platform with
  | some ps => ps
  | none =>
    if platform = S ("unknown") ∧ androidVer = S ("15") then
      match lookupA cfg (S ("android_15")) with
      | some ps => ps
      | none => (lookupA cfg (S ("default"))).getD []
    else (lookupA cfg (S ("default"))).getD []

/-- Batch application of the selected set to the canonical product file. -/
def applySched (ctx : Ctx) (cfg : SCfg) (t : Tree) : Tree :=
  let platform := getPlatformCode t
  let props := selectSchedProps cfg platform ctx.port_android_version
  props.foldl (fun acc kv => uoaTree acc prodPart prodSub kv.1 kv.2) t

/-- `PropertyModifier._optimize_core_affinity`: no-op when the canonical
product file is missing; a malformed `scheduler.json` skips the pass, a
missing one continues with the empty table. -/
def optimizeCoreAffinity (ctx : Ctx) (s : Load SCfg) (t : Tree) : Tree :=
  match getFile t prodPart prodSub with
  | none => t
  | some _ =>
    match s with
    | Load.malformed => t
    | Load.missing => applySched ctx [] t
    | Load.ok cfg => applySched ctx cfg t

/-- `PropertyModifier.run`: the five passes in order; an error in the
general-info pass aborts the run. -/
def runPipeline (ctx : Ctx) (m : BuildMeta) (g : Load GCfg) (s : Load SCfg)
    (t : Tree) : Except Str Tree :=
  match updateGeneralInfo ctx m g t with
  | Except.error n => Except.error n
  | Except.ok t1 =>
    Except.ok (optimizeCoreAffinity ctx s
      (regenerateFingerprint (applySpecificFixes ctx (updateDensity ctx t1))))

/-! ### Commutation of `str.replace` with the line split -/

theorem splitOnNl_append_no_nl {x : Str} (hx : '\n' ∉ x) (y : Str) :
    splitOnNl (x ++ y) = (x ++ (splitOnNl y).headI) :: (splitOnNl y).tail := by
  induction x with
  | nil =>
    obtain ⟨s, ss, hs⟩ := splitOnNl_dest y
    simp [hs, List.headI, List.tail]
  | cons c t ih =>
    have hc : c ≠ '\n' := fun h => hx (h ▸ List.mem_cons_self c t)
    have ht : '\n' ∉ t := fun h => hx (List.mem_cons_of_mem c h)
    rw [List.cons_append, splitOnNl_cons_ne hc, ih ht]
    simp [List.headI, List.tail]

theorem splitOnNl_head_prefix {t s : Str} {ss : List Str}
    (hs : splitOnNl t = s :: ss) : s <+: t := by
  have hj : joinNl (s :: ss) = t := by rw [← hs]; exact joinNl_splitOnNl t
  cases ss with
  | nil => exact ⟨[], by simpa [joinNl_single] using hj⟩
  | cons s2 ss2 =>
    rw [joinNl_cons _ (List.cons_ne_nil s2 ss2)] at hj
    exact ⟨'\n' :: joinNl (s2 :: ss2), hj⟩

theorem splitOnNl_replaceAllSub {n r : Str} (hn : '\n' ∉ n) (hr : '\n' ∉ r)
    (hne : n ≠ []) (c : Str) :
    splitOnNl (replaceAllSub n r c) = (splitOnNl c).map (replaceAllSub n r) := by
  have main : ∀ (m : Nat) (c : Str), c.length ≤ m →
      splitOnNl (replaceAllSub n r c) = (splitOnNl c).map (replaceAllSub n r) := by
    intro m
    induction m with
    | zero =>
      intro c hc
      have hcnil : c = [] := List.eq_nil_of_length_eq_zero (Nat.le_zero.mp hc)
      subst hcnil
      simp [replaceAllSub_nil, splitOnNl]
    | succ m ih =>
      intro c hc
      cases c with
      | nil => simp [replaceAllSub_nil, splitOnNl]
      | cons ch t =>
        by_cases hp : n.isPrefixOf (ch :: t) = true
        · obtain ⟨rest, hcr, heq⟩ := replaceAllSub_pos r hne hp
          have hlr : rest.length ≤ m := by
            have h1 : (ch :: t).length = n.length + rest.length := by
              rw [hcr]; simp
            have h2 : 1 ≤ n.length := List.length_pos.mpr hne
            have h3 : (ch :: t).length ≤ m + 1 := hc
            omega
          have ihr := ih rest hlr
          obtain ⟨s, ss, hs⟩ := splitOnNl_dest rest
          rw [heq, splitOnNl_append_no_nl hr, ihr, hs, hcr,
            splitOnNl_append_no_nl hn, hs]
          simp only [List.map, List.headI, List.tail, List.map_cons]
          obtain ⟨rest2, hcr2, heq2⟩ :=
            replaceAllSub_pos r hne (n := n) (c := n ++ s)
              (List.isPrefixOf_iff_prefix.mpr ⟨s, rfl⟩)
          have hrs : rest2 = s := List.append_cancel_left hcr2.symm
          rw [heq2, hrs]
        · have heq : replaceAllSub n r (ch :: t) = ch :: replaceAllSub n r t :=
            replaceAllSub_neg r (fun h => hp h.1)
          have hlt : t.length ≤ m := by
            have : (ch :: t).length ≤ m + 1 := hc
            simpa using this
          have iht := ih t hlt
          by_cases hch : ch = '\n'
          · subst hch
            rw [heq, splitOnNl_cons_nl, splitOnNl_cons_nl, iht]
            simp [replaceAllSub_nil]
          · obtain ⟨s, ss, hs⟩ := splitOnNl_dest t
            rw [heq, splitOnNl_cons_ne hch, splitOnNl_cons_ne hch, iht, hs]
            simp only [List.map_cons, List.headI, List.tail]
            have hnp : ¬ (n.isPrefixOf (ch :: s) = true ∧ n ≠ []) := by
              rintro ⟨hps, -⟩
              apply hp
              apply List.isPrefixOf_iff_prefix.mpr
              have h1 : (ch :: s) <+: (ch :: t) := by
                obtain ⟨u, hu⟩ := splitOnNl_head_prefix hs
                exact ⟨u, by simp [hu]⟩
              exact (List.isPrefixOf_iff_prefix.mp hps).trans h1
            rw [replaceAllSub_neg r hnp]
  exact main c.length c (le_refl _)

/-- If a string occurs in `c`, then after `str.replace` the replacement (hence
any substring of it) occurs in the result. -/
theorem occurs_replaceAllSub_of_occurs {n r c : Str} (hne : n ≠ [])
    (ho : Occurs n c) : Occurs r (replaceAllSub n r c) := by
  have main : ∀ (m : Nat) (c : Str), c.length ≤ m → Occurs n c →
      Occurs r (replaceAllSub n r c) := by
    intro m
    induction m with
    | zero =>
      intro c hc ho
      have hcnil : c = [] := List.eq_nil_of_length_eq_zero (Nat.le_zero.mp hc)
      subst hcnil
      obtain ⟨a, b, hab⟩ := ho
      rcases List.append_eq_nil.mp hab.symm with ⟨h1, _⟩
      exact absurd (List.append_eq_nil.mp h1).2 hne
    | succ m ih =>
      intro c hc ho
      cases c with
      | nil =>
        obtain ⟨a, b, hab⟩ := ho
        rcases List.append_eq_nil.mp hab.symm with ⟨h1, _⟩
        exact absurd (List.append_eq_nil.mp h1).2 hne
      | cons ch t =>
        by_cases hp : n.isPrefixOf (ch :: t) = true
        · obtain ⟨rest, hcr, heq⟩ := replaceAllSub_pos r hne hp
          rw [heq]
          exact ⟨[], replaceAllSub n r rest, by simp⟩
        · have heq : replaceAllSub n r (ch :: t) = ch :: replaceAllSub n r t :=
            replaceAllSub_neg r (fun h => hp h.1)
          rw [heq]
          have hot : Occurs n t := by
            obtain ⟨a, b, hab⟩ := ho
            cases a with
            | nil =>
              exfalso
              exact hp (List.isPrefixOf_iff_prefix.mpr ⟨b, by simpa using hab.symm⟩)
            | cons x xs =>
              exact ⟨xs, b, by simpa using congrArg List.tail hab⟩
          have hlt : t.length ≤ m := by simpa using hc
          obtain ⟨a, b, hab⟩ := ih t hlt hot
          exact ⟨ch :: a, b, by simp [hab]⟩
  exact main c.length c (le_refl _) ho

/-! ### Claim C5: the millet cgroup fix -/

/-- C5: for every vendor canonical file content containing the line
`persist.sys.millet.cgroup1=1` with no `#persist` comment marker anywhere, the
specific-fixes pass rewrites that line to `#persist.sys.millet.cgroup1=1`, and
applying the pass again leaves the content unchanged (the guard prevents
double-commenting). -/
theorem c5_millet_comment_idempotent (c : Str)
    (hline : S ("persist.sys.millet.cgroup1=1") ∈ splitOnNl c)
    (hnomark : ¬ Occurs hashNeedle c) :
    S ("#persist.sys.millet.cgroup1=1") ∈ splitOnNl (milletFix c) ∧
    milletFix (milletFix c) = milletFix c := by
  have hoccline : Occurs milletNeedle (S ("persist.sys.millet.cgroup1=1")) :=
    ⟨[], S ("=1"), by decide⟩
  have hocc : Occurs milletNeedle c :=
    occurs_trans_sub hoccline (splitOnNl_seg_occurs hline)
  have hc1 : containsSub milletNeedle c = true := (containsSub_iff _ _).mpr hocc
  have hc2 : containsSub hashNeedle c = false := by
    cases h : containsSub hashNeedle c with
    | false => rfl
    | true => exact absurd ((containsSub_iff _ _).mp h) hnomark
  have hfix : milletFix c = replaceAllSub milletNeedle ('#' :: milletNeedle) c := by
    simp [milletFix, hc1, hc2]
  have hn : '\n' ∉ milletNeedle := by decide
  have hr : '\n' ∉ '#' :: milletNeedle := by decide
  have hne : milletNeedle ≠ [] := by decide
  have hsplit : splitOnNl (milletFix c)
      = (splitOnNl c).map (replaceAllSub milletNeedle ('#' :: milletNeedle)) := by
    rw [hfix]
    exact splitOnNl_replaceAllSub hn hr hne c
  constructor
  · rw [hsplit]
    have := List.mem_map_of_mem (replaceAllSub milletNeedle ('#' :: milletNeedle)) hline
    have heval : replaceAllSub milletNeedle ('#' :: milletNeedle)
        (S ("persist.sys.millet.cgroup1=1")) = S ("#persist.sys.millet.cgroup1=1") := by
      decide
    rwa [heval] at this
  · have hmarked : Occurs hashNeedle (milletFix c) := by
      rw [hfix]
      refine occurs_trans_sub ?_ (occurs_replaceAllSub_of_occurs hne hocc)
      exact ⟨[], S (".sys.millet.cgroup1"), by decide⟩
    have hm2 : containsSub hashNeedle (milletFix c) = true :=
      (containsSub_iff _ _).mpr hmarked
    have hstable : ∀ d : Str, containsSub hashNeedle d = true → milletFix d = d := by
      intro d hd
      simp [milletFix, hd]
    exact hstable (milletFix c) hm2

/-- Witness for C5 at a concrete vendor file. -/
theorem c5_millet_witness :
    S ("#persist.sys.millet.cgroup1=1")
        ∈ splitOnNl (milletFix (S ("a=1\npersist.sys.millet.cgroup1=1\n"))) ∧
    milletFix (milletFix (S ("a=1\npersist.sys.millet.cgroup1=1\n")))
      = milletFix (S ("a=1\npersist.sys.millet.cgroup1=1\n")) :=
  c5_millet_comment_idempotent (S ("a=1\npersist.sys.millet.cgroup1=1\n"))
    (by decide)
    (fun h => absurd ((containsSub_iff _ _).mpr h) (by decide))

/-! ### Claim C9: update-or-append, absent key and missing file -/

/-- C9: for every existing file content with no occurrence of `key=`,
`_update_or_append_prop` appends `\nkey=value\n` (a new line preceded by a
blank line) at the end; when the target file does not exist the call is
entirely a no-op. -/
theorem c9_append_when_absent (c key val : Str) (habs : ¬ Occurs (keyPat key) c) :
    updateOrAppendProp (some c) key val
      = some (c ++ '\n' :: (keyPat key ++ val) ++ ['\n']) ∧
    updateOrAppendProp none key val = none := by
  constructor
  · have hsearch : reSearchKey key c = none := by
      apply List.findSome?_eq_none_iff.mpr
      intro seg hseg
      have hnone : splitFirst (keyPat key) seg = none :=
        (splitFirst_none_iff _ _).mpr
          (fun ho => habs (occurs_trans_sub ho (splitOnNl_seg_occurs hseg)))
      simp [hnone]
    simp [updateOrAppendProp, updateOrAppendPropW, hsearch]
  · rfl

/-- Witness for C9 at a concrete file. -/
theorem c9_append_witness :
    updateOrAppendProp (some (S ("x=1\n"))) (S ("key")) (S ("new"))
      = some (S ("x=1\n") ++ '\n' :: (keyPat (S ("key")) ++ S ("new")) ++ ['\n']) ∧
    updateOrAppendProp none (S ("key")) (S ("new")) = none :=
  c9_append_when_absent (S ("x=1\n")) (S ("key")) (S ("new"))
    (fun h => absurd ((containsSub_iff _ _).mpr h) (by decide))

/-! ### Claim C10: the `key=` pattern is not anchored to line starts -/

/-- C10: the existence check and rewrite of `_update_or_append_prop` match
`key=` anywhere: on a file whose only occurrence of `key` is as a suffix of
the longer key `ro.x.key`, the call rewrites the tail of that line instead of
appending a new `key=new` line. -/
theorem c10_unanchored_match :
    updateOrAppendProp (some (S ("ro.x.key=old\n"))) (S ("key")) (S ("new"))
      = some (S ("ro.x.key=new\n")) ∧
    updateOrAppendProp (some (S ("ro.x.key=old\n"))) (S ("key")) (S ("new"))
      ≠ some (S ("ro.x.key=old\n") ++ '\n' :: (keyPat (S ("key")) ++ S ("new")) ++ ['\n']) := by
  constructor
  · decide
  · decide

/-! ### Claim C4: scheduler selection policy -/

/-- C4: the scheduler-tuning selection policy, in order and first match wins:
(1) a table entry for the detected platform is used; (2) otherwise, when the
platform is unknown, the target Android version is "15" and an `android_15`
entry exists, that entry is used; (3) otherwise the `default` entry (possibly
empty) is used; in particular a detected `sm8450` platform with no `sm8450`
key and a `default` entry uses `default`, never `android_15`. -/
theorem c4_sched_selection_policy :
    (∀ (cfg : SCfg) (p v : Str) (ps : List (Str × Str)),
      lookupA cfg p = some ps → selectSchedProps cfg p v = ps) ∧
    (∀ (cfg : SCfg) (ps : List (Str × Str)),
      lookupA cfg (S ("unknown")) = none →
      lookupA cfg (S ("android_15")) = some ps →
      selectSchedProps cfg (S ("unknown")) (S ("15")) = ps) ∧
    (∀ (cfg : SCfg) (p v : Str),
      lookupA cfg p = none →
      (p ≠ S ("unknown") ∨ v ≠ S ("15") ∨ lookupA cfg (S ("android_15")) = none) →
      selectSchedProps cfg p v = (lookupA cfg (S ("default"))).getD []) ∧
    (∀ (t : Tree) (cfg : SCfg) (v c : Str) (ps : List (Str × Str)),
      getFile t vendPart vendSub = some c →
      containsSub (S ("sm8450")) c = true →
      containsSub (S ("sm8550")) c = false →
      lookupA cfg (S ("sm8450")) = none →
      lookupA cfg (S ("default")) = some ps →
      selectSchedProps cfg (getPlatformCode t) v = ps) := by
  have part3 : ∀ (cfg : SCfg) (p v : Str),
      lookupA cfg p = none →
      (p ≠ S ("unknown") ∨ v ≠ S ("15") ∨ lookupA cfg (S ("android_15")) = none) →
      selectSchedProps cfg p v = (lookupA cfg (S ("default"))).getD [] := by
    intro cfg p v hl hcase
    rcases hcase with hp | hv | ha
    · simp [selectSchedProps, hl, hp]
    · simp [selectSchedProps, hl, hv]
    · by_cases hcond : p = S ("unknown") ∧ v = S ("15")
      · obtain ⟨hp, hv⟩ := hcond
        subst hp; subst hv
        simp [selectSchedProps, hl, ha]
      · simp [selectSchedProps, hl, hcond]
  refine ⟨?_, ?_, part3, ?_⟩
  · intro cfg p v ps h
    simp [selectSchedProps, h]
  · intro cfg ps hu ha
    simp [selectSchedProps, hu, ha]
  · intro t cfg v c ps hgf h450 h550 hno hdef
    have hplat : getPlatformCode t = S ("sm8450") := by
      simp [getPlatformCode, hgf, h450, h550]
    rw [hplat, part3 cfg (S ("sm8450")) v hno (Or.inl (by decide)), hdef]
    rfl

/-- Witness for C4 (scenario C shape): platform detected `sm8450`, no
`sm8450` key, `default` present — default applied though `android_15` exists
and the version is "15". -/
theorem c4_sched_witness :
    selectSchedProps
      [(S ("default"), [(S ("ro.example"), S ("1"))]),
       (S ("android_15"), [(S ("a"), S ("b"))])]
      (getPlatformCode [PFile.mk vendPart vendSub (S ("x=sm8450\n"))])
      (S ("15"))
      = [(S ("ro.example"), S ("1"))] :=
  c4_sched_selection_policy.2.2.2
    [PFile.mk vendPart vendSub (S ("x=sm8450\n"))]
    [(S ("default"), [(S ("ro.example"), S ("1"))]),
     (S ("android_15"), [(S ("a"), S ("b"))])]
    (S ("15")) (S ("x=sm8450\n")) [(S ("ro.example"), S ("1"))]
    (by decide) (by decide) (by decide) (by decide) (by decide)

/-! ### Claim C7: fingerprint component priority search -/

/-- C7: `get_current_prop` is the first match over the flattened ordered
search (partitions in the fixed order product, system, vendor, mi_ext, files
within a partition in walk order, lines within a file in order); in
particular a value found in the product partition wins over any other
partition. -/
theorem c7_priority_search :
    (∀ (t : Tree) (key dflt : Str),
      getCurrentProp t key dflt =
        (((fpParts.map (fun p => partFiles t p)).join).findSome?
            (fun f => filePropVal key f.content)).getD dflt) ∧
    (∀ (t : Tree) (key dflt v : Str),
      (partFiles t (S ("product"))).findSome? (fun f => filePropVal key f.content)
        = some v →
      getCurrentProp t key dflt = v) := by
  have part1 : ∀ (t : Tree) (key dflt : Str),
      getCurrentProp t key dflt =
        (((fpParts.map (fun p => partFiles t p)).join).findSome?
            (fun f => filePropVal key f.content)).getD dflt := by
    intro t key dflt
    simp only [getCurrentProp, fpParts, List.map_cons, List.map_nil,
      List.join, List.findSome?_cons, List.findSome?_append, List.append_nil]
    cases h1 : (partFiles t (S ("product"))).findSome? (fun f => filePropVal key f.content) with
    | some v => simp [List.findSome?_append, h1]
    | none =>
      cases h2 : (partFiles t (S ("system"))).findSome? (fun f => filePropVal key f.content) with
      | some v => simp [List.findSome?_append, h1, h2]
      | none =>
        cases h3 : (partFiles t (S ("vendor"))).findSome? (fun f => filePropVal key f.content) with
        | some v => simp [List.findSome?_append, h1, h2, h3]
        | none =>
          cases h4 : (partFiles t (S ("mi_ext"))).findSome? (fun f => filePropVal key f.content) with
          | some v => simp [List.findSome?_append, h1, h2, h3, h4]
          | none => simp [List.findSome?_append, h1, h2, h3, h4]
  refine ⟨part1, ?_⟩
  intro t key dflt v hprod
  rw [part1]
  simp [fpParts, List.findSome?_append, hprod]

/-- Witness for C7: the product partition's value wins over the system one. -/
theorem c7_priority_witness :
    getCurrentProp
      [PFile.mk (S ("system")) [] (S ("k=b\n")),
       PFile.mk (S ("product")) [] (S ("k=a\n"))]
      (S ("k")) (S ("dflt")) = S ("a") :=
  c7_priority_search.2
    [PFile.mk (S ("system")) [] (S ("k=b\n")),
     PFile.mk (S ("product")) [] (S ("k=a\n"))]
    (S ("k")) (S ("dflt")) (S ("a")) (by decide)

/-! ### Claim C3: idempotence of update-or-append -/

theorem splitOnNl_joinNl {l : List Str} (hl : l ≠ []) (hnl : ∀ s ∈ l, '\n' ∉ s) :
    splitOnNl (joinNl l) = l := by
  induction l with
  | nil => exact absurd rfl hl
  | cons s ss ih =>
    cases ss with
    | nil =>
      rw [joinNl_single]
      exact splitOnNl_no_nl (hnl s (List.mem_cons_self s []))
    | cons s2 ss2 =>
      rw [joinNl_cons _ (List.cons_ne_nil s2 ss2), splitOnNl_append_nl,
        splitOnNl_no_nl (hnl s (List.mem_cons_self s _)),
        ih (List.cons_ne_nil s2 ss2) (fun x hx => hnl x (List.mem_cons_of_mem s hx))]
      rfl

/-- Replacing a matched line tail leaves the earliest-match position intact:
the first occurrence of `kp` in `a ++ kp ++ w` is still at `a`. -/
theorem splitFirst_replace {kp seg a b : Str} (w : Str)
    (hs : splitFirst kp seg = some (a, b)) :
    splitFirst kp (a ++ kp ++ w) = some (a, kp ++ w) := by
  obtain ⟨hseg, hpre⟩ := splitFirst_eq_append hs
  apply splitFirst_eq_of_min (by simp) (List.isPrefixOf_iff_prefix.mpr ⟨w, by simp⟩)
  intro a' b' hab hp'
  by_contra hlt
  push_neg at hlt
  obtain ⟨rest', hrest'⟩ := List.isPrefixOf_iff_prefix.mp hp'
  have hdecomp : a ++ kp ++ w = a' ++ (kp ++ rest') := by rw [hab, ← hrest']
  have hp1 : (a' ++ kp) <+: (a ++ kp ++ w) := ⟨rest', by rw [hdecomp]; simp⟩
  have hp2 : (a ++ kp) <+: (a ++ kp ++ w) := ⟨w, by simp⟩
  have hlen : (a' ++ kp).length ≤ (a ++ kp).length := by
    simp only [List.length_append]
    omega
  have hp3 : (a' ++ kp) <+: (a ++ kp) := List.prefix_of_prefix_length_le hp1 hp2 hlen
  have hp4 : (a ++ kp) <+: seg := by
    obtain ⟨r2, hr2⟩ := List.isPrefixOf_iff_prefix.mp hpre
    exact ⟨r2, by rw [hseg, ← hr2]; simp⟩
  obtain ⟨rr, hrr⟩ := hp3.trans hp4
  have hmin := splitFirst_min hs a' (kp ++ rr) (by rw [← hrr]; simp)
    (List.isPrefixOf_iff_prefix.mpr ⟨rr, rfl⟩)
  omega

/-- `splitFirst` at an exact head occurrence. -/
theorem splitFirst_head {kp w : Str} :
    splitFirst kp (kp ++ w) = some ([], kp ++ w) := by
  apply splitFirst_eq_of_min (by simp) (List.isPrefixOf_iff_prefix.mpr ⟨w, rfl⟩)
  intro a' b' _ _
  simp

theorem keyPat_ne_nil (key : Str) : keyPat key ≠ [] := by
  simp [keyPat]

/-- After `re.sub`, the first `key=` match is exactly `key=value`. -/
theorem findSome?_map_subKeySeg {key val m : Str} (l : List Str)
    (hm : l.findSome? (fun seg => (splitFirst (keyPat key) seg).map Prod.snd) = some m) :
    (l.map (subKeySeg key val)).findSome?
        (fun seg => (splitFirst (keyPat key) seg).map Prod.snd)
      = some (keyPat key ++ val) := by
  induction l with
  | nil => simp at hm
  | cons seg rest ih =>
    cases hsf : splitFirst (keyPat key) seg with
    | none =>
      have hunch : subKeySeg key val seg = seg := by simp [subKeySeg, hsf]
      rw [List.findSome?_cons, hsf] at hm
      simp only [Option.map_none'] at hm
      rw [List.map_cons, List.findSome?_cons, hunch, hsf]
      simpa using ih hm
    | some p =>
      obtain ⟨a, b⟩ := p
      have hsub : subKeySeg key val seg = a ++ keyPat key ++ val := by
        simp [subKeySeg, hsf]
      have hnew := splitFirst_replace val hsf
      rw [List.map_cons, List.findSome?_cons, hsub, hnew]
      rfl

theorem reSearchKey_none_iff (key c : Str) :
    reSearchKey key c = none ↔
      ∀ seg ∈ splitOnNl c, splitFirst (keyPat key) seg = none := by
  constructor
  · intro h seg hseg
    have := List.findSome?_eq_none_iff.mp h seg hseg
    exact Option.map_eq_none'.mp this
  · intro h
    apply List.findSome?_eq_none_iff.mpr
    intro seg hseg
    simp [h seg hseg]

theorem subKeySeg_no_nl {key val seg : Str} (hk : '\n' ∉ key) (hv : '\n' ∉ val)
    (hseg : '\n' ∉ seg) : '\n' ∉ subKeySeg key val seg := by
  unfold subKeySeg
  cases hsf : splitFirst (keyPat key) seg with
  | none => exact hseg
  | some p =>
    obtain ⟨a, b⟩ := p
    obtain ⟨hdec, _⟩ := splitFirst_eq_append hsf
    intro hmem
    rcases List.mem_append.mp hmem with h1 | h2
    · rcases List.mem_append.mp h1 with h3 | h4
      · exact hseg (hdec ▸ List.mem_append.mpr (Or.inl h3))
      · rcases List.mem_append.mp (show '\n' ∈ key ++ ['='] by
          simpa [keyPat] using h4) with h5 | h6
        · exact hk h5
        · exact absurd (List.mem_singleton.mp h6) (by decide)
    · exact hv h2

/-- The first match after `reSubKey` is the replacement itself. -/
theorem reSearchKey_reSubKey {key c m : Str} (val : Str) (hk : '\n' ∉ key) (hv : '\n' ∉ val)
    (hm : reSearchKey key c = some m) :
    reSearchKey key (reSubKey key val c) = some (keyPat key ++ val) := by
  unfold reSearchKey reSubKey
  rw [splitOnNl_joinNl]
  · exact findSome?_map_subKeySeg (splitOnNl c) hm
  · simp [splitOnNl_ne_nil]
  · intro s hsmem
    obtain ⟨seg, hseg, rfl⟩ := List.mem_map.mp hsmem
    exact subKeySeg_no_nl hk hv (splitOnNl_seg_no_nl hseg)

/-- C3: the update-or-append primitive is idempotent: a second application of
the same key and (newline-free) value performs no write and leaves the content
of the first application unchanged. -/
theorem c3_uoa_idempotent (c key val : Str) (hk : '\n' ∉ key) (hv : '\n' ∉ val) :
    updateOrAppendProp (updateOrAppendProp (some c) key val) key val
      = updateOrAppendProp (some c) key val := by
  cases hsearch : reSearchKey key c with
  | none =>
    have happend : updateOrAppendProp (some c) key val
        = some (c ++ '\n' :: (keyPat key ++ val) ++ ['\n']) := by
      simp [updateOrAppendProp, updateOrAppendPropW, hsearch]
    rw [happend]
    have hx : '\n' ∉ keyPat key ++ val := by
      intro hmem
      rcases List.mem_append.mp hmem with h1 | h2
      · rcases List.mem_append.mp h1 with h3 | h4
        · exact hk h3
        · exact absurd (List.mem_singleton.mp h4) (by decide)
      · exact hv h2
    have hsplit2 : splitOnNl (c ++ '\n' :: (keyPat key ++ val) ++ ['\n'])
        = splitOnNl c ++ [keyPat key ++ val, []] := by
      have h1 : (keyPat key ++ val) ++ ['\n']
          = (keyPat key ++ val) ++ '\n' :: ([] : Str) := by simp
      rw [show c ++ '\n' :: (keyPat key ++ val) ++ ['\n']
          = c ++ '\n' :: ((keyPat key ++ val) ++ '\n' :: ([] : Str)) by simp,
        splitOnNl_append_nl, splitOnNl_append_nl, splitOnNl_no_nl hx]
      rfl
    have hsearch2 : reSearchKey key (c ++ '\n' :: (keyPat key ++ val) ++ ['\n'])
        = some (keyPat key ++ val) := by
      unfold reSearchKey
      rw [hsplit2, List.findSome?_append]
      have hn1 : (splitOnNl c).findSome?
          (fun seg => (splitFirst (keyPat key) seg).map Prod.snd) = none := hsearch
      rw [hn1]
      simp [splitFirst_head]
    have hfixW : (updateOrAppendPropW (c ++ '\n' :: (keyPat key ++ val) ++ ['\n']) key val).1
        = c ++ '\n' :: (keyPat key ++ val) ++ ['\n'] := by
      unfold updateOrAppendPropW
      simp only [hsearch2]
      simp
    show some (updateOrAppendPropW (c ++ '\n' :: (keyPat key ++ val) ++ ['\n']) key val).1
        = some (c ++ '\n' :: (keyPat key ++ val) ++ ['\n'])
    rw [hfixW]
  | some m =>
    by_cases hrepl : m = keyPat key ++ val
    · have hsame : updateOrAppendProp (some c) key val = some c := by
        simp [updateOrAppendProp, updateOrAppendPropW, hsearch, hrepl]
      rw [hsame, hsame]
    · have hsub : updateOrAppendProp (some c) key val = some (reSubKey key val c) := by
        simp [updateOrAppendProp, updateOrAppendPropW, hsearch, hrepl]
      have hsearch2 := reSearchKey_reSubKey val hk hv hsearch
      have hresW : (updateOrAppendPropW (reSubKey key val c) key val).1
          = reSubKey key val c := by
        unfold updateOrAppendPropW
        simp only [hsearch2]
        simp
      rw [hsub]
      show some (updateOrAppendPropW (reSubKey key val c) key val).1
          = some (reSubKey key val c)
      rw [hresW]

/-- Witness for C3 on a concrete file with the key present. -/
theorem c3_uoa_witness :
    updateOrAppendProp (updateOrAppendProp (some (S ("a=1\nkey=old\n"))) (S ("key")) (S ("new"))) (S ("key")) (S ("new"))
      = updateOrAppendProp (some (S ("a=1\nkey=old\n"))) (S ("key")) (S ("new")) :=
  c3_uoa_idempotent (S ("a=1\nkey=old\n")) (S ("key")) (S ("new"))
    (by decide) (by decide)

/-! ### Claim C8: fatal placeholder errors vs. soft config failures -/

theorem renderTpl_error_of_bad {e : FmtEnv} {tpl : Tpl} {n : Str}
    (hmem : TplPart.ph n ∈ tpl) (hbad : phLookup e n = none) :
    ∃ n', renderTpl e tpl = Except.error n' := by
  induction tpl with
  | nil => simp at hmem
  | cons part rest ih =>
    cases part with
    | lit s =>
      have hmem' : TplPart.ph n ∈ rest := by
        rcases List.mem_cons.mp hmem with h1 | h2
        · exact absurd h1 (by simp)
        · exact h2
      obtain ⟨n', hn'⟩ := ih hmem'
      exact ⟨n', by simp [renderTpl, hn', Except.map]⟩
    | ph n0 =>
      cases hl : phLookup e n0 with
      | none => exact ⟨n0, by simp [renderTpl, hl]⟩
      | some v =>
        have hmem' : TplPart.ph n ∈ rest := by
          rcases List.mem_cons.mp hmem with h1 | h2
          · have : n = n0 := by simpa using h1
            rw [this, hl] at hbad
            simp at hbad
          · exact h2
        obtain ⟨n', hn'⟩ := ih hmem'
        exact ⟨n', by simp [renderTpl, hl, hn', Except.map]⟩

theorem mkRules_error_of_bad {e : FmtEnv} {l : List (Str × Tpl)} {k : Str}
    {tpl : Tpl} {n : Str} (hent : (k, tpl) ∈ l) (hmem : TplPart.ph n ∈ tpl)
    (hbad : phLookup e n = none) :
    ∃ n', mkRules e l = Except.error n' := by
  induction l with
  | nil => simp at hent
  | cons kv rest ih =>
    obtain ⟨k0, v0⟩ := kv
    cases hr : renderTpl e v0 with
    | error n0 => exact ⟨n0, by simp [mkRules, hr]⟩
    | ok fv =>
      have hmem' : (k, tpl) ∈ rest := by
        rcases List.mem_cons.mp hent with h1 | h2
        · exfalso
          have hv : tpl = v0 := congrArg Prod.snd h1
          obtain ⟨n', hn'⟩ := renderTpl_error_of_bad (hv ▸ hmem) hbad
          rw [hn'] at hr
          exact Except.noConfusion hr
        · exact h2
      obtain ⟨n', hn'⟩ := ih hmem'
      refine ⟨n', ?_⟩
      simp [mkRules, hr, hn']

theorem phLookup_none {e : FmtEnv} {n : Str} (hn : n ∉ phNames) :
    phLookup e n = none := by
  simp only [phNames, List.mem_cons, not_or] at hn
  obtain ⟨h1, h2, h3, h4, h5, h6, -⟩ := hn
  simp [phLookup, h1, h2, h3, h4, h5, h6]

/-- C8: a value template of the merged general-info rule set referencing a
placeholder outside `build_date, build_utc, base_code, rom_version,
build_user, build_host` makes the substitution fail; the error propagates out
of the pass and aborts the whole run.  A missing or malformed rule-table file,
by contrast, is handled locally: the pass is a no-op and the run continues. -/
theorem c8_bad_placeholder_fatal_config_soft :
    (∀ (ctx : Ctx) (m : BuildMeta) (cfg : GCfg) (t : Tree) (k : Str)
        (tpl : Tpl) (n : Str),
      (k, tpl) ∈ mergedTpls ctx cfg → TplPart.ph n ∈ tpl → n ∉ phNames →
      (∃ msg, updateGeneralInfo ctx m (Load.ok cfg) t = Except.error msg) ∧
      (∀ s : Load SCfg, ∃ msg, runPipeline ctx m (Load.ok cfg) s t = Except.error msg)) ∧
    (∀ (ctx : Ctx) (m : BuildMeta) (t : Tree),
      updateGeneralInfo ctx m Load.missing t = Except.ok t ∧
      updateGeneralInfo ctx m Load.malformed t = Except.ok t) := by
  constructor
  · intro ctx m cfg t k tpl n hent hmem hn
    obtain ⟨n', hn'⟩ := mkRules_error_of_bad (e := mkFmtEnv ctx m) hent hmem
      (phLookup_none hn)
    constructor
    · exact ⟨n', by simp [updateGeneralInfo, hn']⟩
    · intro s
      refine ⟨n', ?_⟩
      have hgen : updateGeneralInfo ctx m (Load.ok cfg) t = Except.error n' := by
        simp [updateGeneralInfo, hn']
      simp [runPipeline, hgen]
  · intro ctx m t
    exact ⟨rfl, rfl⟩

/-- Witness for C8 with a concrete configuration using an undefined
placeholder `oops`. -/
theorem c8_bad_placeholder_witness :
    (∃ msg, updateGeneralInfo
        (Ctx.mk (S ("V14")) (S ("OS1")) false (S ("14")) (fun _ => []))
        (BuildMeta.mk (S ("d")) (S ("1")) (S ("u")) (S ("h")))
        (Load.ok (GCfg.mk [(S ("ro.x"), [TplPart.ph (S ("oops"))])] [] []))
        [] = Except.error msg) ∧
    (∀ s : Load SCfg, ∃ msg, runPipeline
        (Ctx.mk (S ("V14")) (S ("OS1")) false (S ("14")) (fun _ => []))
        (BuildMeta.mk (S ("d")) (S ("1")) (S ("u")) (S ("h")))
        (Load.ok (GCfg.mk [(S ("ro.x"), [TplPart.ph (S ("oops"))])] [] []))
        s [] = Except.error msg) :=
  (c8_bad_placeholder_fatal_config_soft.1
    (Ctx.mk (S ("V14")) (S ("OS1")) false (S ("14")) (fun _ => []))
    (BuildMeta.mk (S ("d")) (S ("1")) (S ("u")) (S ("h")))
    (GCfg.mk [(S ("ro.x"), [TplPart.ph (S ("oops"))])] [] [])
    [] (S ("ro.x")) [TplPart.ph (S ("oops"))] (S ("oops"))
    (by decide) (by decide) (by decide))

/-! ### Claim C2: the fingerprint rule table and broadcast -/

/-- The fingerprint target keys actually present in the source table: the base
key plus six partition variants — seven in total. -/
def fpKeys7 : List Str :=
  [S ("ro.build.fingerprint"), S ("ro.bootimage.build.fingerprint"),
   S ("ro.system.build.fingerprint"), S ("ro.product.build.fingerprint"),
   S ("ro.system_ext.build.fingerprint"), S ("ro.vendor.build.fingerprint"),
   S ("ro.odm.build.fingerprint")]

def descKeys2 : List Str :=
  [S ("ro.build.description"), S ("ro.system.build.description")]

/-- Scenario D fingerprint. -/
def fpScenD : Str := S ("Xiaomi/Port/miproduct:14/AB1/100:user/release-keys")

/-- Scenario D description. -/
def descScenD : Str := S ("Port-user 14 AB1 100 release-keys")

theorem fpLineOut_cases (rules : List Rule) (l : Str) :
    (fpLineOut rules l).1 = l ∨
    ∃ r ∈ rules, (fpLineOut rules l).1 = r.out ++ ['\n'] := by
  unfold fpLineOut
  cases hrf : ruleFor rules (strip l) with
  | none => exact Or.inl rfl
  | some r =>
    by_cases h : strip l = r.out
    · exact Or.inl (by simp [h])
    · exact Or.inr ⟨r, List.mem_of_find?_eq_some hrf, by simp [h]⟩

theorem fpLineOut_false {rules : List Rule} {l : Str}
    (h : (fpLineOut rules l).2 = false) : (fpLineOut rules l).1 = l := by
  unfold fpLineOut at h ⊢
  cases hrf : ruleFor rules (strip l) with
  | none => rfl
  | some r =>
    rw [hrf] at h
    by_cases heq : strip l = r.out
    · simp [heq]
    · exfalso
      simp [heq] at h

theorem lineList_map_fpLineOut {rules : List Rule}
    (hout : ∀ r ∈ rules, '\n' ∉ r.out) {ls : List Str} (h : LineList ls) :
    LineList (ls.map (fun l => (fpLineOut rules l).1)) := by
  induction h with
  | nil => exact LineList.nil
  | last hnl hne =>
    rename_i a
    rcases fpLineOut_cases rules a with hsame | ⟨r, hr, hrepl⟩
    · rw [List.map_cons, List.map_nil, hsame]
      exact LineList.last hnl hne
    · rw [List.map_cons, List.map_nil, hrepl]
      exact LineList.cons (hout r hr) LineList.nil
  | cons hnl hrest ih =>
    rename_i a rest
    rcases fpLineOut_cases rules (a ++ ['\n']) with hsame | ⟨r, hr, hrepl⟩
    · rw [List.map_cons, hsame]
      exact LineList.cons hnl ih
    · rw [List.map_cons, hrepl]
      exact LineList.cons (hout r hr) ih

/-- C2 counterexample: the replacement table built by
`_regenerate_fingerprint` has nine rules, of which exactly seven (not eight)
are fingerprint-key rules. -/
theorem c2_seven_not_eight_counterexample :
    (fpRules (S ("f")) (S ("d"))).length = 9 ∧
    ((fpRules (S ("f")) (S ("d"))).filter
        (fun r => containsSub (S ("fingerprint=")) r.pre)).length = 7 := by
  decide

/-- C2 (amended): the fingerprint regeneration pass builds seven
fingerprint-key rules (the base key plus bootimage/system/product/system_ext/
vendor/odm variants), all mapped to the identical computed fingerprint, plus
two description-key rules mapped to the identical computed description; with
scenario-D components the fingerprint is
`Xiaomi/Port/miproduct:14/AB1/100:user/release-keys`, and in every property
file every line carrying one of the seven fingerprint keys ends up with that
identical value. -/
theorem c2_fingerprint_rules_and_broadcast :
    mkFingerprint (FpComps.mk (S ("Xiaomi")) (S ("Port")) (S ("miproduct"))
      (S ("14")) (S ("AB1")) (S ("100")) (S ("user")) (S ("release-keys")))
      = fpScenD ∧
    (∀ fp desc : Str,
      (fpRules fp desc).map Rule.pre = fpKeys7.map keyPat ++ descKeys2.map keyPat ∧
      ((fpRules fp desc).take 7).map Rule.out = fpKeys7.map (fun k => keyPat k ++ fp) ∧
      ((fpRules fp desc).drop 7).map Rule.out = descKeys2.map (fun k => keyPat k ++ desc)) ∧
    (∀ c l k : Str,
      l ∈ readlines ((fpFileW (fpRules fpScenD descScenD) c).1) →
      k ∈ fpKeys7 → (keyPat k).isPrefixOf (strip l) = true →
      strip l = keyPat k ++ fpScenD) := by
  refine ⟨by decide, ?_, ?_⟩
  · intro fp desc
    exact ⟨rfl, rfl, rfl⟩
  · intro c l k hl hk hpre
    have hout4 : ∀ r ∈ fpRules fpScenD descScenD, '\n' ∉ r.out := by decide
    have hstrip3 : ∀ r ∈ fpRules fpScenD descScenD, strip (r.out ++ ['\n']) = r.out := by
      decide
    simp only [fpKeys7, List.mem_cons, List.not_mem_nil, or_false] at hk
    have fact1 : ∀ r ∈ fpRules fpScenD descScenD,
        (keyPat k).isPrefixOf r.out = true → r.out = keyPat k ++ fpScenD := by
      rcases hk with rfl | rfl | rfl | rfl | rfl | rfl | rfl <;> decide
    have fact2 : Rule.mk (keyPat k) (keyPat k ++ fpScenD) ∈ fpRules fpScenD descScenD := by
      rcases hk with rfl | rfl | rfl | rfl | rfl | rfl | rfl <;> decide
    have piece_ok : ∀ l₀ : Str,
        (keyPat k).isPrefixOf (strip ((fpLineOut (fpRules fpScenD descScenD) l₀).1)) = true →
        strip ((fpLineOut (fpRules fpScenD descScenD) l₀).1) = keyPat k ++ fpScenD := by
      intro l₀ hp
      cases hrf : ruleFor (fpRules fpScenD descScenD) (strip l₀) with
      | none =>
        exfalso
        have hpiece : (fpLineOut (fpRules fpScenD descScenD) l₀).1 = l₀ := by
          unfold fpLineOut
          rw [hrf]
        rw [hpiece] at hp
        have hnot := List.find?_eq_none.mp hrf _ fact2
        simp only [Bool.not_eq_true] at hnot
        rw [hp] at hnot
        exact Bool.noConfusion hnot
      | some r =>
        have hrmem : r ∈ fpRules fpScenD descScenD := List.mem_of_find?_eq_some hrf
        by_cases heq : strip l₀ = r.out
        · have hpiece : (fpLineOut (fpRules fpScenD descScenD) l₀).1 = l₀ := by
            unfold fpLineOut
            rw [hrf]
            simp [heq]
          rw [hpiece] at hp ⊢
          rw [heq] at hp ⊢
          exact fact1 r hrmem hp
        · have hpiece : (fpLineOut (fpRules fpScenD descScenD) l₀).1 = r.out ++ ['\n'] := by
            unfold fpLineOut
            rw [hrf]
            simp [heq]
          rw [hpiece] at hp ⊢
          rw [hstrip3 r hrmem] at hp ⊢
          exact fact1 r hrmem hp
    by_cases hany : ((readlines c).map (fpLineOut (fpRules fpScenD descScenD))).any
        (fun p => p.2) = true
    · have hcontent : (fpFileW (fpRules fpScenD descScenD) c).1
          = (((readlines c).map (fpLineOut (fpRules fpScenD descScenD))).map Prod.fst).join := by
        simp [fpFileW, hany]
      rw [hcontent, List.map_map] at hl
      have hLL := lineList_map_fpLineOut hout4 (readlines_lineList c)
      have hrj : readlines (((readlines c).map
          (fun l => (fpLineOut (fpRules fpScenD descScenD) l).1)).join)
          = (readlines c).map (fun l => (fpLineOut (fpRules fpScenD descScenD) l).1) :=
        readlines_join hLL
      rw [show (Prod.fst ∘ fpLineOut (fpRules fpScenD descScenD))
          = (fun l => (fpLineOut (fpRules fpScenD descScenD) l).1) from rfl] at hl
      rw [hrj] at hl
      obtain ⟨l₀, _, rfl⟩ := List.mem_map.mp hl
      exact piece_ok l₀ hpre
    · have hany' : ((readlines c).map (fpLineOut (fpRules fpScenD descScenD))).any
          (fun p => p.2) = false := by
        revert hany
        cases ((readlines c).map (fpLineOut (fpRules fpScenD descScenD))).any
          (fun p => p.2) <;> simp
      have hcontent : (fpFileW (fpRules fpScenD descScenD) c).1 = c := by
        simp [fpFileW, hany']
      rw [hcontent] at hl
      have hflag : (fpLineOut (fpRules fpScenD descScenD) l).2 = false := by
        have hall := List.any_eq_false.mp hany'
        simpa using hall _ (List.mem_map_of_mem _ hl)
      have hpiece := fpLineOut_false hflag
      have hres := piece_ok l (by rw [hpiece]; exact hpre)
      rwa [hpiece] at hres

/-- Witness for C2 (amended) on a concrete file: the base fingerprint line is
rewritten to the scenario-D value. -/
theorem c2_broadcast_witness :
    strip (S ("ro.build.fingerprint=") ++ fpScenD ++ ['\n'])
      = keyPat (S ("ro.build.fingerprint")) ++ fpScenD :=
  c2_fingerprint_rules_and_broadcast.2.2
    (S ("ro.build.fingerprint=old\n"))
    (S ("ro.build.fingerprint=") ++ fpScenD ++ ['\n'])
    (S ("ro.build.fingerprint"))
    (by decide) (by decide) (by decide)

/-! ### Claim C6: files are written only when their content changes -/

theorem strip_append_space {x : Str} {c : Char} (hc : isSpaceChar c = true) :
    strip (x ++ [c]) = strip x := by
  unfold strip
  rw [List.dropWhile_append]
  by_cases hx : (x.dropWhile isSpaceChar).isEmpty
  · have hempty : x.dropWhile isSpaceChar = [] := by
      cases h : x.dropWhile isSpaceChar with
      | nil => rfl
      | cons a b => rw [h] at hx; simp at hx
    rw [if_pos hx, hempty]
    simp [List.dropWhile, hc]
  · rw [if_neg hx]
    rw [List.reverse_append]
    have : List.reverse [c] = [c] := rfl
    rw [this]
    show (List.dropWhile isSpaceChar
      (c :: (x.dropWhile isSpaceChar).reverse)).reverse = _
    rw [List.dropWhile_cons_of_pos hc]

theorem strip_append_nl {a : Str} (h : strip a = a) : strip (a ++ ['\n']) = a := by
  rw [strip_append_space (by decide), h]

theorem map_eq_self_forall {α : Type} {f : α → α} :
    ∀ {ls : List α}, ls.map f = ls → ∀ x ∈ ls, f x = x := by
  intro ls
  induction ls with
  | nil => intro _ x hx; simp at hx
  | cons a rest ih =>
    intro h x hx
    rw [List.map_cons] at h
    have h1 : f a = a := (List.cons.injEq _ _ _ _ ▸ h).1
    have h2 : rest.map f = rest := (List.cons.injEq _ _ _ _ ▸ h).2
    rcases List.mem_cons.mp hx with rfl | hmem
    · exact h1
    · exact ih h2 x hmem

theorem fpLineOut_true {rules : List Rule} {l : Str}
    (h : (fpLineOut rules l).2 = true) :
    ∃ r ∈ rules, (fpLineOut rules l).1 = r.out ++ ['\n'] ∧ strip l ≠ r.out := by
  cases hrf : ruleFor rules (strip l) with
  | none =>
    exfalso
    have h2 : (fpLineOut rules l).2 = false := by
      unfold fpLineOut
      rw [hrf]
    rw [h2] at h
    exact Bool.noConfusion h
  | some r =>
    by_cases heq : strip l = r.out
    · exfalso
      have h2 : (fpLineOut rules l).2 = false := by
        unfold fpLineOut
        rw [hrf]
        simp [heq]
      rw [h2] at h
      exact Bool.noConfusion h
    · refine ⟨r, List.mem_of_find?_eq_some hrf, ?_, heq⟩
      unfold fpLineOut
      rw [hrf]
      simp [heq]

theorem generalLineOut_shape (rules : List Rule) (l : Str) :
    ((generalLineOut rules l).1 = [l] ∧ (generalLineOut rules l).2 = false) ∨
    (∃ r ∈ rules, (generalLineOut rules l).1 = [r.out ++ ['\n']] ∧
      strip l ≠ r.out ∧ (generalLineOut rules l).2 = true) ∨
    ((generalLineOut rules l).1 = [] ∧ (generalLineOut rules l).2 = true) := by
  unfold generalLineOut
  cases hrf : ruleFor rules (strip l) with
  | some r =>
    by_cases heq : strip l = r.out
    · exact Or.inl (by simp [heq])
    · exact Or.inr (Or.inl ⟨r, List.mem_of_find?_eq_some hrf, by simp [heq]⟩)
  | none =>
    by_cases hdel : (keyPat delKey).isPrefixOf (strip l) = true
    · exact Or.inr (Or.inr (by simp [hdel]))
    · exact Or.inl (by simp [hdel])

theorem lineList_flat_generalLineOut {rules : List Rule}
    (hout : ∀ r ∈ rules, '\n' ∉ r.out) {ls : List Str} (h : LineList ls) :
    LineList ((ls.map (fun l => (generalLineOut rules l).1)).join) := by
  induction h with
  | nil => exact LineList.nil
  | last hnl hne =>
    rename_i a
    rcases generalLineOut_shape rules a with ⟨h1, -⟩ | ⟨r, hr, h1, -, -⟩ | ⟨h1, -⟩
    · rw [List.map_cons, List.map_nil, h1]
      exact LineList.last hnl hne
    · rw [List.map_cons, List.map_nil, h1]
      exact LineList.cons (hout r hr) LineList.nil
    · rw [List.map_cons, List.map_nil, h1]
      exact LineList.nil
  | cons hnl hrest ih =>
    rename_i a rest
    rcases generalLineOut_shape rules (a ++ ['\n']) with ⟨h1, -⟩ | ⟨r, hr, h1, -, -⟩ | ⟨h1, -⟩
    · rw [List.map_cons, h1]
      exact LineList.cons hnl ih
    · rw [List.map_cons, h1]
      exact LineList.cons (hout r hr) ih
    · rw [List.map_cons, h1]
      simpa using ih

theorem flat_generalLineOut_length (rules : List Rule) (ls : List Str) :
    ((ls.map (fun l => (generalLineOut rules l).1)).join).length ≤ ls.length := by
  induction ls with
  | nil => simp
  | cons l rest ih =>
    have hstep : ((l :: rest).map (fun l => (generalLineOut rules l).1)).join
        = (generalLineOut rules l).1
          ++ (rest.map (fun l => (generalLineOut rules l).1)).join := rfl
    rw [hstep, List.length_append, List.length_cons]
    rcases generalLineOut_shape rules l with ⟨h1, -⟩ | ⟨r, -, h1, -, -⟩ | ⟨h1, -⟩ <;>
      rw [h1] <;> simp only [List.length_cons, List.length_nil] <;> omega

/-- If the flattened general-pass output lines coincide with the input lines,
no line set the changed flag. -/
theorem generalLineOut_flags_of_flat_eq {rules : List Rule}
    (htrim : ∀ r ∈ rules, strip r.out = r.out) :
    ∀ ls : List Str,
      (ls.map (fun l => (generalLineOut rules l).1)).join = ls →
      ∀ l ∈ ls, (generalLineOut rules l).2 = false := by
  intro ls
  induction ls with
  | nil => intro _ l hl; simp at hl
  | cons l0 rest ih =>
    intro hflat l hl
    have hflat2 : (generalLineOut rules l0).1
        ++ (rest.map (fun l => (generalLineOut rules l).1)).join = l0 :: rest := by
      rw [← hflat]
      rfl
    rcases generalLineOut_shape rules l0 with ⟨h1, h2⟩ | ⟨r, hr, h1, h3, -⟩ | ⟨h1, -⟩
    · rw [h1] at hflat2
      have hrest : (rest.map (fun l => (generalLineOut rules l).1)).join = rest := by
        simpa using hflat2
      rcases List.mem_cons.mp hl with rfl | hmem
      · exact h2
      · exact ih hrest l hmem
    · exfalso
      rw [h1] at hflat2
      have hline : r.out ++ ['\n'] = l0 := by
        simpa using congrArg List.headI hflat2
      have : strip l0 = r.out := by
        rw [← hline, strip_append_nl (htrim r hr)]
      exact h3 this
    · exfalso
      rw [h1] at hflat2
      have hlen := flat_generalLineOut_length rules rest
      have hlencontr := congrArg List.length hflat2
      simp at hlen hlencontr
      omega

/-- C6 counterexample: with a rule whose replacement value carries trailing
whitespace, the general pass sets `file_changed` and rewrites the file even
though the produced content is byte-identical. -/
theorem c6_spurious_write_counterexample :
    (generalFileW [Rule.mk (S ("k=")) (S ("k=v "))] (S ("k=v \n"))).2 = true ∧
    (generalFileW [Rule.mk (S ("k=")) (S ("k=v "))] (S ("k=v \n"))).1
      = S ("k=v \n") := by
  decide

/-- C6 (amended): the changed-content write invariant holds for the
update-or-append primitive unconditionally (for single-line keys/values), and
for the two line-rewrite passes provided every rule's replacement value is
whitespace-trimmed and newline-free: whenever the write flag is set, the new
content differs from the original.  (The density pass compares old and new
content directly, so its guard is the invariant by definition.) -/
theorem c6_write_only_on_change :
    (∀ c key val : Str, '\n' ∉ key → '\n' ∉ val →
      (updateOrAppendPropW c key val).2 = true → (updateOrAppendPropW c key val).1 ≠ c) ∧
    (∀ (rules : List Rule) (c : Str),
      (∀ r ∈ rules, '\n' ∉ r.out ∧ strip r.out = r.out) →
      (generalFileW rules c).2 = true → (generalFileW rules c).1 ≠ c) ∧
    (∀ (rules : List Rule) (c : Str),
      (∀ r ∈ rules, '\n' ∉ r.out ∧ strip r.out = r.out) →
      (fpFileW rules c).2 = true → (fpFileW rules c).1 ≠ c) := by
  refine ⟨?_, ?_, ?_⟩
  · intro c key val hk hv hw
    cases hs : reSearchKey key c with
    | none =>
      have h1 : (updateOrAppendPropW c key val).1
          = c ++ '\n' :: (keyPat key ++ val) ++ ['\n'] := by
        simp [updateOrAppendPropW, hs]
      rw [h1]
      intro habs
      have hlen := congrArg List.length habs
      simp at hlen
    | some m =>
      by_cases hm : m = keyPat key ++ val
      · have h2 : (updateOrAppendPropW c key val).2 = false := by
          simp [updateOrAppendPropW, hs, hm]
        rw [h2] at hw
        exact Bool.noConfusion hw
      · have h1 : (updateOrAppendPropW c key val).1 = reSubKey key val c := by
          simp [updateOrAppendPropW, hs, hm]
        rw [h1]
        intro habs
        -- re-split both sides
        have hsegs : splitOnNl (reSubKey key val c)
            = (splitOnNl c).map (subKeySeg key val) := by
          unfold reSubKey
          apply splitOnNl_joinNl
          · simp [splitOnNl_ne_nil]
          · intro s hsmem
            obtain ⟨seg, hseg, rfl⟩ := List.mem_map.mp hsmem
            exact subKeySeg_no_nl hk hv (splitOnNl_seg_no_nl hseg)
        rw [habs] at hsegs
        -- now splitOnNl c = map subKeySeg (splitOnNl c); contradict first match
        have hm_ne : ∀ l : List Str,
            l.findSome? (fun seg => (splitFirst (keyPat key) seg).map Prod.snd) = some m →
            l.map (subKeySeg key val) ≠ l := by
          intro l
          induction l with
          | nil => intro hfind; simp at hfind
          | cons seg rest ihl =>
            intro hfind heqq
            cases hsf : splitFirst (keyPat key) seg with
            | none =>
              rw [List.findSome?_cons, hsf] at hfind
              simp only [Option.map_none'] at hfind
              have hseg : subKeySeg key val seg = seg := by simp [subKeySeg, hsf]
              rw [List.map_cons, hseg] at heqq
              exact ihl hfind (by simpa using heqq)
            | some p =>
              obtain ⟨a, b⟩ := p
              rw [List.findSome?_cons, hsf] at hfind
              simp only [Option.map_some'] at hfind
              have hmb : m = b := (Option.some.inj hfind).symm
              have hseg : subKeySeg key val seg = a ++ keyPat key ++ val := by
                simp [subKeySeg, hsf]
              rw [List.map_cons, hseg] at heqq
              have hfirst : a ++ keyPat key ++ val = seg := by
                simpa using congrArg (fun x => List.headI x) heqq
              obtain ⟨hdec, -⟩ := splitFirst_eq_append hsf
              rw [hdec] at hfirst
              have : keyPat key ++ val = b := by
                have h2 : a ++ (keyPat key ++ val) = a ++ b := by simpa using hfirst
                exact List.append_cancel_left h2
              exact hm (hmb.trans this.symm)
        exact hm_ne (splitOnNl c) hs hsegs.symm
  · intro rules c hR hw
    by_cases hany : ((readlines c).map (generalLineOut rules)).any (fun p => p.2) = true
    · have h1 : (generalFileW rules c).1
          = ((((readlines c).map (generalLineOut rules)).map Prod.fst).join).join := by
        simp [generalFileW, hany]
      rw [h1]
      intro habs
      have hmm : ((readlines c).map (generalLineOut rules)).map Prod.fst
          = (readlines c).map (fun l => (generalLineOut rules l).1) := by
        rw [List.map_map]
        rfl
      rw [hmm] at habs
      -- both sides are joins of line lists
      have hLL := lineList_flat_generalLineOut (fun r hr => (hR r hr).1)
        (readlines_lineList c)
      have hflat : ((readlines c).map (fun l => (generalLineOut rules l).1)).join
          = readlines c := by
        have h1 := readlines_join hLL
        rw [habs] at h1
        have h2 := lineList_join_inj hLL (readlines_lineList c)
          (by rw [habs, join_readlines])
        exact h2
      have hflags := generalLineOut_flags_of_flat_eq (fun r hr => (hR r hr).2)
        (readlines c) hflat
      have : ((readlines c).map (generalLineOut rules)).any (fun p => p.2) = false := by
        apply List.any_eq_false.mpr
        intro p hp
        obtain ⟨l, hl, rfl⟩ := List.mem_map.mp hp
        simp [hflags l hl]
      rw [this] at hany
      exact Bool.noConfusion hany
    · have hany' : ((readlines c).map (generalLineOut rules)).any (fun p => p.2) = false := by
        revert hany
        cases ((readlines c).map (generalLineOut rules)).any (fun p => p.2) <;> simp
      have h2 : (generalFileW rules c).2 = false := by
        simp [generalFileW, hany']
      rw [h2] at hw
      exact Bool.noConfusion hw
  · intro rules c hR hw
    by_cases hany : ((readlines c).map (fpLineOut rules)).any (fun p => p.2) = true
    · have h1 : (fpFileW rules c).1
          = (((readlines c).map (fpLineOut rules)).map Prod.fst).join := by
        simp [fpFileW, hany]
      rw [h1]
      intro habs
      have hmm : ((readlines c).map (fpLineOut rules)).map Prod.fst
          = (readlines c).map (fun l => (fpLineOut rules l).1) := by
        rw [List.map_map]
        rfl
      rw [hmm] at habs
      have hLL := lineList_map_fpLineOut (fun r hr => (hR r hr).1)
        (readlines_lineList c)
      have hpieces : (readlines c).map (fun l => (fpLineOut rules l).1)
          = readlines c :=
        lineList_join_inj hLL (readlines_lineList c)
          (by rw [join_readlines]; exact habs)
      have hpoint := map_eq_self_forall hpieces
      have hflags : ∀ l ∈ readlines c, (fpLineOut rules l).2 = false := by
        intro l hl
        cases hfl : (fpLineOut rules l).2 with
        | false => rfl
        | true =>
          exfalso
          obtain ⟨r, hr, hpc, hne⟩ := fpLineOut_true hfl
          have heq := hpoint l hl
          rw [hpc] at heq
          exact hne (by rw [← heq, strip_append_nl ((hR r hr).2)])
      have hfalse : ((readlines c).map (fpLineOut rules)).any (fun p => p.2) = false := by
        apply List.any_eq_false.mpr
        intro p hp
        obtain ⟨l, hl, rfl⟩ := List.mem_map.mp hp
        simp [hflags l hl]
      rw [hfalse] at hany
      exact Bool.noConfusion hany
    · have hany' : ((readlines c).map (fpLineOut rules)).any (fun p => p.2) = false := by
        revert hany
        cases ((readlines c).map (fpLineOut rules)).any (fun p => p.2) <;> simp
      have h2 : (fpFileW rules c).2 = false := by
        simp [fpFileW, hany']
      rw [h2] at hw
      exact Bool.noConfusion hw

/-- Witness for C6 (amended), exercising all three write paths at concrete
inputs. -/
theorem c6_write_witness :
    (updateOrAppendPropW (S ("k=old\n")) (S ("k")) (S ("new"))).1 ≠ S ("k=old\n") ∧
    (generalFileW [Rule.mk (S ("k=")) (S ("k=new"))] (S ("k=old\n"))).1 ≠ S ("k=old\n") ∧
    (fpFileW (fpRules (S ("f")) (S ("d"))) (S ("ro.build.fingerprint=old\n"))).1
      ≠ S ("ro.build.fingerprint=old\n") :=
  ⟨c6_write_only_on_change.1 (S ("k=old\n")) (S ("k")) (S ("new"))
      (by decide) (by decide) (by decide),
   c6_write_only_on_change.2.1 [Rule.mk (S ("k=")) (S ("k=new"))] (S ("k=old\n"))
      (by decide) (by decide),
   c6_write_only_on_change.2.2 (fpRules (S ("f")) (S ("d")))
      (S ("ro.build.fingerprint=old\n")) (by decide) (by decide)⟩

/-! ### Claim C1: idempotence of the full pipeline -/

/-- Context for the C1 counterexample run. -/
def c1Ctx : Ctx := Ctx.mk (S ("V14")) (S ("OS1")) false (S ("14")) (fun _ => [])

def c1Meta : BuildMeta :=
  BuildMeta.mk (S ("date")) (S ("123")) (S ("Bruce")) (S ("HyperOS-Port"))

/-- Initial tree: the product partition defines no brand; the system partition
does. -/
def c1Tree : Tree :=
  [ PFile.mk (S ("product")) (S ("etc")) (S ("x=1\n")),
    PFile.mk (S ("system")) []
      (S ("ro.product.brand=SysBrand\nro.build.fingerprint=old\n")) ]

/-- Scheduler table whose default set writes a fingerprint component key. -/
def c1Sched : Load SCfg :=
  Load.ok [(S ("default"), [(S ("ro.product.brand"), S ("Foo"))])]

/-- State after the first run: the scheduler pass appended
`ro.product.brand=Foo` to the product file, after the fingerprint pass had
already read the brand from the system partition. -/
def c1T1 : Tree :=
  [ PFile.mk (S ("product")) (S ("etc"))
      (S ("x=1\n\nro.sf.lcd_density=560\n\nro.miui.cust_erofs=0\n\nro.millet.netlink=29\n\npersist.sys.background_blur_supported=true\n\npersist.sys.background_blur_version=2\n\nro.product.brand=Foo\n")),
    PFile.mk (S ("system")) []
      (S ("ro.product.brand=SysBrand\nro.build.fingerprint=SysBrand//miproduct://:user/release-keys\n")) ]

/-- State after the second run: the fingerprint pass now finds the brand in
the (higher-priority) product partition and rewrites the system file. -/
def c1T2 : Tree :=
  [ PFile.mk (S ("product")) (S ("etc"))
      (S ("x=1\n\nro.sf.lcd_density=560\n\nro.miui.cust_erofs=0\n\nro.millet.netlink=29\n\npersist.sys.background_blur_supported=true\n\npersist.sys.background_blur_version=2\n\nro.product.brand=Foo\n")),
    PFile.mk (S ("system")) []
      (S ("ro.product.brand=SysBrand\nro.build.fingerprint=Foo//miproduct://:user/release-keys\n")) ]

/-- C1 counterexample: running the full pipeline twice on the same tree with
the same context, configuration tables and environment modifies a file on the
second run — the scheduler pass appends a fingerprint-component key that the
fingerprint pass reads back on the second run. -/
theorem c1_not_idempotent_counterexample :
    runPipeline c1Ctx c1Meta Load.missing c1Sched c1Tree = Except.ok c1T1 ∧
    runPipeline c1Ctx c1Meta Load.missing c1Sched c1T1 = Except.ok c1T2 ∧
    c1T1 ≠ c1T2 :=
  ⟨rfl, rfl, by decide⟩

/-! ### Alignment lemmas: where `key=` can occur inside a well-formed line -/

theorem occurs_singleton {c : Char} {s : Str} : Occurs [c] s ↔ c ∈ s := by
  constructor
  · rintro ⟨a, b, rfl⟩
    simp
  · intro h
    obtain ⟨x, y, rfl⟩ := List.append_of_mem h
    exact ⟨x, y, by simp⟩

theorem occurs_mem {n h : Str} {c : Char} (ho : Occurs n h) (hc : c ∈ n) : c ∈ h := by
  obtain ⟨a, b, rfl⟩ := ho
  simp [hc]

/-- `splitFirst` at the unique `=` of a single-`=` string. -/
theorem splitFirst_eq_char {K V : Str} (hK : '=' ∉ K) :
    splitFirst ['='] (K ++ '=' :: V) = some (K, '=' :: V) := by
  induction K with
  | nil =>
    show splitFirst ['='] ('=' :: V) = _
    have : List.isPrefixOf ['='] ('=' :: V) = true :=
      List.isPrefixOf_iff_prefix.mpr ⟨V, rfl⟩
    simp [splitFirst, this]
  | cons c K' ih =>
    have hc : c ≠ '=' := fun h => hK (h ▸ List.mem_cons_self c K')
    have hK' : '=' ∉ K' := fun h => hK (List.mem_cons_of_mem c h)
    have hnp : List.isPrefixOf ['='] (c :: (K' ++ '=' :: V)) = false := by
      cases hcc : List.isPrefixOf ['='] (c :: (K' ++ '=' :: V)) with
      | false => rfl
      | true =>
        exfalso
        obtain ⟨r, hr⟩ := List.isPrefixOf_iff_prefix.mp hcc
        exact hc (List.cons.injEq _ _ _ _ ▸ hr).1.symm
    show splitFirst ['='] (c :: (K' ++ '=' :: V)) = _
    rw [show splitFirst ['='] (c :: (K' ++ '=' :: V))
        = (if List.isPrefixOf ['='] (c :: (K' ++ '=' :: V)) then some ([], c :: (K' ++ '=' :: V))
           else match splitFirst ['='] (K' ++ '=' :: V) with
                | some (a, b) => some (c :: a, b)
                | none => none) from rfl]
    rw [hnp]
    simp [ih hK']

theorem eq_split {p q r s : Str} (hp : '=' ∉ p) (hr : '=' ∉ r)
    (h : p ++ '=' :: q = r ++ '=' :: s) : p = r ∧ q = s := by
  induction p generalizing r with
  | nil =>
    cases r with
    | nil => simpa using h
    | cons d r' =>
      exfalso
      have hd : d = '=' := by
        have := congrArg List.headI h
        simpa using this.symm
      exact hr (hd ▸ List.mem_cons_self d r')
  | cons c p' ih =>
    cases r with
    | nil =>
      exfalso
      have hc : c = '=' := by
        have := congrArg List.headI h
        simpa using this
      exact hp (hc ▸ List.mem_cons_self c p')
    | cons d r' =>
      have hcd : c = d := by
        have := congrArg List.headI h
        simpa using this
      have hp' : '=' ∉ p' := fun hm => hp (List.mem_cons_of_mem c hm)
      have hr' : '=' ∉ r' := fun hm => hr (List.mem_cons_of_mem d hm)
      have htl : p' ++ '=' :: q = r' ++ '=' :: s := by
        simpa using congrArg List.tail h
      obtain ⟨h1, h2⟩ := ih hp' hr' htl
      exact ⟨by rw [hcd, h1], h2⟩

/-- In a single-`=` line `K=V`, an occurrence of `k=` forces `k` to be a
suffix of `K` (the unanchored-match shape). -/
theorem occurs_keyPat_keyline {k K V : Str} (hk : '=' ∉ k) (hK : '=' ∉ K)
    (hV : '=' ∉ V) (ho : Occurs (keyPat k) (K ++ '=' :: V)) :
    ∃ x, K = x ++ k ∧ V = (K ++ '=' :: V).drop (K.length + 1) := by
  obtain ⟨x, y, hxy⟩ := ho
  have hxy2 : K ++ '=' :: V = x ++ k ++ '=' :: y := by
    rw [hxy]
    simp [keyPat]
  have hcount : List.count '=' (K ++ '=' :: V) = 1 := by
    rw [List.count_append, List.count_cons]
    have h1 : List.count '=' K = 0 := List.count_eq_zero.mpr hK
    have h2 : List.count '=' V = 0 := List.count_eq_zero.mpr hV
    simp [h1, h2]
  have hcount2 : List.count '=' (x ++ k ++ '=' :: y) = 1 := by
    rw [← hxy2]; exact hcount
  have hx : '=' ∉ x := by
    intro hm
    have h1 : 1 ≤ List.count '=' x := List.one_le_count_iff.mpr hm
    rw [List.count_append, List.count_append, List.count_cons_self] at hcount2
    omega
  have hxk : '=' ∉ x ++ k := by
    intro hm
    rcases List.mem_append.mp hm with h1 | h2
    · exact hx h1
    · exact hk h2
  have := eq_split hK hxk (by simpa using hxy2)
  exact ⟨x, this.1, by simp⟩

/-- `k=` is a prefix of `K=...` only when `k = K` (for `=`-free keys). -/
theorem keyPat_prefix_keyline {k K w : Str} (hk : '=' ∉ k) (hK : '=' ∉ K)
    (hp : keyPat k <+: (K ++ '=' :: w)) : k = K := by
  obtain ⟨r, hr⟩ := hp
  have h2 : k ++ '=' :: r = K ++ '=' :: w := by
    rw [← hr]; simp [keyPat]
  exact (eq_split hk hK h2).1

/-- Suffixes of the same list are comparable. -/
theorem suffix_comparable {a b c : Str} (ha : a <:+ c) (hb : b <:+ c) :
    a <:+ b ∨ b <:+ a := by
  obtain ⟨x, hx⟩ := ha
  obtain ⟨y, hy⟩ := hb
  have hrev : a.reverse <+: c.reverse ∧ b.reverse <+: c.reverse := by
    constructor
    · exact ⟨x.reverse, by rw [← List.reverse_append, hx]⟩
    · exact ⟨y.reverse, by rw [← List.reverse_append, hy]⟩
  rcases Nat.le_total a.length b.length with hle | hle
  · left
    have := List.prefix_of_prefix_length_le hrev.1 hrev.2 (by simpa using hle)
    obtain ⟨z, hz⟩ := this
    exact ⟨z.reverse, by
      have := congrArg List.reverse hz
      simpa using this⟩
  · right
    have := List.prefix_of_prefix_length_le hrev.2 hrev.1 (by simpa using hle)
    obtain ⟨z, hz⟩ := this
    exact ⟨z.reverse, by
      have := congrArg List.reverse hz
      simpa using this⟩

theorem mem_strip {ch : Char} {s : Str} (h : ch ∈ strip s) : ch ∈ s := by
  unfold strip at h
  rw [List.mem_reverse] at h
  have h1 : ch ∈ (s.dropWhile isSpaceChar).reverse :=
    List.Sublist.mem h (List.dropWhile_sublist _)
  rw [List.mem_reverse] at h1
  exact List.Sublist.mem h1 (List.dropWhile_sublist _)

/-- The stripped string is an infix of the original. -/
theorem strip_infix (s : Str) : ∃ a b, s = a ++ strip s ++ b := by
  refine ⟨s.takeWhile isSpaceChar,
    ((s.dropWhile isSpaceChar).reverse.takeWhile isSpaceChar).reverse, ?_⟩
  have h1 : s = s.takeWhile isSpaceChar ++ s.dropWhile isSpaceChar :=
    (List.takeWhile_append_dropWhile _ _).symm
  have h2 : (s.dropWhile isSpaceChar).reverse
      = (s.dropWhile isSpaceChar).reverse.takeWhile isSpaceChar
        ++ (s.dropWhile isSpaceChar).reverse.dropWhile isSpaceChar :=
    (List.takeWhile_append_dropWhile _ _).symm
  have h3 := congrArg List.reverse h2
  rw [List.reverse_reverse, List.reverse_append] at h3
  rw [List.append_assoc, show strip s
      = ((s.dropWhile isSpaceChar).reverse.dropWhile isSpaceChar).reverse from rfl,
    ← h3]
  exact h1

theorem occurs_strip {n s : Str} (h : Occurs n (strip s)) : Occurs n s := by
  obtain ⟨a, b, hs⟩ := strip_infix s
  exact occurs_trans_sub h ⟨a, b, hs⟩

/-- Stripping a line of the form `P=V` with a non-space head leaves the `P=`
part intact and only trims the value. -/
theorem strip_keyline {P V : Str} (hne : P ≠ [])
    (hhead : isSpaceChar P.headI = false) :
    ∃ W, strip (P ++ '=' :: V) = P ++ '=' :: W ∧ ∀ ch ∈ W, ch ∈ V := by
  obtain ⟨p0, P', rfl⟩ : ∃ p0 P', P = p0 :: P' := by
    cases P with
    | nil => exact absurd rfl hne
    | cons a t => exact ⟨a, t, rfl⟩
  have hp0 : isSpaceChar p0 = false := by simpa using hhead
  have hfront : ((p0 :: P') ++ '=' :: V).dropWhile isSpaceChar
      = (p0 :: P') ++ '=' :: V :=
    List.dropWhile_cons_of_neg (by simp [hp0])
  have hrev : ((p0 :: P') ++ '=' :: V).reverse
      = V.reverse ++ '=' :: (p0 :: P').reverse := by
    simp
  by_cases hemp : (V.reverse.dropWhile isSpaceChar).isEmpty = true
  · refine ⟨[], ?_, by simp⟩
    unfold strip
    rw [hfront, hrev, show V.reverse ++ '=' :: (p0 :: P').reverse
        = V.reverse ++ ('=' :: (p0 :: P').reverse) from rfl,
      List.dropWhile_append, if_pos hemp,
      List.dropWhile_cons_of_neg (by simp [isSpaceChar])]
    simp
  · refine ⟨(V.reverse.dropWhile isSpaceChar).reverse, ?_, ?_⟩
    · unfold strip
      rw [hfront, hrev, show V.reverse ++ '=' :: (p0 :: P').reverse
          = V.reverse ++ ('=' :: (p0 :: P').reverse) from rfl,
        List.dropWhile_append, if_neg hemp]
      simp
    · intro ch hch
      rw [List.mem_reverse] at hch
      have := List.Sublist.mem hch (List.dropWhile_sublist _)
      rwa [List.mem_reverse] at this

theorem afterFirstEq_append_no_eq {P : Str} (h : '=' ∉ P) (W : Str) :
    afterFirstEq (P ++ W) = afterFirstEq W := by
  induction P with
  | nil => rfl
  | cons c t ih =>
    have hc : c ≠ '=' := fun hh => h (hh ▸ List.mem_cons_self c t)
    have ht : '=' ∉ t := fun hh => h (List.mem_cons_of_mem c hh)
    simp [afterFirstEq, hc, ih ht]

theorem afterFirstEq_keyline {P V : Str} (h : '=' ∉ P) :
    afterFirstEq (P ++ '=' :: V) = V := by
  rw [afterFirstEq_append_no_eq h]
  simp [afterFirstEq]

theorem afterFirstEq_no_eq {s : Str} (h : '=' ∉ s) : afterFirstEq s = [] := by
  induction s with
  | nil => rfl
  | cons c t ih =>
    have hc : c ≠ '=' := fun hh => h (hh ▸ List.mem_cons_self c t)
    have ht : '=' ∉ t := fun hh => h (List.mem_cons_of_mem c hh)
    simp [afterFirstEq, hc, ih ht]

/-- An occurrence of a `c`-free needle in `x ++ c :: y` lies entirely inside
`x` or entirely inside `y`. -/
theorem occurs_append_cons_split {n x y : Str} {c : Char} (hc : c ∉ n)
    (h : Occurs n (x ++ c :: y)) : Occurs n x ∨ Occurs n y := by
  obtain ⟨a, b, hab⟩ := h
  have h1 : x ++ c :: y = a ++ (n ++ b) := by rw [hab]; simp
  rcases List.append_eq_append_iff.mp h1 with ⟨w, hw1, hw2⟩ | ⟨w, hw1, hw2⟩
  · -- a = x ++ w, c :: y = w ++ (n ++ b)
    cases w with
    | nil =>
      simp only [List.nil_append] at hw2
      cases n with
      | nil => exact Or.inl ⟨[], x, by simp⟩
      | cons n0 n' =>
        have : n0 = c := by
          have := congrArg List.headI hw2
          simpa using this.symm
        exact absurd (this ▸ List.mem_cons_self n0 n') hc
    | cons w0 w' =>
      have hyw : y = w' ++ n ++ b := by
        have := congrArg List.tail hw2
        simpa using this
      exact Or.inr ⟨w', b, hyw⟩
  · -- x = a ++ w, n ++ b = w ++ (c :: y)
    rcases List.append_eq_append_iff.mp hw2 with ⟨u, hu1, _⟩ | ⟨u, hu1, hu2⟩
    · -- w = n ++ u
      exact Or.inl ⟨a, u, by rw [hw1, hu1]; simp⟩
    · -- n = w ++ u, c :: y = u ++ b
      cases u with
      | nil =>
        refine Or.inl ⟨a, [], ?_⟩
        rw [hw1]
        simp [hu1]
      | cons u0 u' =>
        have hu0 : u0 = c := by
          have := congrArg List.headI hu2
          simpa using this.symm
        exfalso
        apply hc
        rw [hu1, ← hu0]
        exact List.mem_append.mpr (Or.inr (List.mem_cons_self u0 u'))

/-- A newline-free needle occurring in a join of segments occurs in one of
the segments. -/
theorem occurs_joinNl_split {n : Str} (hn : '\n' ∉ n) :
    ∀ {M : List Str}, M ≠ [] → Occurs n (joinNl M) → ∃ seg ∈ M, Occurs n seg := by
  intro M
  induction M with
  | nil => intro h; exact absurd rfl h
  | cons s ss ih =>
    intro _ hocc
    cases ss with
    | nil =>
      rw [joinNl_single] at hocc
      exact ⟨s, List.mem_cons_self s [], hocc⟩
    | cons s2 ss2 =>
      rw [joinNl_cons _ (List.cons_ne_nil s2 ss2)] at hocc
      rcases occurs_append_cons_split hn hocc with h1 | h2
      · exact ⟨s, List.mem_cons_self s _, h1⟩
      · obtain ⟨seg, hmem, hseg⟩ := ih (List.cons_ne_nil s2 ss2) h2
        exact ⟨seg, List.mem_cons_of_mem s hmem, hseg⟩

theorem occurs_seg_of_occurs {n c : Str} (hn : '\n' ∉ n) (h : Occurs n c) :
    ∃ seg ∈ splitOnNl c, Occurs n seg := by
  rw [← joinNl_splitOnNl c] at h
  exact occurs_joinNl_split hn (splitOnNl_ne_nil c) h

theorem containsSub_segs_iff {n c : Str} (hn : '\n' ∉ n) :
    containsSub n c = true ↔ ∃ seg ∈ splitOnNl c, Occurs n seg := by
  constructor
  · intro h
    exact occurs_seg_of_occurs hn ((containsSub_iff _ _).mp h)
  · rintro ⟨seg, hmem, hocc⟩
    exact (containsSub_iff _ _).mpr
      (occurs_trans_sub hocc (splitOnNl_seg_occurs hmem))

theorem replaceAllSub_id_of_no_occ {n r c : Str} (h : ¬ Occurs n c) :
    replaceAllSub n r c = c := by
  induction c with
  | nil => exact replaceAllSub_nil n r
  | cons c0 t ih =>
    have hnp : n.isPrefixOf (c0 :: t) = false := by
      cases hp : n.isPrefixOf (c0 :: t) with
      | false => rfl
      | true =>
        obtain ⟨rest, hrest⟩ := List.isPrefixOf_iff_prefix.mp hp
        exact absurd ⟨[], rest, by simp [hrest]⟩ h
    rw [replaceAllSub_neg r (by simp [hnp]), ih (fun ⟨a, b, hab⟩ =>
      h ⟨c0 :: a, b, by simp [hab]⟩)]

theorem splitFirst_char_not_mem {c : Char} {h a b : Str}
    (hs : splitFirst [c] h = some (a, b)) : c ∉ a := by
  intro hmem
  obtain ⟨a1, a2, rfl⟩ := List.append_of_mem hmem
  obtain ⟨hdec, _⟩ := splitFirst_eq_append hs
  have hmin := splitFirst_min hs a1 (c :: (a2 ++ b))
    (by rw [hdec]; simp) (by simp [List.isPrefixOf])
  simp at hmin

theorem suffix_cons_peel {k K : Str} {c : Char} (hc : c ∉ k)
    (h : k <:+ c :: K) : k <:+ K := by
  obtain ⟨x, hx⟩ := h
  cases x with
  | nil =>
    exfalso
    apply hc
    rw [show k = c :: K by simpa using hx]
    exact List.mem_cons_self c K
  | cons c' x' =>
    exact ⟨x', by simpa using congrArg List.tail hx⟩

/-- `findSome?` is unchanged by a map that does not affect the probe. -/
theorem findSome?_map_congr {α β : Type} {M : List α} {f : α → α}
    {g : α → Option β} (h : ∀ x ∈ M, g (f x) = g x) :
    (M.map f).findSome? g = M.findSome? g := by
  induction M with
  | nil => rfl
  | cons x xs ih =>
    rw [List.map_cons, List.findSome?_cons, List.findSome?_cons,
      h x (List.mem_cons_self x xs)]
    cases g x with
    | some b => rfl
    | none => exact ih (fun y hy => h y (List.mem_cons_of_mem x hy))

/-! ### Hygienic property material

Canonical-file well-formedness and configuration hygiene, under which the
pipeline is idempotent.  A clean key is nonempty, free of whitespace, `=`
and `#`, and contains the millet needle only if it is the needle itself; a
clean value is a single line free of `=` and `#` and of the needle. -/

def CleanKey (k : Str) : Prop :=
  k ≠ [] ∧ (∀ ch ∈ k, isSpaceChar ch = false ∧ ch ≠ '=' ∧ ch ≠ '#') ∧
  (containsSub milletNeedle k = true → k = milletNeedle)

def CleanVal (v : Str) : Prop :=
  (∀ ch ∈ v, ch ≠ '\n' ∧ ch ≠ '=' ∧ ch ≠ '#') ∧
  containsSub milletNeedle v = false

instance (k : Str) : Decidable (CleanKey k) := by
  unfold CleanKey
  infer_instance

instance (v : Str) : Decidable (CleanVal v) := by
  unfold CleanVal
  infer_instance

/-- A well-formed line segment: either comment-free text without `=`, or a
`key=value` line, optionally disabled by a single leading `#`. -/
def WFseg (s : Str) : Prop :=
  match splitFirst ['='] s with
  | none => '\n' ∉ s
  | some (p, rest) =>
    CleanVal rest.tail ∧
    (CleanKey p ∨ (p.take 1 = ['#'] ∧ CleanKey (p.drop 1)))

instance (s : Str) : Decidable (WFseg s) := by
  unfold WFseg
  cases hsp : splitFirst ['='] s with
  | none =>
    exact inferInstanceAs (Decidable ('\n' ∉ s))
  | some pr =>
    obtain ⟨p, rest⟩ := pr
    exact inferInstanceAs (Decidable (CleanVal rest.tail ∧
      (CleanKey p ∨ (p.take 1 = ['#'] ∧ CleanKey (p.drop 1)))))

/-- A well-formed property file: newline-terminated (the final split segment
is empty) with every line segment well formed. -/
def WFfile (c : Str) : Prop :=
  (splitOnNl c).getLast? = some [] ∧ ∀ seg ∈ splitOnNl c, WFseg seg

instance (c : Str) : Decidable (WFfile c) := by
  unfold WFfile
  infer_instance

/-- Keys that must not collide: neither a suffix of the other. -/
def NonComp (a b : Str) : Prop := ¬ a <:+ b ∧ ¬ b <:+ a

instance (a b : Str) : Decidable (NonComp a b) := by
  unfold NonComp
  infer_instance

/-- The four update-or-append pairs of `_apply_specific_fixes`. -/
def fixPairs (ctx : Ctx) : List (Str × Str) :=
  [(S ("ro.miui.cust_erofs"), S ("0")),
   (S ("ro.millet.netlink"), milletVer ctx),
   (S ("persist.sys.background_blur_supported"), S ("true")),
   (S ("persist.sys.background_blur_version"), S ("2"))]

def fixKeys : List Str :=
  [S ("ro.miui.cust_erofs"), S ("ro.millet.netlink"),
   S ("persist.sys.background_blur_supported"),
   S ("persist.sys.background_blur_version")]

/-- The keys of the nine fingerprint-pass replacement rules. -/
def fpRuleKeys : List Str :=
  [S ("ro.build.fingerprint"), S ("ro.bootimage.build.fingerprint"),
   S ("ro.system.build.fingerprint"), S ("ro.product.build.fingerprint"),
   S ("ro.system_ext.build.fingerprint"), S ("ro.vendor.build.fingerprint"),
   S ("ro.odm.build.fingerprint"), S ("ro.build.description"),
   S ("ro.system.build.description")]

/-- The eight fingerprint component keys read by `get_current_prop`. -/
def compKeys : List Str :=
  [S ("ro.product.brand"), S ("ro.product.mod_device"), S ("ro.product.device"),
   S ("ro.build.version.release"), S ("ro.build.id"),
   S ("ro.build.version.incremental"), S ("ro.build.type"), S ("ro.build.tags")]

/-- The engine-owned keys a scheduler entry must not collide with. -/
def protKeys : List Str :=
  lcdKey :: densityV2Key :: (fixKeys ++ fpRuleKeys ++ compKeys)

/-- Hygiene of `scheduler.json`: clean keys and values, no collision with an
engine-owned key, no collision between entries of a property set. -/
def SchedHyg (cfg : SCfg) : Prop :=
  ∀ e ∈ cfg,
    (∀ kv ∈ e.2, CleanKey kv.1 ∧ CleanVal kv.2 ∧ ∀ P ∈ protKeys, NonComp kv.1 P) ∧
    e.2.Pairwise (fun a b => NonComp a.1 b.1)

instance (cfg : SCfg) : Decidable (SchedHyg cfg) := by
  unfold SchedHyg
  infer_instance

def SchedHygL : Load SCfg → Prop
  | Load.ok cfg => SchedHyg cfg
  | _ => True

instance : (s : Load SCfg) → Decidable (SchedHygL s)
  | Load.missing => inferInstanceAs (Decidable True)
  | Load.malformed => inferInstanceAs (Decidable True)
  | Load.ok cfg => inferInstanceAs (Decidable (SchedHyg cfg))

/-- Hygiene of the build context: the density base and the millet netlink
version resolve to clean single-line values. -/
def CtxHyg (ctx : Ctx) : Prop :=
  CleanVal (baseDensity ctx) ∧ CleanVal (milletVer ctx)

instance (ctx : Ctx) : Decidable (CtxHyg ctx) := by
  unfold CtxHyg
  infer_instance

/-- No two files of the walk share a `(partition, sub-path)` pair. -/
def PathsUnique (t : Tree) : Prop :=
  (t.map (fun f => (f.part, f.sub))).Pairwise (fun a b => a ≠ b)

instance (t : Tree) : Decidable (PathsUnique t) := by
  unfold PathsUnique
  infer_instance

/-- Pointwise content transformation of the tree. -/
def mapContents (t : Tree) (Φ : PFile → Str) : Tree :=
  t.map (fun f => PFile.mk f.part f.sub (Φ f))

/-- Every line carrying an occurrence of `k=` already reads `…k=v`. -/
def SegValSettled (k v c : Str) : Prop :=
  ∀ seg ∈ splitOnNl c, Occurs (keyPat k) seg → subKeySeg k v seg = seg

def KeyPresent (k c : Str) : Prop :=
  ∃ seg ∈ splitOnNl c, Occurs (keyPat k) seg

/-- The fingerprint rewrite loop, one segment at a time. -/
def fpSegOut (rules : List Rule) (seg : Str) : Str :=
  match ruleFor rules (strip seg) with
  | some r => if strip seg ≠ r.out then r.out else seg
  | none => seg

def rulesOfComps (C : FpComps) : List Rule :=
  fpRules (mkFingerprint C) (mkDescription C)

/-! The post-run invariant, one bundle per pass. -/

def TreeWF (t : Tree) : Prop := ∀ f ∈ t, WFfile f.content

def ProdSettled (k v : Str) (t : Tree) : Prop :=
  ∀ c, getFile t prodPart prodSub = some c →
    reSearchKey k c = some (keyPat k ++ v)

def DensitySettled (base : Str) (t : Tree) : Prop :=
  ∀ f ∈ t, SegValSettled lcdKey base f.content ∧
    SegValSettled densityV2Key base f.content

def DensityFound (t : Tree) : Prop :=
  getFile t prodPart prodSub = none ∨
    t.any (fun f => containsSub (keyPat lcdKey) f.content) = true

def MilletOk (t : Tree) : Prop :=
  ∀ c, getFile t vendPart vendSub = some c →
    (containsSub milletNeedle c = false ∨ containsSub hashNeedle c = true)

def FpSettled (rules : List Rule) (t : Tree) : Prop :=
  ∀ f ∈ t, ∀ seg ∈ splitOnNl f.content, fpSegOut rules seg = seg

def SchedOk (cfg : SCfg) (ver : Str) (t : Tree) : Prop :=
  ∀ c, getFile t prodPart prodSub = some c →
    ∀ kv ∈ selectSchedProps cfg (getPlatformCode t) ver,
      reSearchKey kv.1 c = some (keyPat kv.1 ++ kv.2)

/-! ### Destructuring well-formed segments -/

theorem cleanKey_ne_nil {K : Str} (h : CleanKey K) : K ≠ [] := h.1

theorem cleanKey_no_eq {K : Str} (h : CleanKey K) : '=' ∉ K :=
  fun hm => (h.2.1 '=' hm).2.1 rfl

theorem cleanKey_no_hash {K : Str} (h : CleanKey K) : '#' ∉ K :=
  fun hm => (h.2.1 '#' hm).2.2 rfl

theorem cleanKey_no_nl {K : Str} (h : CleanKey K) : '\n' ∉ K := by
  intro hm
  have := (h.2.1 '\n' hm).1
  simp [isSpaceChar] at this

theorem cleanVal_no_nl {V : Str} (h : CleanVal V) : '\n' ∉ V :=
  fun hm => (h.1 '\n' hm).1 rfl

theorem cleanVal_no_eq {V : Str} (h : CleanVal V) : '=' ∉ V :=
  fun hm => (h.1 '=' hm).2.1 rfl

theorem cleanVal_no_hash {V : Str} (h : CleanVal V) : '#' ∉ V :=
  fun hm => (h.1 '#' hm).2.2 rfl

theorem preK_no_eq {pre K : Str} (hpre : pre = [] ∨ pre = ['#'])
    (hK : CleanKey K) : '=' ∉ pre ++ K := by
  intro hm
  rcases List.mem_append.mp hm with h1 | h2
  · rcases hpre with rfl | rfl
    · simp at h1
    · simp at h1
  · exact cleanKey_no_eq hK h2

theorem preK_no_nl {pre K : Str} (hpre : pre = [] ∨ pre = ['#'])
    (hK : CleanKey K) : '\n' ∉ pre ++ K := by
  intro hm
  rcases List.mem_append.mp hm with h1 | h2
  · rcases hpre with rfl | rfl
    · simp at h1
    · simp at h1
  · exact cleanKey_no_nl hK h2

theorem preK_ne_nil {pre K : Str} (hK : CleanKey K) : pre ++ K ≠ [] := by
  intro h
  exact cleanKey_ne_nil hK (List.append_eq_nil.mp h).2

theorem preK_head_nonspace {pre K : Str} (hpre : pre = [] ∨ pre = ['#'])
    (hK : CleanKey K) : isSpaceChar (pre ++ K).headI = false := by
  rcases hpre with rfl | rfl
  · obtain ⟨k0, K', rfl⟩ : ∃ k0 K', K = k0 :: K' := by
      cases K with
      | nil => exact absurd rfl (cleanKey_ne_nil hK)
      | cons a t => exact ⟨a, t, rfl⟩
    exact (hK.2.1 k0 (List.mem_cons_self k0 K')).1
  · simp [isSpaceChar]

theorem wfseg_cases {s : Str} (h : WFseg s) :
    ('=' ∉ s ∧ '\n' ∉ s) ∨
    ∃ pre K V, s = pre ++ K ++ '=' :: V ∧ (pre = [] ∨ pre = ['#']) ∧
      CleanKey K ∧ CleanVal V := by
  unfold WFseg at h
  cases hsp : splitFirst ['='] s with
  | none =>
    rw [hsp] at h
    refine Or.inl ⟨?_, h⟩
    intro hm
    exact (splitFirst_none_iff _ _).mp hsp (occurs_singleton.mpr hm)
  | some pr =>
    obtain ⟨p, rest⟩ := pr
    rw [hsp] at h
    obtain ⟨hval, hkey⟩ := h
    obtain ⟨hs_eq, hpref⟩ := splitFirst_eq_append hsp
    obtain ⟨w, hw⟩ := List.isPrefixOf_iff_prefix.mp hpref
    have hwt : rest.tail = w := by rw [← hw]; rfl
    rw [hwt] at hval
    rcases hkey with hck | ⟨htake, hck⟩
    · refine Or.inr ⟨[], p, w, ?_, Or.inl rfl, hck, hval⟩
      rw [hs_eq, ← hw]
      simp
    · obtain ⟨q, rfl⟩ : ∃ q, p = '#' :: q := by
        cases p with
        | nil => simp at htake
        | cons c q =>
          have hc : c = '#' := by simpa [List.take] using htake
          exact ⟨q, by rw [hc]⟩
      have hq : CleanKey q := by simpa using hck
      refine Or.inr ⟨['#'], q, w, ?_, Or.inr rfl, hq, hval⟩
      rw [hs_eq, ← hw]
      simp

theorem wfseg_of_no_eq {s : Str} (h1 : '=' ∉ s) (h2 : '\n' ∉ s) : WFseg s := by
  unfold WFseg
  rw [(splitFirst_none_iff _ _).mpr (fun ho => h1 (occurs_mem ho (by simp)))]
  exact h2

theorem wfseg_keyline {pre K V : Str} (hpre : pre = [] ∨ pre = ['#'])
    (hK : CleanKey K) (hV : CleanVal V) : WFseg (pre ++ K ++ '=' :: V) := by
  have heq : splitFirst ['='] (pre ++ K ++ '=' :: V) = some (pre ++ K, '=' :: V) :=
    splitFirst_eq_char (preK_no_eq hpre hK)
  unfold WFseg
  rw [heq]
  refine ⟨hV, ?_⟩
  rcases hpre with rfl | rfl
  · exact Or.inl (by simpa using hK)
  · exact Or.inr ⟨rfl, by simpa using hK⟩

/-- In a well-formed key line, `k=` occurs exactly when `k` is a suffix of
the line's key. -/
theorem occurs_keyPat_seg {k pre K V : Str} (hk : CleanKey k)
    (hpre : pre = [] ∨ pre = ['#']) (hK : CleanKey K) (hV : CleanVal V) :
    Occurs (keyPat k) (pre ++ K ++ '=' :: V) ↔ k <:+ K := by
  constructor
  · intro ho
    obtain ⟨x, hx, -⟩ := occurs_keyPat_keyline (cleanKey_no_eq hk)
      (preK_no_eq hpre hK) (cleanVal_no_eq hV) ho
    have hsuf : k <:+ pre ++ K := ⟨x, hx.symm⟩
    rcases hpre with rfl | rfl
    · simpa using hsuf
    · exact suffix_cons_peel (cleanKey_no_hash hk) (by simpa using hsuf)
  · rintro ⟨x, hx⟩
    exact ⟨pre ++ x, V, by rw [← hx]; simp [keyPat]⟩

theorem occurs_keyPat_no_eq {k s : Str} (hss : '=' ∉ s) :
    ¬ Occurs (keyPat k) s :=
  fun ho => hss (occurs_mem ho (by simp [keyPat]))

theorem keyPat_decomp_unique {k P V a b : Str} (hk : '=' ∉ k) (hP : '=' ∉ P)
    (hV : '=' ∉ V) (h : P ++ '=' :: V = a ++ keyPat k ++ b) :
    a ++ k = P ∧ b = V := by
  have h2 : P ++ '=' :: V = (a ++ k) ++ '=' :: b := by rw [h]; simp [keyPat]
  have hcount : List.count '=' (P ++ '=' :: V) = 1 := by
    rw [List.count_append, List.count_cons_self,
      List.count_eq_zero.mpr hP, List.count_eq_zero.mpr hV]
  have hcount2 : List.count '=' ((a ++ k) ++ '=' :: b) = 1 := by
    rw [← h2]; exact hcount
  have hak : '=' ∉ a ++ k := by
    intro hm
    have h1 : 1 ≤ List.count '=' (a ++ k) := List.one_le_count_iff.mpr hm
    rw [List.count_append, List.count_cons_self] at hcount2
    omega
  have := eq_split hP hak h2
  exact ⟨this.1.symm, this.2.symm⟩

/-- `re.sub` of `k=.*` on a single-`=` line overwrites the value and keeps
everything before the `=`. -/
theorem subKeySeg_keyline {k v P V : Str} (hk : '=' ∉ k) (hP : '=' ∉ P)
    (hV : '=' ∉ V) (ho : Occurs (keyPat k) (P ++ '=' :: V)) :
    subKeySeg k v (P ++ '=' :: V) = P ++ '=' :: v := by
  obtain ⟨x, hx, -⟩ := occurs_keyPat_keyline hk hP hV ho
  have hsf : splitFirst (keyPat k) (P ++ '=' :: V) = some (x, keyPat k ++ V) := by
    apply splitFirst_eq_of_min (by rw [hx]; simp [keyPat])
      (List.isPrefixOf_iff_prefix.mpr ⟨V, rfl⟩)
    intro a' b' hab hp'
    obtain ⟨r', hr'⟩ := List.isPrefixOf_iff_prefix.mp hp'
    have hdec : P ++ '=' :: V = a' ++ keyPat k ++ r' := by
      rw [hab, ← hr']
      simp
    have huniq := keyPat_decomp_unique hk hP hV hdec
    have hlen : a'.length + k.length = x.length + k.length := by
      have h1 := congrArg List.length (huniq.1.trans hx)
      simpa using h1
    omega
  unfold subKeySeg
  rw [hsf, hx]
  simp [keyPat]

theorem subKeySeg_id_of_no_occ {k v s : Str} (h : ¬ Occurs (keyPat k) s) :
    subKeySeg k v s = s := by
  unfold subKeySeg
  rw [(splitFirst_none_iff _ _).mpr h]

/-- Action of a single `re.sub`-style value update on a well-formed
segment: untouched without a key occurrence, value overwrite with one. -/
theorem subKeySeg_cases {k v s : Str} (hk : CleanKey k) (hwf : WFseg s) :
    (subKeySeg k v s = s ∧ ¬ Occurs (keyPat k) s) ∨
    (∃ pre K V, s = pre ++ K ++ '=' :: V ∧ (pre = [] ∨ pre = ['#']) ∧
      CleanKey K ∧ CleanVal V ∧ k <:+ K ∧
      subKeySeg k v s = pre ++ K ++ '=' :: v) := by
  by_cases ho : Occurs (keyPat k) s
  · rcases wfseg_cases hwf with ⟨hne, -⟩ | ⟨pre, K, V, rfl, hpre, hK, hV⟩
    · exact absurd ho (occurs_keyPat_no_eq hne)
    · exact Or.inr ⟨pre, K, V, rfl, hpre, hK, hV,
        (occurs_keyPat_seg hk hpre hK hV).mp ho,
        subKeySeg_keyline (cleanKey_no_eq hk) (preK_no_eq hpre hK)
          (cleanVal_no_eq hV) ho⟩
  · exact Or.inl ⟨subKeySeg_id_of_no_occ ho, ho⟩

theorem containsSub_eq_false_iff (n h : Str) :
    containsSub n h = false ↔ ¬ Occurs n h := by
  rw [← containsSub_iff]
  cases containsSub n h <;> simp

/-- Characters of a replaced string come from the original or the
replacement. -/
theorem mem_replaceAllSub {n r c : Str} {ch : Char}
    (h : ch ∈ replaceAllSub n r c) : ch ∈ c ∨ ch ∈ r := by
  have main : ∀ (m : Nat) (c : Str), c.length ≤ m →
      ch ∈ replaceAllSub n r c → ch ∈ c ∨ ch ∈ r := by
    intro m
    induction m with
    | zero =>
      intro c hc hm
      have hcnil : c = [] := List.eq_nil_of_length_eq_zero (Nat.le_zero.mp hc)
      subst hcnil
      rw [replaceAllSub_nil] at hm
      simp at hm
    | succ m ih =>
      intro c hc hm
      cases c with
      | nil =>
        rw [replaceAllSub_nil] at hm
        simp at hm
      | cons c0 t =>
        by_cases hp : n.isPrefixOf (c0 :: t) = true ∧ n ≠ []
        · obtain ⟨rest, hcr, heq⟩ := replaceAllSub_pos r hp.2 hp.1
          rw [heq] at hm
          rcases List.mem_append.mp hm with h1 | h2
          · exact Or.inr h1
          · have hlr : rest.length ≤ m := by
              have h1 : (c0 :: t).length = n.length + rest.length := by
                rw [hcr]; simp
              have h2 : 1 ≤ n.length := List.length_pos.mpr hp.2
              have h3 : (c0 :: t).length ≤ m + 1 := hc
              omega
            rcases ih rest hlr h2 with h3 | h4
            · exact Or.inl (by rw [hcr]; exact List.mem_append.mpr (Or.inr h3))
            · exact Or.inr h4
        · rw [replaceAllSub_neg r hp] at hm
          rcases List.mem_cons.mp hm with rfl | h2
          · exact Or.inl (List.mem_cons_self _ _)
          · have hlt : t.length ≤ m := by simpa using hc
            rcases ih t hlt h2 with h3 | h4
            · exact Or.inl (List.mem_cons_of_mem c0 h3)
            · exact Or.inr h4
  exact main c.length c (le_refl _) h

/-- Clean values are closed under concatenation through a clean separator. -/
theorem cleanVal_append_sep {a b : Str} {c : Char} (ha : CleanVal a)
    (hb : CleanVal b) (hc : c ≠ '\n' ∧ c ≠ '=' ∧ c ≠ '#')
    (hcn : c ∉ milletNeedle) : CleanVal (a ++ c :: b) := by
  constructor
  · intro ch hch
    rcases List.mem_append.mp hch with h1 | h2
    · exact ha.1 ch h1
    · rcases List.mem_cons.mp h2 with rfl | h3
      · exact hc
      · exact hb.1 ch h3
  · rw [containsSub_eq_false_iff]
    intro ho
    rcases occurs_append_cons_split hcn ho with h1 | h2
    · exact (containsSub_eq_false_iff _ _).mp ha.2 h1
    · exact (containsSub_eq_false_iff _ _).mp hb.2 h2

def CleanComps (C : FpComps) : Prop :=
  CleanVal C.brand ∧ CleanVal C.name ∧ CleanVal C.device ∧ CleanVal C.version ∧
  CleanVal C.build_id ∧ CleanVal C.incremental ∧ CleanVal C.build_type ∧
  CleanVal C.tags

theorem cleanComps_fingerprint {C : FpComps} (h : CleanComps C) :
    CleanVal (mkFingerprint C) := by
  obtain ⟨h1, h2, h3, h4, h5, h6, h7, h8⟩ := h
  unfold mkFingerprint
  refine cleanVal_append_sep (cleanVal_append_sep (cleanVal_append_sep
    (cleanVal_append_sep (cleanVal_append_sep (cleanVal_append_sep
      (cleanVal_append_sep h1 h2 (by decide) (by decide))
      h3 (by decide) (by decide)) h4 (by decide) (by decide))
      h5 (by decide) (by decide)) h6 (by decide) (by decide))
      h7 (by decide) (by decide)) h8 (by decide) (by decide)

theorem cleanComps_description {C : FpComps} (h : CleanComps C) :
    CleanVal (mkDescription C) := by
  obtain ⟨h1, h2, h3, h4, h5, h6, h7, h8⟩ := h
  unfold mkDescription
  refine cleanVal_append_sep (cleanVal_append_sep (cleanVal_append_sep
    (cleanVal_append_sep (cleanVal_append_sep h2 h7 (by decide) (by decide))
      h4 (by decide) (by decide)) h5 (by decide) (by decide))
      h6 (by decide) (by decide)) h8 (by decide) (by decide)

/-- Shape of the nine fingerprint-pass rules. -/
theorem rulesOfComps_spec {C : FpComps} {r : Rule} (hr : r ∈ rulesOfComps C) :
    ∃ rk val, rk ∈ fpRuleKeys ∧ r.pre = keyPat rk ∧ r.out = keyPat rk ++ val ∧
      (val = mkFingerprint C ∨ val = mkDescription C) := by
  have hmem : r = Rule.mk (S ("ro.build.fingerprint=")) (S ("ro.build.fingerprint=") ++ mkFingerprint C) ∨
      r = Rule.mk (S ("ro.bootimage.build.fingerprint=")) (S ("ro.bootimage.build.fingerprint=") ++ mkFingerprint C) ∨
      r = Rule.mk (S ("ro.system.build.fingerprint=")) (S ("ro.system.build.fingerprint=") ++ mkFingerprint C) ∨
      r = Rule.mk (S ("ro.product.build.fingerprint=")) (S ("ro.product.build.fingerprint=") ++ mkFingerprint C) ∨
      r = Rule.mk (S ("ro.system_ext.build.fingerprint=")) (S ("ro.system_ext.build.fingerprint=") ++ mkFingerprint C) ∨
      r = Rule.mk (S ("ro.vendor.build.fingerprint=")) (S ("ro.vendor.build.fingerprint=") ++ mkFingerprint C) ∨
      r = Rule.mk (S ("ro.odm.build.fingerprint=")) (S ("ro.odm.build.fingerprint=") ++ mkFingerprint C) ∨
      r = Rule.mk (S ("ro.build.description=")) (S ("ro.build.description=") ++ mkDescription C) ∨
      r = Rule.mk (S ("ro.system.build.description=")) (S ("ro.system.build.description=") ++ mkDescription C) := by
    simpa [rulesOfComps, fpRules] using hr
  rcases hmem with rfl|rfl|rfl|rfl|rfl|rfl|rfl|rfl|rfl
  · have e : keyPat (S ("ro.build.fingerprint")) = S ("ro.build.fingerprint=") := by decide
    exact ⟨S ("ro.build.fingerprint"), mkFingerprint C, by decide, e.symm, by rw [e], Or.inl rfl⟩
  · have e : keyPat (S ("ro.bootimage.build.fingerprint")) = S ("ro.bootimage.build.fingerprint=") := by decide
    exact ⟨S ("ro.bootimage.build.fingerprint"), mkFingerprint C, by decide, e.symm, by rw [e], Or.inl rfl⟩
  · have e : keyPat (S ("ro.system.build.fingerprint")) = S ("ro.system.build.fingerprint=") := by decide
    exact ⟨S ("ro.system.build.fingerprint"), mkFingerprint C, by decide, e.symm, by rw [e], Or.inl rfl⟩
  · have e : keyPat (S ("ro.product.build.fingerprint")) = S ("ro.product.build.fingerprint=") := by decide
    exact ⟨S ("ro.product.build.fingerprint"), mkFingerprint C, by decide, e.symm, by rw [e], Or.inl rfl⟩
  · have e : keyPat (S ("ro.system_ext.build.fingerprint")) = S ("ro.system_ext.build.fingerprint=") := by decide
    exact ⟨S ("ro.system_ext.build.fingerprint"), mkFingerprint C, by decide, e.symm, by rw [e], Or.inl rfl⟩
  · have e : keyPat (S ("ro.vendor.build.fingerprint")) = S ("ro.vendor.build.fingerprint=") := by decide
    exact ⟨S ("ro.vendor.build.fingerprint"), mkFingerprint C, by decide, e.symm, by rw [e], Or.inl rfl⟩
  · have e : keyPat (S ("ro.odm.build.fingerprint")) = S ("ro.odm.build.fingerprint=") := by decide
    exact ⟨S ("ro.odm.build.fingerprint"), mkFingerprint C, by decide, e.symm, by rw [e], Or.inl rfl⟩
  · have e : keyPat (S ("ro.build.description")) = S ("ro.build.description=") := by decide
    exact ⟨S ("ro.build.description"), mkDescription C, by decide, e.symm, by rw [e], Or.inr rfl⟩
  · have e : keyPat (S ("ro.system.build.description")) = S ("ro.system.build.description=") := by decide
    exact ⟨S ("ro.system.build.description"), mkDescription C, by decide, e.symm, by rw [e], Or.inr rfl⟩

/-- The nine rule prefixes are pairwise distinct. -/
theorem rulesOfComps_pre_inj {C : FpComps} {r r' : Rule}
    (hr : r ∈ rulesOfComps C) (hr' : r' ∈ rulesOfComps C)
    (hpre : r.pre = r'.pre) : r = r' := by
  have hnodup : ((rulesOfComps C).map Rule.pre).Nodup := by
    have hmap : (rulesOfComps C).map Rule.pre
        = [S ("ro.build.fingerprint="), S ("ro.bootimage.build.fingerprint="),
           S ("ro.system.build.fingerprint="), S ("ro.product.build.fingerprint="),
           S ("ro.system_ext.build.fingerprint="), S ("ro.vendor.build.fingerprint="),
           S ("ro.odm.build.fingerprint="), S ("ro.build.description="),
           S ("ro.system.build.description=")] := rfl
    rw [hmap]
    decide
  exact List.inj_on_of_nodup_map hnodup hr hr' hpre

theorem fpSegOut_eq_some {rules : List Rule} {s : Str} {r : Rule}
    (h : ruleFor rules (strip s) = some r) :
    fpSegOut rules s = if strip s ≠ r.out then r.out else s := by
  unfold fpSegOut
  rw [h]

theorem fpSegOut_eq_none {rules : List Rule} {s : Str}
    (h : ruleFor rules (strip s) = none) : fpSegOut rules s = s := by
  unfold fpSegOut
  rw [h]

theorem ruleFor_mem_pre {rules : List Rule} {s : Str} {r : Rule}
    (h : ruleFor rules s = some r) : r ∈ rules ∧ r.pre.isPrefixOf s = true := by
  unfold ruleFor at h
  have h2 := @List.find?_some Rule (fun rr : Rule => List.isPrefixOf rr.pre s)
    r rules h
  exact ⟨List.mem_of_find?_eq_some h, by simpa using h2⟩

theorem cleanKey_head_nonspace {K : Str} (hK : CleanKey K) :
    isSpaceChar K.headI = false := by
  have := preK_head_nonspace (Or.inl rfl) hK
  simpa using this

theorem fpRuleKeys_clean : ∀ x ∈ fpRuleKeys, CleanKey x := by decide

theorem fpSegOut_id_of_no_eq {C : FpComps} {s : Str} (hne : '=' ∉ s) :
    fpSegOut (rulesOfComps C) s = s := by
  cases hrf : ruleFor (rulesOfComps C) (strip s) with
  | none => exact fpSegOut_eq_none hrf
  | some r =>
    exfalso
    obtain ⟨hmem, hpre⟩ := ruleFor_mem_pre hrf
    obtain ⟨rk, val, hrk, hpk, -, -⟩ := rulesOfComps_spec hmem
    obtain ⟨w, hw⟩ := List.isPrefixOf_iff_prefix.mp hpre
    apply hne
    apply mem_strip (s := s)
    rw [← hw, hpk]
    simp [keyPat]

/-- Action of the fingerprint rewrite on a well-formed segment: untouched, or
a value overwrite on a bare line whose key is one of the nine rule keys. -/
theorem fpSegOut_cases {C : FpComps} {s : Str} (hC : CleanComps C)
    (hwf : WFseg s) :
    fpSegOut (rulesOfComps C) s = s ∨
    ∃ r K V val, r ∈ rulesOfComps C ∧ s = K ++ '=' :: V ∧ CleanKey K ∧
      CleanVal V ∧ K ∈ fpRuleKeys ∧ r.pre = keyPat K ∧
      r.out = K ++ '=' :: val ∧ CleanVal val ∧
      fpSegOut (rulesOfComps C) s = r.out := by
  cases hrf : ruleFor (rulesOfComps C) (strip s) with
  | none => exact Or.inl (fpSegOut_eq_none hrf)
  | some r =>
    rw [fpSegOut_eq_some hrf]
    obtain ⟨hmem, hpre⟩ := ruleFor_mem_pre hrf
    obtain ⟨rk, val, hrk, hpk, hout, hval⟩ := rulesOfComps_spec hmem
    rcases wfseg_cases hwf with ⟨hne, -⟩ | ⟨pre, K, V, rfl, hpre2, hK, hV⟩
    · exfalso
      obtain ⟨w, hw⟩ := List.isPrefixOf_iff_prefix.mp hpre
      apply hne
      apply mem_strip (s := s)
      rw [← hw, hpk]
      simp [keyPat]
    · obtain ⟨W, hsw, -⟩ :=
        strip_keyline (preK_ne_nil hK) (preK_head_nonspace hpre2 hK) (V := V)
      have hrkK : CleanKey rk := fpRuleKeys_clean rk hrk
      have halign : rk = pre ++ K := by
        apply keyPat_prefix_keyline (cleanKey_no_eq hrkK) (preK_no_eq hpre2 hK)
        rw [← hsw, ← hpk]
        exact List.isPrefixOf_iff_prefix.mp hpre
      rcases hpre2 with rfl | rfl
      · simp only [List.nil_append] at halign
        subst halign
        have houtK : r.out = rk ++ '=' :: val := by
          rw [hout]
          simp [keyPat]
        have hvalc : CleanVal val := by
          rcases hval with rfl | rfl
          · exact cleanComps_fingerprint hC
          · exact cleanComps_description hC
        by_cases hif : strip ([] ++ rk ++ '=' :: V) ≠ r.out
        · rw [if_pos hif]
          exact Or.inr ⟨r, rk, V, val, hmem, by simp, hK, hV, hrk, hpk, houtK,
            hvalc, rfl⟩
        · rw [if_neg hif]
          exact Or.inl rfl
      · exfalso
        apply cleanKey_no_hash hrkK
        rw [halign]
        exact List.mem_cons_self '#' K

/-- A rewritten fingerprint line is settled: applying the rewrite again
leaves it unchanged. -/
theorem fpSegOut_settles {C : FpComps} {s : Str} (hC : CleanComps C)
    (hwf : WFseg s) :
    fpSegOut (rulesOfComps C) (fpSegOut (rulesOfComps C) s)
      = fpSegOut (rulesOfComps C) s := by
  rcases fpSegOut_cases hC hwf with hid |
    ⟨r, K, V, val, hmem, hs, hK, hV, hrk, hpk, hout, hvalc, hres⟩
  · rw [hid, hid]
  · rw [hres, hout]
    cases hrf2 : ruleFor (rulesOfComps C) (strip (K ++ '=' :: val)) with
    | none => exact fpSegOut_eq_none hrf2
    | some r2 =>
      rw [fpSegOut_eq_some hrf2]
      obtain ⟨hmem2, hpre2⟩ := ruleFor_mem_pre hrf2
      obtain ⟨rk2, val2, hrk2, hpk2, hout2, hval2⟩ := rulesOfComps_spec hmem2
      obtain ⟨W, hsw, -⟩ :=
        strip_keyline (cleanKey_ne_nil hK) (cleanKey_head_nonspace hK) (V := val)
      have hrk2K : CleanKey rk2 := fpRuleKeys_clean rk2 hrk2
      have halign2 : rk2 = K := by
        apply keyPat_prefix_keyline (cleanKey_no_eq hrk2K) (cleanKey_no_eq hK)
        rw [← hsw, ← hpk2]
        exact List.isPrefixOf_iff_prefix.mp hpre2
      have hr2r : r2 = r := by
        apply rulesOfComps_pre_inj hmem2 hmem
        rw [hpk2, hpk, halign2]
      have hr2out : r2.out = K ++ '=' :: val := by rw [hr2r, hout]
      by_cases hif : strip (K ++ '=' :: val) ≠ r2.out
      · rw [if_pos hif, hr2out]
      · rw [if_neg hif]

theorem fpSegOut_wf {C : FpComps} {s : Str} (hC : CleanComps C)
    (hwf : WFseg s) : WFseg (fpSegOut (rulesOfComps C) s) := by
  rcases fpSegOut_cases hC hwf with hid |
    ⟨r, K, V, val, hmem, hs, hK, hV, hrk, hpk, hout, hvalc, hres⟩
  · rw [hid]; exact hwf
  · rw [hres, hout]
    have := wfseg_keyline (Or.inl rfl) hK hvalc
    simpa using this

theorem fpSegOut_id_of_keyOcc {C : FpComps} {s k : Str} (hC : CleanComps C)
    (hwf : WFseg s) (hk : CleanKey k) (hnc : ∀ fk ∈ fpRuleKeys, ¬ k <:+ fk)
    (ho : Occurs (keyPat k) s) : fpSegOut (rulesOfComps C) s = s := by
  rcases fpSegOut_cases hC hwf with hid |
    ⟨r, K, V, val, hmem, hs, hK, hV, hrk, hpk, hout, hvalc, hres⟩
  · exact hid
  · exfalso
    apply hnc K hrk
    subst hs
    have := (occurs_keyPat_seg hk (Or.inl rfl) hK hV).mp (by simpa using ho)
    exact this

theorem fpSegOut_keyOcc_iff {C : FpComps} {s k : Str} (hC : CleanComps C)
    (hwf : WFseg s) (hk : CleanKey k) (hnc : ∀ fk ∈ fpRuleKeys, ¬ k <:+ fk) :
    Occurs (keyPat k) (fpSegOut (rulesOfComps C) s) ↔ Occurs (keyPat k) s := by
  rcases fpSegOut_cases hC hwf with hid |
    ⟨r, K, V, val, hmem, hs, hK, hV, hrk, hpk, hout, hvalc, hres⟩
  · rw [hid]
  · rw [hres, hout]
    subst hs
    constructor
    · intro h
      exfalso
      exact hnc K hrk ((occurs_keyPat_seg hk (Or.inl rfl) hK hvalc).mp
        (by simpa using h))
    · intro h
      exfalso
      exact hnc K hrk ((occurs_keyPat_seg hk (Or.inl rfl) hK hV).mp
        (by simpa using h))

theorem occurs_left_of_occurs {n K X : Str} (h : Occurs n K) : Occurs n (K ++ X) := by
  obtain ⟨a, b, rfl⟩ := h
  exact ⟨a, b ++ X, by simp⟩

theorem fpSegOut_no_needle {C : FpComps} {s : Str} (hC : CleanComps C)
    (hwf : WFseg s) (hno : ¬ Occurs milletNeedle s) :
    ¬ Occurs milletNeedle (fpSegOut (rulesOfComps C) s) := by
  rcases fpSegOut_cases hC hwf with hid |
    ⟨r, K, V, val, hmem, hs, hK, hV, hrk, hpk, hout, hvalc, hres⟩
  · rw [hid]; exact hno
  · rw [hres, hout]
    intro hocc
    rcases occurs_append_cons_split (by decide) hocc with h1 | h2
    · exact hno (hs ▸ occurs_left_of_occurs h1)
    · exact (containsSub_eq_false_iff _ _).mp hvalc.2 h2

theorem fpSegOut_hash_stable {C : FpComps} {s : Str} (hC : CleanComps C)
    (hwf : WFseg s) (hh : Occurs hashNeedle s) :
    Occurs hashNeedle (fpSegOut (rulesOfComps C) s) := by
  rcases fpSegOut_cases hC hwf with hid |
    ⟨r, K, V, val, hmem, hs, hK, hV, hrk, hpk, hout, hvalc, hres⟩
  · rw [hid]; exact hh
  · exfalso
    have hmemhash : '#' ∈ K ++ '=' :: V := hs ▸ occurs_mem hh (by decide)
    rcases List.mem_append.mp hmemhash with h1 | h2
    · exact cleanKey_no_hash hK h1
    · rcases List.mem_cons.mp h2 with h3 | h4
      · simp at h3
      · exact cleanVal_no_hash hV h4

/-- The per-segment probe of `get_current_prop`. -/
def segPropVal (key seg : Str) : Option Str :=
  if (keyPat key).isPrefixOf (strip seg) then some (lineVal (seg ++ ['\n'])) else none

theorem segPropVal_none_of_keyne {ck pre K V : Str} (hck : CleanKey ck)
    (hpre : pre = [] ∨ pre = ['#']) (hK : CleanKey K)
    (hne : K ≠ ck ∨ pre = ['#']) :
    segPropVal ck (pre ++ K ++ '=' :: V) = none := by
  unfold segPropVal
  rw [if_neg]
  intro hp
  obtain ⟨W, hsw, -⟩ :=
    strip_keyline (preK_ne_nil hK) (preK_head_nonspace hpre hK) (V := V)
  have halign : ck = pre ++ K := by
    apply keyPat_prefix_keyline (cleanKey_no_eq hck) (preK_no_eq hpre hK)
    rw [← hsw]
    exact List.isPrefixOf_iff_prefix.mp hp
  rcases hpre with rfl | rfl
  · simp only [List.nil_append] at halign
    rcases hne with hne1 | hne2
    · exact hne1 halign.symm
    · simp at hne2
  · exact cleanKey_no_hash hck (halign ▸ List.mem_cons_self '#' K)

theorem segPropVal_none_of_no_eq {ck s : Str} (hs : '=' ∉ s) :
    segPropVal ck s = none := by
  unfold segPropVal
  rw [if_neg]
  intro hp
  obtain ⟨w, hw⟩ := List.isPrefixOf_iff_prefix.mp hp
  apply hs
  apply mem_strip (s := s)
  rw [← hw]
  simp [keyPat]

theorem segPropVal_subKeySeg {k v ck s : Str} (hk : CleanKey k)
    (hck : CleanKey ck) (hwf : WFseg s) (hnc : ¬ k <:+ ck) :
    segPropVal ck (subKeySeg k v s) = segPropVal ck s := by
  rcases subKeySeg_cases (v := v) hk hwf with ⟨hid, -⟩ |
    ⟨pre, K, V, hs, hpre, hK, hV, hsuf, hres⟩
  · rw [hid]
  · rw [hres, hs]
    have hKne : K ≠ ck ∨ pre = ['#'] := by
      rcases hpre with rfl | rfl
      · left
        intro hKck
        exact hnc (hKck ▸ hsuf)
      · right; rfl
    rw [segPropVal_none_of_keyne hck hpre hK hKne,
      segPropVal_none_of_keyne hck hpre hK hKne]

theorem segPropVal_fpSegOut {C : FpComps} {ck s : Str} (hC : CleanComps C)
    (hwf : WFseg s) (hck : CleanKey ck) (hnm : ck ∉ fpRuleKeys) :
    segPropVal ck (fpSegOut (rulesOfComps C) s) = segPropVal ck s := by
  rcases fpSegOut_cases hC hwf with hid |
    ⟨r, K, V, val, hmem, hs, hK, hV, hrk, hpk, hout, hvalc, hres⟩
  · rw [hid]
  · rw [hres, hout, hs]
    have hKne : K ≠ ck ∨ ([] : Str) = ['#'] := by
      left
      intro hKck
      exact hnm (hKck ▸ hrk)
    have h1 := segPropVal_none_of_keyne (V := val) hck (Or.inl rfl) hK hKne
    have h2 := segPropVal_none_of_keyne (V := V) hck (Or.inl rfl) hK hKne
    simp only [List.nil_append] at h1 h2
    rw [h1, h2]

/-! ### File-level descriptions of the per-pass content transformations -/

theorem readlines_joinNl_closed {L : List Str} (h : ∀ s ∈ L, '\n' ∉ s) :
    readlines (joinNl (L ++ [[]])) = L.map (fun s => s ++ ['\n']) := by
  induction L with
  | nil => rfl
  | cons s L' ih =>
    rw [show (s :: L') ++ [[]] = s :: (L' ++ [[]]) from rfl,
      joinNl_cons s (by simp), readlines_append_nl (h s (List.mem_cons_self s L')),
      ih (fun x hx => h x (List.mem_cons_of_mem s hx))]
    rfl

theorem join_closed_eq_joinNl (L : List Str) :
    (L.map (fun s => s ++ ['\n'])).join = joinNl (L ++ [[]]) := by
  induction L with
  | nil => rfl
  | cons s L' ih =>
    have h1 : ((s ++ ['\n']) :: L'.map (fun x => x ++ ['\n'])).join
        = (s ++ ['\n']) ++ (L'.map (fun x => x ++ ['\n'])).join := rfl
    rw [List.map_cons, h1, ih,
      show (s :: L') ++ [[]] = s :: (L' ++ [[]]) from rfl,
      joinNl_cons s (by simp)]
    simp

/-- Destructuring a well-formed file into its closed line segments. -/
theorem wffile_dest {c : Str} (h : WFfile c) :
    ∃ L, splitOnNl c = L ++ [[]] ∧ (∀ s ∈ L, '\n' ∉ s) ∧
      c = joinNl (L ++ [[]]) ∧ readlines c = L.map (fun s => s ++ ['\n']) := by
  obtain ⟨L, hL⟩ := List.getLast?_eq_some_iff.mp h.1
  have hnl : ∀ s ∈ L, '\n' ∉ s := fun s hs =>
    splitOnNl_seg_no_nl (c := c) (hL ▸ List.mem_append.mpr (Or.inl hs))
  have hc : c = joinNl (L ++ [[]]) := by
    rw [← hL]
    exact (joinNl_splitOnNl c).symm
  refine ⟨L, hL, hnl, hc, ?_⟩
  rw [hc]
  exact readlines_joinNl_closed hnl

theorem keyPresent_iff_contains {k c : Str} (hk : '\n' ∉ k) :
    containsSub (keyPat k) c = true ↔ KeyPresent k c := by
  rw [containsSub_segs_iff]
  · rfl
  · intro hm
    rcases List.mem_append.mp hm with h1 | h2
    · exact hk h1
    · simp at h2

/-- `re.sub key=.* ` rewrites every segment through `subKeySeg`. -/
theorem reSubKey_segs {key val c : Str} (hk : '\n' ∉ key) (hv : '\n' ∉ val) :
    splitOnNl (reSubKey key val c) = (splitOnNl c).map (subKeySeg key val) := by
  unfold reSubKey
  apply splitOnNl_joinNl
  · simp [splitOnNl_ne_nil]
  · intro s hs
    obtain ⟨seg, hseg, rfl⟩ := List.mem_map.mp hs
    exact subKeySeg_no_nl hk hv (splitOnNl_seg_no_nl hseg)

/-- Case description of `_update_or_append_prop` on an existing file. -/
theorem uoaW_desc (c key val : Str) (hk : '\n' ∉ key) (hv : '\n' ∉ val) :
    ((updateOrAppendPropW c key val).1 = c) ∨
    (KeyPresent key c ∧
     (updateOrAppendPropW c key val).1 = reSubKey key val c ∧
     splitOnNl (updateOrAppendPropW c key val).1
       = (splitOnNl c).map (subKeySeg key val)) ∨
    (¬ KeyPresent key c ∧
     (updateOrAppendPropW c key val).1
       = c ++ '\n' :: (keyPat key ++ val) ++ ['\n'] ∧
     splitOnNl (updateOrAppendPropW c key val).1
       = splitOnNl c ++ [keyPat key ++ val, []]) := by
  have hx : '\n' ∉ keyPat key ++ val := by
    intro hmem
    rcases List.mem_append.mp hmem with h1 | h2
    · rcases List.mem_append.mp h1 with h3 | h4
      · exact hk h3
      · exact absurd (List.mem_singleton.mp h4) (by decide)
    · exact hv h2
  cases hsearch : reSearchKey key c with
  | none =>
    have hnp : ¬ KeyPresent key c := by
      rintro ⟨seg, hseg, hocc⟩
      exact (splitFirst_none_iff _ _).mp
        ((reSearchKey_none_iff key c).mp hsearch seg hseg) hocc
    have happ : (updateOrAppendPropW c key val).1
        = c ++ '\n' :: (keyPat key ++ val) ++ ['\n'] := by
      unfold updateOrAppendPropW
      rw [hsearch]
    refine Or.inr (Or.inr ⟨hnp, happ, ?_⟩)
    rw [happ, show c ++ '\n' :: (keyPat key ++ val) ++ ['\n']
        = c ++ '\n' :: ((keyPat key ++ val) ++ '\n' :: ([] : Str)) from by simp,
      splitOnNl_append_nl, splitOnNl_append_nl, splitOnNl_no_nl hx]
    rfl
  | some m =>
    have hkp : KeyPresent key c := by
      obtain ⟨seg, hseg, hprobe⟩ := List.exists_of_findSome?_eq_some hsearch
      refine ⟨seg, hseg, ?_⟩
      cases hsf : splitFirst (keyPat key) seg with
      | none => rw [hsf] at hprobe; simp at hprobe
      | some pr =>
        obtain ⟨hdec, hpre⟩ := splitFirst_eq_append hsf
        obtain ⟨w, hw⟩ := List.isPrefixOf_iff_prefix.mp hpre
        exact ⟨pr.1, w, by rw [hdec, ← hw]; simp⟩
    by_cases hrepl : m ≠ keyPat key ++ val
    · have hsub : (updateOrAppendPropW c key val).1 = reSubKey key val c := by
        simp [updateOrAppendPropW, hsearch, hrepl]
      exact Or.inr (Or.inl ⟨hkp, hsub, by rw [hsub]; exact reSubKey_segs hk hv⟩)
    · left
      have hm := not_not.mp hrepl
      simp [updateOrAppendPropW, hsearch, hm]

/-- A settled key occurrence makes update-or-append a definite no-op. -/
theorem uoaW_id_of_settled {c key val : Str}
    (hset : SegValSettled key val c) (hpres : KeyPresent key c) :
    updateOrAppendPropW c key val = (c, false) := by
  cases hsearch : reSearchKey key c with
  | none =>
    exfalso
    obtain ⟨seg, hseg, hocc⟩ := hpres
    exact (splitFirst_none_iff _ _).mp
      ((reSearchKey_none_iff key c).mp hsearch seg hseg) hocc
  | some m =>
    obtain ⟨seg, hseg, hprobe⟩ := List.exists_of_findSome?_eq_some hsearch
    cases hsf : splitFirst (keyPat key) seg with
    | none => rw [hsf] at hprobe; simp at hprobe
    | some pr =>
      obtain ⟨a, b⟩ := pr
      rw [hsf] at hprobe
      have hm : b = m := by simpa using hprobe
      obtain ⟨hdec, hpre⟩ := splitFirst_eq_append hsf
      obtain ⟨w, hw⟩ := List.isPrefixOf_iff_prefix.mp hpre
      have hocc : Occurs (keyPat key) seg := ⟨a, w, by rw [hdec, ← hw]; simp⟩
      have hsubid := hset seg hseg hocc
      have hsub : subKeySeg key val seg = a ++ keyPat key ++ val := by
        unfold subKeySeg
        rw [hsf]
      have hb : b = keyPat key ++ val := by
        have h1 : a ++ (keyPat key ++ val) = a ++ b := by
          rw [← List.append_assoc, ← hsub, hsubid, hdec]
        exact (List.append_cancel_left h1).symm
      have hmrepl : m = keyPat key ++ val := hm.symm.trans hb
      simp [updateOrAppendPropW, hsearch, hmrepl]

/-- The fingerprint per-line rewrite, segment-wise. -/
theorem fpLineOut_line (rules : List Rule) (s : Str) :
    (fpLineOut rules (s ++ ['\n'])).1 = fpSegOut rules s ++ ['\n'] := by
  have hstrip : strip (s ++ ['\n']) = strip s :=
    strip_append_space (by decide)
  unfold fpLineOut fpSegOut
  rw [hstrip]
  cases hrf : ruleFor rules (strip s) with
  | none => rfl
  | some r =>
    by_cases hif : strip s ≠ r.out
    · simp [hif]
    · simp [hif]

theorem fpSegOut_nil (rules : List Rule)
    (hr : ∀ r ∈ rules, r.pre ≠ []) : fpSegOut rules [] = [] := by
  cases hrf : ruleFor rules (strip []) with
  | none => exact fpSegOut_eq_none hrf
  | some r =>
    exfalso
    obtain ⟨hmem, hpre⟩ := ruleFor_mem_pre hrf
    obtain ⟨w, hw⟩ := List.isPrefixOf_iff_prefix.mp hpre
    apply hr r hmem
    have hsn : strip [] = [] := rfl
    rw [hsn] at hw
    exact (List.append_eq_nil.mp hw).1

theorem map_id_of_forall {α : Type} {f : α → α} {l : List α}
    (h : ∀ x ∈ l, f x = x) : l.map f = l := by
  induction l with
  | nil => rfl
  | cons a rest ih =>
    rw [List.map_cons, h a (List.mem_cons_self a rest),
      ih (fun x hx => h x (List.mem_cons_of_mem a hx))]

/-- A file whose every segment is fingerprint-settled is returned unchanged
by the fingerprint write-back loop. -/
theorem fpFileW_id {rules : List Rule} {c : Str} (hwf : WFfile c)
    (hset : ∀ seg ∈ splitOnNl c, fpSegOut rules seg = seg) :
    (fpFileW rules c).1 = c := by
  obtain ⟨L, hL, hnl, hc, hlines⟩ := wffile_dest hwf
  have hline_id : ∀ l ∈ readlines c, (fpLineOut rules l).1 = l := by
    intro l hl
    rw [hlines] at hl
    obtain ⟨s, hs, rfl⟩ := List.mem_map.mp hl
    rw [fpLineOut_line, hset s (by rw [hL]; exact List.mem_append.mpr (Or.inl hs))]
  unfold fpFileW
  by_cases hany : ((readlines c).map (fpLineOut rules)).any (fun p => p.2) = true
  · rw [if_pos hany]
    have hmapeq : ((readlines c).map (fpLineOut rules)).map Prod.fst
        = readlines c := by
      rw [List.map_map]
      apply map_id_of_forall
      intro l hl
      exact hline_id l hl
    rw [hmapeq, join_readlines]
  · rw [if_neg hany]

/-- Segment-wise description of the fingerprint write-back on a well-formed
file. -/
theorem fpFileW_segs {C : FpComps} {c : Str} (hC : CleanComps C)
    (hwf : WFfile c) :
    splitOnNl ((fpFileW (rulesOfComps C) c).1)
      = (splitOnNl c).map (fpSegOut (rulesOfComps C)) := by
  obtain ⟨L, hL, hnl, hc, hlines⟩ := wffile_dest hwf
  have hSwf : ∀ s ∈ L, WFseg s := by
    intro s hs
    exact hwf.2 s (by rw [hL]; exact List.mem_append.mpr (Or.inl hs))
  have hpre_ne : ∀ r ∈ rulesOfComps C, r.pre ≠ [] := by
    intro r hr
    obtain ⟨rk, val, hrk, hpk, -, -⟩ := rulesOfComps_spec hr
    rw [hpk]
    simp [keyPat]
  have hnl' : ∀ s ∈ L, '\n' ∉ fpSegOut (rulesOfComps C) s := by
    intro s hs
    rcases fpSegOut_cases hC (hSwf s hs) with hid |
      ⟨r, K, V, val, hmem, hseq, hK, hV, hrk, hpk, hout, hvalc, hres⟩
    · rw [hid]; exact hnl s hs
    · rw [hres, hout]
      intro hm
      rcases List.mem_append.mp hm with h1 | h2
      · exact cleanKey_no_nl hK h1
      · rcases List.mem_cons.mp h2 with h3 | h4
        · simp at h3
        · exact cleanVal_no_nl hvalc h4
  unfold fpFileW
  by_cases hany : ((readlines c).map (fpLineOut (rulesOfComps C))).any
      (fun p => p.2) = true
  · rw [if_pos hany]
    have hjoin : (((readlines c).map (fpLineOut (rulesOfComps C))).map
        Prod.fst).join = joinNl ((L.map (fpSegOut (rulesOfComps C))) ++ [[]]) := by
      rw [List.map_map, hlines, List.map_map]
      rw [show ((fun p : Str × Bool => p.1) ∘ fpLineOut (rulesOfComps C)) ∘
            (fun s => s ++ ['\n'])
          = fun s => (fpLineOut (rulesOfComps C) (s ++ ['\n'])).1 from rfl]
      rw [show (fun s => (fpLineOut (rulesOfComps C) (s ++ ['\n'])).1)
          = fun s => fpSegOut (rulesOfComps C) s ++ ['\n'] from
            funext (fun s => fpLineOut_line _ s)]
      rw [show (fun s => fpSegOut (rulesOfComps C) s ++ ['\n'])
          = (fun s => s ++ ['\n']) ∘ (fpSegOut (rulesOfComps C)) from rfl]
      rw [← List.map_map, join_closed_eq_joinNl]
    rw [hjoin, splitOnNl_joinNl (by simp) ?hnl2, hL]
    · rw [List.map_append]
      rfl
    case hnl2 =>
      intro s hs
      rcases List.mem_append.mp hs with h1 | h2
      · obtain ⟨x, hx, rfl⟩ := List.mem_map.mp h1
        exact hnl' x hx
      · rw [List.mem_singleton.mp h2]
        simp
  · rw [if_neg hany]
    have hany' : ((readlines c).map (fpLineOut (rulesOfComps C))).any
        (fun p => p.2) = false := Bool.eq_false_iff.mpr hany
    have hall := List.any_eq_false.mp hany'
    have hflags : ∀ l ∈ readlines c, (fpLineOut (rulesOfComps C) l).2 = false := by
      intro l hl
      exact Bool.eq_false_iff.mpr (hall _ (List.mem_map_of_mem _ hl))
    have hsegid : ∀ s ∈ L, fpSegOut (rulesOfComps C) s = s := by
      intro s hs
      have hl : s ++ ['\n'] ∈ readlines c := by
        rw [hlines]
        exact List.mem_map_of_mem _ hs
      have := fpLineOut_false (hflags _ hl)
      rw [fpLineOut_line] at this
      exact List.append_cancel_right this
    rw [hL, List.map_append]
    have h1 : L.map (fpSegOut (rulesOfComps C)) = L :=
      map_id_of_forall hsegid
    rw [h1]
    rfl

/-! ### Tree-level kit: pointwise content transformations -/

theorem findSome?_congr {α β : Type} {f g : α → Option β} {l : List α}
    (h : ∀ x ∈ l, f x = g x) : l.findSome? f = l.findSome? g := by
  induction l with
  | nil => rfl
  | cons x xs ih =>
    rw [List.findSome?_cons, List.findSome?_cons, h x (List.mem_cons_self x xs)]
    cases g x with
    | some b => rfl
    | none => exact ih (fun y hy => h y (List.mem_cons_of_mem x hy))

theorem mapContents_pathProj (t : Tree) (Φ : PFile → Str) :
    (mapContents t Φ).map (fun f => (f.part, f.sub))
      = t.map (fun f => (f.part, f.sub)) := by
  unfold mapContents
  rw [List.map_map]
  rfl

theorem mapContents_paths {t : Tree} (Φ : PFile → Str) (h : PathsUnique t) :
    PathsUnique (mapContents t Φ) := by
  unfold PathsUnique
  rw [mapContents_pathProj]
  exact h

theorem mapContents_getFile (t : Tree) (Φ : PFile → Str) (p s : Str) :
    getFile (mapContents t Φ) p s
      = (t.find? (fun f => f.part = p ∧ f.sub = s)).map Φ := by
  unfold getFile mapContents
  rw [List.find?_map, Option.map_map]
  rfl

theorem getFile_eq_find (t : Tree) (p s : Str) :
    getFile t p s
      = (t.find? (fun f => f.part = p ∧ f.sub = s)).map PFile.content := rfl

theorem mapContents_mem {t : Tree} {Φ : PFile → Str} {f' : PFile} :
    f' ∈ mapContents t Φ ↔ ∃ f ∈ t, f' = PFile.mk f.part f.sub (Φ f) := by
  unfold mapContents
  rw [List.mem_map]
  constructor
  · rintro ⟨f, hf, rfl⟩
    exact ⟨f, hf, rfl⟩
  · rintro ⟨f, hf, rfl⟩
    exact ⟨f, hf, rfl⟩

theorem mapContents_any (t : Tree) (Φ : PFile → Str) (q : Str → Bool) :
    (mapContents t Φ).any (fun f => q f.content) = t.any (fun f => q (Φ f)) := by
  unfold mapContents
  rw [List.any_map]
  rfl

theorem mapContents_congr {t : Tree} {Φ Ψ : PFile → Str}
    (h : ∀ f ∈ t, Φ f = Ψ f) : mapContents t Φ = mapContents t Ψ :=
  List.map_congr_left (fun f hf => by rw [h f hf])

theorem mapContents_id (t : Tree) : mapContents t (fun f => f.content) = t := by
  unfold mapContents
  have h : (fun f : PFile => PFile.mk f.part f.sub f.content)
      = fun f : PFile => f := rfl
  rw [h]
  exact List.map_id' t

theorem setFile_eq_mapContents (t : Tree) (p s c' : Str) :
    setFile t p s c'
      = mapContents t
          (fun f => if f.part = p ∧ f.sub = s then c' else f.content) := by
  unfold setFile mapContents
  apply List.map_congr_left
  intro f _
  by_cases hm : f.part = p ∧ f.sub = s
  · simp [hm]
  · simp [hm]

/-- With unique paths, the canonical lookup pins the content of every file at
that path. -/
theorem pathsUnique_content :
    ∀ {t : Tree}, PathsUnique t → ∀ {p s c : Str}, getFile t p s = some c →
      ∀ f ∈ t, f.part = p → f.sub = s → f.content = c := by
  intro t
  induction t with
  | nil =>
    intro _ p s c hget
    unfold getFile at hget
    simp at hget
  | cons g rest ih =>
    intro hu p s c hget f hf hfp hfs
    unfold PathsUnique at hu
    rw [List.map_cons, List.pairwise_cons] at hu
    obtain ⟨hg, hrest⟩ := hu
    unfold getFile at hget
    by_cases hgm : g.part = p ∧ g.sub = s
    · rw [List.find?_cons_of_pos _ (by simp [hgm.1, hgm.2])] at hget
      have hgc : g.content = c := by simpa using hget
      rcases List.mem_cons.mp hf with rfl | hfr
      · exact hgc
      · exfalso
        apply hg (f.part, f.sub) (List.mem_map_of_mem _ hfr)
        rw [hgm.1, hgm.2, hfp, hfs]
    · rw [List.find?_cons_of_neg _ (by simp [hgm])] at hget
      rcases List.mem_cons.mp hf with rfl | hfr
      · exact absurd ⟨hfp, hfs⟩ hgm
      · exact ih hrest hget f hfr hfp hfs

/-- A guarded canonical-file rewrite is a pointwise content transformation. -/
theorem setStep_eq {t : Tree} (hu : PathsUnique t) (p s : Str) (F : Str → Str) :
    (match getFile t p s with
     | none => t
     | some c => setFile t p s (F c))
      = mapContents t
          (fun f => if f.part = p ∧ f.sub = s then F f.content else f.content) := by
  cases hget : getFile t p s with
  | none =>
    have hnone : t.find? (fun f => f.part = p ∧ f.sub = s) = none := by
      rw [getFile_eq_find] at hget
      exact Option.map_eq_none'.mp hget
    have hnom := List.find?_eq_none.mp hnone
    rw [mapContents_congr (Ψ := fun f => f.content) ?hcong, mapContents_id]
    case hcong =>
      intro f hf
      rw [if_neg]
      intro hm
      exact hnom f hf (by simp [hm.1, hm.2])
  | some c =>
    show setFile t p s (F c) = mapContents t
      (fun f => if f.part = p ∧ f.sub = s then F f.content else f.content)
    rw [setFile_eq_mapContents]
    apply mapContents_congr
    intro f hf
    by_cases hm : f.part = p ∧ f.sub = s
    · rw [if_pos hm, if_pos hm, pathsUnique_content hu hget f hf hm.1 hm.2]
    · rw [if_neg hm, if_neg hm]

theorem uoaTree_eq {t : Tree} (hu : PathsUnique t) (p s k v : Str) :
    uoaTree t p s k v
      = mapContents t (fun f =>
          if f.part = p ∧ f.sub = s then (updateOrAppendPropW f.content k v).1
          else f.content) :=
  setStep_eq hu p s (fun c => (updateOrAppendPropW c k v).1)

/-- A pointwise transformation that fixes the files at `(p, s)` does not
change the canonical lookup there. -/
theorem getFile_mapContents_eq {t : Tree} {Φ : PFile → Str} {p s : Str}
    (h : ∀ f ∈ t, f.part = p → f.sub = s → Φ f = f.content) :
    getFile (mapContents t Φ) p s = getFile t p s := by
  rw [mapContents_getFile, getFile_eq_find]
  cases hf : t.find? (fun f => f.part = p ∧ f.sub = s) with
  | none => rfl
  | some f =>
    have hfm := List.mem_of_find?_eq_some hf
    have hfp := @List.find?_some PFile
      (fun f => decide (f.part = p ∧ f.sub = s)) f t hf
    have hfp2 : f.part = p ∧ f.sub = s := by simpa using hfp
    simp [h f hfm hfp2.1 hfp2.2]

theorem mapContents_partFiles (t : Tree) (Φ : PFile → Str) (p : Str) :
    partFiles (mapContents t Φ) p
      = (partFiles t p).map (fun f => PFile.mk f.part f.sub (Φ f)) := by
  unfold partFiles mapContents
  rw [List.filter_map]
  rfl

theorem filePropVal_eq_segs {key c : Str} (hwf : WFfile c) :
    filePropVal key c = (splitOnNl c).findSome? (segPropVal key) := by
  obtain ⟨L, hL, hnl, hc, hlines⟩ := wffile_dest hwf
  unfold filePropVal
  rw [hlines, hL, List.findSome?_map, List.findSome?_append]
  have hnil : ([([] : Str)] : List Str).findSome? (segPropVal key) = none := by
    rw [List.findSome?_cons]
    have : segPropVal key [] = none := by
      unfold segPropVal
      rw [if_neg]
      intro hp
      obtain ⟨w, hw⟩ := List.isPrefixOf_iff_prefix.mp hp
      have hs0 : strip ([] : Str) = [] := rfl
      rw [hs0] at hw
      exact keyPat_ne_nil key (List.append_eq_nil.mp hw).1
    rw [this]
    rfl
  have hcong : L.findSome?
      ((fun l => if (keyPat key).isPrefixOf (strip l) = true
          then some (lineVal l) else none) ∘ (fun s => s ++ ['\n']))
      = L.findSome? (segPropVal key) := by
    apply findSome?_congr
    intro x _
    show (if (keyPat key).isPrefixOf (strip (x ++ ['\n'])) = true
        then some (lineVal (x ++ ['\n'])) else none) = segPropVal key x
    rw [strip_append_space (by decide)]
    rfl
  rw [hcong, hnil, Option.or_none]

theorem getCurrentProp_mapContents {t : Tree} {Φ : PFile → Str}
    {key dflt : Str}
    (h : ∀ f ∈ t, filePropVal key (Φ f) = filePropVal key f.content) :
    getCurrentProp (mapContents t Φ) key dflt = getCurrentProp t key dflt := by
  unfold getCurrentProp
  have hp : ∀ p ∈ fpParts,
      (fun q => (partFiles (mapContents t Φ) q).findSome?
        (fun f => filePropVal key f.content)) p
      = (fun q => (partFiles t q).findSome?
        (fun f => filePropVal key f.content)) p := by
    intro p _
    show (partFiles (mapContents t Φ) p).findSome?
        (fun f => filePropVal key f.content)
      = (partFiles t p).findSome? (fun f => filePropVal key f.content)
    rw [mapContents_partFiles, List.findSome?_map]
    apply findSome?_congr
    intro f hf
    exact h f (List.mem_of_mem_filter hf)
  rw [findSome?_congr hp]

theorem readFpComps_mapContents {t : Tree} {Φ : PFile → Str}
    (h : ∀ f ∈ t, ∀ ck ∈ compKeys,
      filePropVal ck (Φ f) = filePropVal ck f.content) :
    readFpComps (mapContents t Φ) = readFpComps t := by
  unfold readFpComps
  congr 1
  · exact getCurrentProp_mapContents (fun f hf => h f hf _ (by decide))
  · exact getCurrentProp_mapContents (fun f hf => h f hf _ (by decide))
  · exact getCurrentProp_mapContents (fun f hf => h f hf _ (by decide))
  · exact getCurrentProp_mapContents (fun f hf => h f hf _ (by decide))
  · exact getCurrentProp_mapContents (fun f hf => h f hf _ (by decide))
  · exact getCurrentProp_mapContents (fun f hf => h f hf _ (by decide))
  · exact getCurrentProp_mapContents (fun f hf => h f hf _ (by decide))
  · exact getCurrentProp_mapContents (fun f hf => h f hf _ (by decide))

/-! ### Transport of settledness facts across the passes -/

theorem not_occurs_nil {n : Str} (hn : n ≠ []) : ¬ Occurs n [] := by
  rintro ⟨a, b, hab⟩
  rcases List.append_eq_nil.mp hab.symm with ⟨h1, -⟩
  exact hn (List.append_eq_nil.mp h1).2

theorem subKeySeg_nil (k v : Str) : subKeySeg k v [] = [] :=
  subKeySeg_id_of_no_occ (not_occurs_nil (keyPat_ne_nil k))

theorem subKeySeg_wf {k v s : Str} (hk : CleanKey k) (hv : CleanVal v)
    (hwf : WFseg s) : WFseg (subKeySeg k v s) := by
  rcases subKeySeg_cases (v := v) hk hwf with ⟨hid, -⟩ |
    ⟨pre, K, V, hs, hpre, hK, hV, hsuf, hres⟩
  · rw [hid]; exact hwf
  · rw [hres]
    exact wfseg_keyline hpre hK hv

theorem keyOcc_subKeySeg_self {k v s : Str} (hk : CleanKey k) (hv : CleanVal v)
    (hwf : WFseg s) (ho : Occurs (keyPat k) s) :
    Occurs (keyPat k) (subKeySeg k v s) := by
  rcases subKeySeg_cases (v := v) hk hwf with ⟨hid, hno⟩ |
    ⟨pre, K, V, hs, hpre, hK, hV, hsuf, hres⟩
  · exact absurd ho hno
  · rw [hres]
    exact (occurs_keyPat_seg hk hpre hK hv).mpr hsuf

/-- An operation is key-stable when it neither creates nor destroys
occurrences of `k'=` and leaves every line carrying one unchanged. -/
def KeyStable (f : Str → Str) (k' : Str) (M : List Str) : Prop :=
  ∀ seg ∈ M, (Occurs (keyPat k') (f seg) ↔ Occurs (keyPat k') seg) ∧
    (Occurs (keyPat k') seg → f seg = seg)

theorem keyStable_subKeySeg {k v k' : Str} (hk : CleanKey k) (hv : CleanVal v)
    (hk' : CleanKey k') (hnc : NonComp k k') {M : List Str}
    (hwf : ∀ seg ∈ M, WFseg seg) : KeyStable (subKeySeg k v) k' M := by
  intro seg hseg
  rcases subKeySeg_cases (v := v) hk (hwf seg hseg) with ⟨hid, -⟩ |
    ⟨pre, K, V, hs, hpre, hK, hV, hsuf, hres⟩
  · rw [hid]
    exact ⟨Iff.rfl, fun _ => rfl⟩
  · constructor
    · rw [hres, hs]
      rw [occurs_keyPat_seg hk' hpre hK hv, occurs_keyPat_seg hk' hpre hK hV]
    · intro ho
      exfalso
      have hsuf' : k' <:+ K := by
        rw [hs] at ho
        exact (occurs_keyPat_seg hk' hpre hK hV).mp ho
      rcases suffix_comparable hsuf hsuf' with h1 | h2
      · exact hnc.1 h1
      · exact hnc.2 h2

theorem keyStable_fpSegOut {C : FpComps} {k' : Str} (hC : CleanComps C)
    (hk' : CleanKey k') (hnc : ∀ fk ∈ fpRuleKeys, ¬ k' <:+ fk) {M : List Str}
    (hwf : ∀ seg ∈ M, WFseg seg) :
    KeyStable (fpSegOut (rulesOfComps C)) k' M := by
  intro seg hseg
  exact ⟨fpSegOut_keyOcc_iff hC (hwf seg hseg) hk' hnc,
    fun ho => fpSegOut_id_of_keyOcc hC (hwf seg hseg) hk' hnc ho⟩

/-- Action of the millet `str.replace` on a hash-free well-formed
segment. -/
theorem milletSeg_cases {s : Str} (hwf : WFseg s)
    (hnh : ¬ Occurs hashNeedle s) :
    (¬ Occurs milletNeedle s ∧
      replaceAllSub milletNeedle ('#' :: milletNeedle) s = s) ∨
    (∃ V, s = milletNeedle ++ '=' :: V ∧ CleanVal V ∧
      replaceAllSub milletNeedle ('#' :: milletNeedle) s
        = '#' :: (milletNeedle ++ '=' :: V)) ∨
    ('=' ∉ s ∧ '\n' ∉ s ∧ Occurs milletNeedle s) := by
  by_cases ho : Occurs milletNeedle s
  · rcases wfseg_cases hwf with ⟨hne, hnl⟩ | ⟨pre, K, V, rfl, hpre, hK, hV⟩
    · exact Or.inr (Or.inr ⟨hne, hnl, ho⟩)
    · rcases occurs_append_cons_split (by decide) ho with h1 | h2
      · -- needle occurs in pre ++ K, so K is the needle itself
        have hK2 : Occurs milletNeedle K := by
          rcases hpre with rfl | rfl
          · simpa using h1
          · rcases occurs_append_cons_split (by decide)
              (show Occurs milletNeedle (([] : Str) ++ '#' :: K) by simpa using h1)
              with h3 | h4
            · exact absurd h3 (not_occurs_nil (by decide))
            · exact h4
        have hKn : K = milletNeedle := hK.2.2 ((containsSub_iff _ _).mpr hK2)
        rcases hpre with rfl | rfl
        · refine Or.inr (Or.inl ⟨V, by rw [hKn]; simp, hV, ?_⟩)
          subst hKn
          have hpref : milletNeedle.isPrefixOf
              (([] : Str) ++ milletNeedle ++ '=' :: V) = true := by
            apply List.isPrefixOf_iff_prefix.mpr
            exact ⟨'=' :: V, by simp⟩
          obtain ⟨rest, hcr, heq⟩ := replaceAllSub_pos ('#' :: milletNeedle)
            (by decide) hpref
          have hrest : rest = '=' :: V := by
            have h9 : ([] : Str) ++ milletNeedle ++ '=' :: V
                = milletNeedle ++ ('=' :: V) := by simp
            rw [h9] at hcr
            exact (List.append_cancel_left hcr).symm
          have hnoV : ¬ Occurs milletNeedle ('=' :: V) := by
            intro hocc
            rcases occurs_append_cons_split (by decide)
              (show Occurs milletNeedle (([] : Str) ++ '=' :: V) by
                simpa using hocc) with h5 | h6
            · exact absurd h5 (not_occurs_nil (by decide))
            · exact (containsSub_eq_false_iff _ _).mp hV.2 h6
          rw [heq, hrest, replaceAllSub_id_of_no_occ hnoV]
          simp
        · -- a commented millet line carries `#persist`, contradiction
          exfalso
          apply hnh
          subst hKn
          refine occurs_trans_sub ?_ (show Occurs ('#' :: milletNeedle)
            (['#'] ++ milletNeedle ++ '=' :: V) from ⟨[], '=' :: V, by simp⟩)
          exact ⟨[], S (".sys.millet.cgroup1"), by decide⟩
      · exact absurd h2 ((containsSub_eq_false_iff _ _).mp hV.2)
  · exact Or.inl ⟨ho, replaceAllSub_id_of_no_occ ho⟩

theorem keyStable_millet {k' : Str} (hk' : CleanKey k')
    (hns : ¬ k' <:+ milletNeedle) {M : List Str}
    (hwf : ∀ seg ∈ M, WFseg seg) (hnh : ∀ seg ∈ M, ¬ Occurs hashNeedle seg) :
    KeyStable (replaceAllSub milletNeedle ('#' :: milletNeedle)) k' M := by
  intro seg hseg
  rcases milletSeg_cases (hwf seg hseg) (hnh seg hseg) with
    ⟨-, hid⟩ | ⟨V, hs, hV, hres⟩ | ⟨hne, hnl, -⟩
  · rw [hid]
    exact ⟨Iff.rfl, fun _ => rfl⟩
  · have h1 : Occurs (keyPat k') (['#'] ++ milletNeedle ++ '=' :: V)
        ↔ k' <:+ milletNeedle :=
      occurs_keyPat_seg hk' (Or.inr rfl) (by decide) hV
    have h2 : Occurs (keyPat k') (([] : Str) ++ milletNeedle ++ '=' :: V)
        ↔ k' <:+ milletNeedle :=
      occurs_keyPat_seg hk' (Or.inl rfl) (by decide) hV
    constructor
    · rw [hres, hs]
      constructor
      · intro h
        exact absurd (h1.mp (by simpa using h)) hns
      · intro h
        exact absurd (h2.mp (by simpa using h)) hns
    · intro ho
      exfalso
      apply hns
      apply h2.mp
      rw [hs] at ho
      simpa using ho
  · have hres_ne : '=' ∉ replaceAllSub milletNeedle ('#' :: milletNeedle) seg := by
      intro hm
      rcases mem_replaceAllSub hm with h1 | h2
      · exact hne h1
      · exact absurd h2 (by decide)
    constructor
    · constructor
      · intro h
        exact absurd h (occurs_keyPat_no_eq hres_ne)
      · intro h
        exact absurd h (occurs_keyPat_no_eq hne)
    · intro ho
      exact absurd ho (occurs_keyPat_no_eq hne)

/-- Transport of per-key settledness along a key-stable map. -/
theorem segValSettled_of_keyStable {k' v' c c' : Str} {f : Str → Str}
    (hsegs : splitOnNl c' = (splitOnNl c).map f)
    (hks : KeyStable f k' (splitOnNl c)) (h : SegValSettled k' v' c) :
    SegValSettled k' v' c' := by
  intro seg' hseg' ho
  rw [hsegs] at hseg'
  obtain ⟨seg, hseg, rfl⟩ := List.mem_map.mp hseg'
  have hocc : Occurs (keyPat k') seg := ((hks seg hseg).1).mp ho
  rw [(hks seg hseg).2 hocc]
  exact h seg hseg hocc

theorem keyPresent_of_keyStable {k' c c' : Str} {f : Str → Str}
    (hsegs : splitOnNl c' = (splitOnNl c).map f)
    (hks : KeyStable f k' (splitOnNl c)) (h : KeyPresent k' c) :
    KeyPresent k' c' := by
  obtain ⟨seg, hseg, ho⟩ := h
  refine ⟨f seg, by rw [hsegs]; exact List.mem_map_of_mem f hseg, ?_⟩
  exact ((hks seg hseg).1).mpr ho

/-- Appending closed lines at the end preserves settledness facts. -/
theorem segValSettled_append {k' v' c c' X : Str}
    (hsegs : splitOnNl c' = splitOnNl c ++ [X, []])
    (hX : Occurs (keyPat k') X → subKeySeg k' v' X = X)
    (h : SegValSettled k' v' c) : SegValSettled k' v' c' := by
  intro seg' hseg' ho
  rw [hsegs] at hseg'
  rcases List.mem_append.mp hseg' with h1 | h2
  · exact h seg' h1 ho
  · rcases List.mem_cons.mp h2 with rfl | h3
    · exact hX ho
    · rw [List.mem_singleton.mp h3] at ho
      exact absurd ho (not_occurs_nil (keyPat_ne_nil k'))

theorem keyPresent_append {k' c c' X : Str}
    (hsegs : splitOnNl c' = splitOnNl c ++ [X, []])
    (h : KeyPresent k' c) : KeyPresent k' c' := by
  obtain ⟨seg, hseg, ho⟩ := h
  exact ⟨seg, by rw [hsegs]; exact List.mem_append.mpr (Or.inl hseg), ho⟩

/-- Well-formedness transports along segment maps fixing the empty
segment. -/
theorem wffile_map {c c' : Str} {f : Str → Str} (hwf : WFfile c)
    (hsegs : splitOnNl c' = (splitOnNl c).map f)
    (hfwf : ∀ seg ∈ splitOnNl c, WFseg (f seg)) (hf0 : f [] = []) :
    WFfile c' := by
  obtain ⟨L, hL, -, -, -⟩ := wffile_dest hwf
  constructor
  · rw [hsegs, hL, List.map_append]
    have h1 : ([([] : Str)]).map f = [([] : Str)] := by
      rw [List.map_cons, List.map_nil, hf0]
    rw [h1]
    exact List.getLast?_concat _
  · intro seg hseg
    rw [hsegs] at hseg
    obtain ⟨x, hx, rfl⟩ := List.mem_map.mp hseg
    exact hfwf x hx

theorem wffile_append_line {c c' k v : Str} (hwf : WFfile c) (hk : CleanKey k)
    (hv : CleanVal v)
    (hsegs : splitOnNl c' = splitOnNl c ++ [keyPat k ++ v, []]) : WFfile c' := by
  constructor
  · rw [hsegs, show splitOnNl c ++ [keyPat k ++ v, []]
        = (splitOnNl c ++ [keyPat k ++ v]) ++ [[]] from by simp]
    exact List.getLast?_concat _
  · intro seg hseg
    rw [hsegs] at hseg
    rcases List.mem_append.mp hseg with h1 | h2
    · exact hwf.2 seg h1
    · rcases List.mem_cons.mp h2 with rfl | h3
      · have := wfseg_keyline (Or.inl rfl) hk hv
        simpa [keyPat] using this
      · rw [List.mem_singleton.mp h3]
        exact wfseg_of_no_eq (by simp) (by simp)

theorem splitOnNl_append_line {c X : Str} (hX : '\n' ∉ X) :
    splitOnNl (c ++ '\n' :: X ++ ['\n']) = splitOnNl c ++ [X, []] := by
  rw [show c ++ '\n' :: X ++ ['\n']
      = c ++ '\n' :: (X ++ '\n' :: ([] : Str)) from by simp,
    splitOnNl_append_nl, splitOnNl_append_nl, splitOnNl_no_nl hX]
  rfl

theorem rulesOfComps_pre_ne (C : FpComps) :
    ∀ r ∈ rulesOfComps C, r.pre ≠ [] := by
  intro r hr
  obtain ⟨rk, val, hrk, hpk, -, -⟩ := rulesOfComps_spec hr
  rw [hpk]
  simp [keyPat]

/-- The fingerprint rewrite does not touch a key line whose key is not a rule
key (or which is commented out). -/
theorem fpSegOut_id_of_notRuleKey {C : FpComps} {pre K V : Str}
    (hC : CleanComps C) (hpre : pre = [] ∨ pre = ['#']) (hK : CleanKey K)
    (hV : CleanVal V) (hnm : K ∉ fpRuleKeys ∨ pre = ['#']) :
    fpSegOut (rulesOfComps C) (pre ++ K ++ '=' :: V) = pre ++ K ++ '=' :: V := by
  rcases fpSegOut_cases hC (wfseg_keyline hpre hK hV) with hid |
    ⟨r, K', V', val, hmem, hs, hK', hV', hrk', hpk', hout', hvalc', hres'⟩
  · exact hid
  · exfalso
    have heq := keyPat_decomp_unique (cleanKey_no_eq hK')
      (preK_no_eq hpre hK) (cleanVal_no_eq hV)
      (show pre ++ K ++ '=' :: V = [] ++ keyPat K' ++ V' from by
        rw [hs]; simp [keyPat])
    have hKK' : pre ++ K = K' := by simpa using heq.1.symm
    rcases hnm with hnm1 | hnm2
    · rcases hpre with rfl | rfl
      · apply hnm1
        have hKeq : K = K' := by simpa using hKK'
        rw [hKeq]
        exact hrk'
      · exact cleanKey_no_hash hK' (by rw [← hKK']; simp)
    · subst hnm2
      exact cleanKey_no_hash hK' (by rw [← hKK']; simp)

theorem fpSettledSeg_subKeySeg {C : FpComps} {k v seg : Str}
    (hC : CleanComps C) (hk : CleanKey k) (hv : CleanVal v) (hwf : WFseg seg)
    (hnc : ∀ fk ∈ fpRuleKeys, ¬ k <:+ fk)
    (hset : fpSegOut (rulesOfComps C) seg = seg) :
    fpSegOut (rulesOfComps C) (subKeySeg k v seg) = subKeySeg k v seg := by
  rcases subKeySeg_cases (v := v) hk hwf with ⟨hid, -⟩ |
    ⟨pre, K, V, hs, hpre, hK, hV, hsuf, hres⟩
  · rw [hid]
    exact hset
  · rw [hres]
    apply fpSegOut_id_of_notRuleKey hC hpre hK hv
    rcases hpre with rfl | rfl
    · left
      intro hmem
      exact hnc K hmem hsuf
    · right; rfl

theorem filePropVal_map_congr {ck c c' : Str} {f : Str → Str}
    (hwfc : WFfile c) (hwfc' : WFfile c')
    (hsegs : splitOnNl c' = (splitOnNl c).map f)
    (hcong : ∀ seg ∈ splitOnNl c, segPropVal ck (f seg) = segPropVal ck seg) :
    filePropVal ck c' = filePropVal ck c := by
  rw [filePropVal_eq_segs hwfc', filePropVal_eq_segs hwfc, hsegs,
    List.findSome?_map]
  exact findSome?_congr (fun x hx => hcong x hx)

theorem filePropVal_append {ck c c' X : Str} (hwfc : WFfile c)
    (hwfc' : WFfile c') (hsegs : splitOnNl c' = splitOnNl c ++ [X, []])
    (hnm : segPropVal ck X = none) : filePropVal ck c' = filePropVal ck c := by
  rw [filePropVal_eq_segs hwfc', filePropVal_eq_segs hwfc, hsegs,
    List.findSome?_append]
  have h2 : ([X, ([] : Str)]).findSome? (segPropVal ck) = none := by
    rw [List.findSome?_cons, hnm]
    have h0 : segPropVal ck [] = none := by
      unfold segPropVal
      rw [if_neg]
      intro hp
      obtain ⟨w, hw⟩ := List.isPrefixOf_iff_prefix.mp hp
      have hs0 : strip ([] : Str) = [] := rfl
      rw [hs0] at hw
      exact keyPat_ne_nil ck (List.append_eq_nil.mp hw).1
    rw [List.findSome?_cons, h0]
    rfl
  rw [h2, Option.or_none]

theorem subKeySeg_settles {k v s : Str} (hk : CleanKey k) (hv : CleanVal v)
    (hwf : WFseg s) (ho : Occurs (keyPat k) (subKeySeg k v s)) :
    subKeySeg k v (subKeySeg k v s) = subKeySeg k v s := by
  rcases subKeySeg_cases (v := v) hk hwf with ⟨hid, hno⟩ |
    ⟨pre, K, V, hs, hpre, hK, hV, hsuf, hres⟩
  · rw [hid] at ho ⊢
    exact absurd ho hno
  · rw [hres] at ho ⊢
    exact subKeySeg_keyline (cleanKey_no_eq hk) (preK_no_eq hpre hK)
      (cleanVal_no_eq hv) ho

theorem bool_eq_of_iff {a b : Bool} (h : a = true ↔ b = true) : a = b := by
  cases a with
  | true => exact (h.mp rfl).symm
  | false =>
    cases b with
    | true => exact absurd (h.mpr rfl) (by simp)
    | false => rfl

theorem contains_of_keyStable {k' c c' : Str} {f : Str → Str}
    (hk'' : '\n' ∉ keyPat k')
    (hsegs : splitOnNl c' = (splitOnNl c).map f)
    (hks : KeyStable f k' (splitOnNl c)) :
    containsSub (keyPat k') c' = containsSub (keyPat k') c := by
  apply bool_eq_of_iff
  rw [containsSub_segs_iff hk'', containsSub_segs_iff hk'', hsegs]
  constructor
  · rintro ⟨seg', hseg', ho⟩
    obtain ⟨seg, hseg, rfl⟩ := List.mem_map.mp hseg'
    exact ⟨seg, hseg, ((hks seg hseg).1).mp ho⟩
  · rintro ⟨seg, hseg, ho⟩
    exact ⟨f seg, List.mem_map_of_mem f hseg, ((hks seg hseg).1).mpr ho⟩

theorem keyPat_no_nl {k : Str} (hk : CleanKey k) : '\n' ∉ keyPat k := by
  intro hm
  rcases List.mem_append.mp hm with h1 | h2
  · exact cleanKey_no_nl hk h1
  · simp at h2

/-- Per-file facts established by the density rewrite. -/
theorem densityFileNew_facts {base c : Str} (hb : CleanVal base)
    (hwf : WFfile c) :
    WFfile (densityFileNew base c) ∧
    SegValSettled lcdKey base (densityFileNew base c) ∧
    SegValSettled densityV2Key base (densityFileNew base c) ∧
    containsSub (keyPat lcdKey) (densityFileNew base c)
      = containsSub (keyPat lcdKey) c := by
  have hbn : '\n' ∉ base := cleanVal_no_nl hb
  have hlcd : CleanKey lcdKey := by decide
  have hv2 : CleanKey densityV2Key := by decide
  have hnc : NonComp lcdKey densityV2Key := by decide
  have hnc2 : NonComp densityV2Key lcdKey := by decide
  -- facts for the first substitution
  have step : ∀ (k : Str), CleanKey k → ∀ (d : Str), WFfile d →
      WFfile (reSubKey k base d) ∧ SegValSettled k base (reSubKey k base d) ∧
      (∀ k', CleanKey k' → NonComp k k' →
        KeyStable (subKeySeg k base) k' (splitOnNl d)) ∧
      containsSub (keyPat k) (reSubKey k base d)
        = containsSub (keyPat k) d := by
    intro k hk d hwfd
    have hsegs := reSubKey_segs (c := d) (cleanKey_no_nl hk) hbn
    have hwfsegs : ∀ seg ∈ splitOnNl d, WFseg seg := hwfd.2
    refine ⟨?_, ?_, ?_, ?_⟩
    · exact wffile_map hwfd hsegs
        (fun seg hseg => subKeySeg_wf hk hb (hwfsegs seg hseg))
        (subKeySeg_nil k base)
    · intro seg' hseg' ho
      rw [hsegs] at hseg'
      obtain ⟨seg, hseg, rfl⟩ := List.mem_map.mp hseg'
      exact subKeySeg_settles hk hb (hwfsegs seg hseg) ho
    · intro k' hk' hnck
      exact keyStable_subKeySeg hk hb hk' hnck hwfsegs
    · apply bool_eq_of_iff
      rw [containsSub_segs_iff (keyPat_no_nl hk),
        containsSub_segs_iff (keyPat_no_nl hk), hsegs]
      constructor
      · rintro ⟨seg', hseg', ho⟩
        obtain ⟨seg, hseg, rfl⟩ := List.mem_map.mp hseg'
        rcases subKeySeg_cases (v := base) hk (hwfsegs seg hseg) with ⟨hid, -⟩ |
          ⟨pre, K, V, hs, hpre, hK, hV, hsuf, hres⟩
        · exact ⟨seg, hseg, hid ▸ ho⟩
        · refine ⟨seg, hseg, ?_⟩
          rw [hs]
          exact (occurs_keyPat_seg hk hpre hK hV).mpr hsuf
      · rintro ⟨seg, hseg, ho⟩
        exact ⟨subKeySeg k base seg, List.mem_map_of_mem _ hseg,
          keyOcc_subKeySeg_self hk hb (hwfsegs seg hseg) ho⟩
  unfold densityFileNew
  by_cases hA : containsSub (keyPat lcdKey) c = true
  · rw [if_pos hA]
    obtain ⟨hwf1, hset1, hks1, hcont1⟩ := step lcdKey hlcd c hwf
    by_cases hB : containsSub (keyPat densityV2Key) c = true
    · rw [if_pos hB]
      obtain ⟨hwf2, hset2, hks2, hcont2⟩ := step densityV2Key hv2 _ hwf1
      have hsegs2 := reSubKey_segs (c := reSubKey lcdKey base c)
        (cleanKey_no_nl hv2) hbn
      refine ⟨hwf2, ?_, hset2, ?_⟩
      · exact segValSettled_of_keyStable hsegs2
          (hks2 lcdKey hlcd hnc2) hset1
      · rw [contains_of_keyStable (keyPat_no_nl hlcd) hsegs2
          (hks2 lcdKey hlcd hnc2), hcont1]
    · rw [if_neg hB]
      refine ⟨hwf1, hset1, ?_, hcont1⟩
      intro seg' hseg' ho
      exfalso
      have hBc : containsSub (keyPat densityV2Key) c = false :=
        Bool.eq_false_iff.mpr hB
      have hB1 : containsSub (keyPat densityV2Key) (reSubKey lcdKey base c)
          = false := by
        rw [contains_of_keyStable (keyPat_no_nl hv2)
          (reSubKey_segs (cleanKey_no_nl hlcd) hbn)
          (hks1 densityV2Key hv2 hnc), hBc]
      apply (containsSub_eq_false_iff _ _).mp hB1
      exact occurs_trans_sub ho (splitOnNl_seg_occurs hseg')
  · rw [if_neg hA]
    have hAc : containsSub (keyPat lcdKey) c = false := Bool.eq_false_iff.mpr hA
    have hset1 : SegValSettled lcdKey base c := by
      intro seg hseg ho
      exfalso
      apply (containsSub_eq_false_iff _ _).mp hAc
      exact occurs_trans_sub ho (splitOnNl_seg_occurs hseg)
    by_cases hB : containsSub (keyPat densityV2Key) c = true
    · rw [if_pos hB]
      obtain ⟨hwf2, hset2, hks2, hcont2⟩ := step densityV2Key hv2 c hwf
      have hsegs2 := reSubKey_segs (c := c) (cleanKey_no_nl hv2) hbn
      refine ⟨hwf2, ?_, hset2, ?_⟩
      · exact segValSettled_of_keyStable hsegs2 (hks2 lcdKey hlcd hnc2) hset1
      · rw [contains_of_keyStable (keyPat_no_nl hlcd) hsegs2
          (hks2 lcdKey hlcd hnc2)]
    · rw [if_neg hB]
      have hBc : containsSub (keyPat densityV2Key) c = false :=
        Bool.eq_false_iff.mpr hB
      refine ⟨hwf, hset1, ?_, rfl⟩
      intro seg hseg ho
      exfalso
      apply (containsSub_eq_false_iff _ _).mp hBc
      exact occurs_trans_sub ho (splitOnNl_seg_occurs hseg)

/-- The density pass establishes its settledness facts on every well-formed
tree. -/
theorem density_pass (ctx : Ctx) {t : Tree} (hwf : TreeWF t)
    (hu : PathsUnique t) (hb : CleanVal (baseDensity ctx)) :
    TreeWF (updateDensity ctx t) ∧ PathsUnique (updateDensity ctx t) ∧
    DensitySettled (baseDensity ctx) (updateDensity ctx t) ∧
    DensityFound (updateDensity ctx t) := by
  have hwfD : TreeWF (mapContents t
      (fun f => densityFileNew (baseDensity ctx) f.content)) := by
    intro f' hf'
    obtain ⟨f, hf, rfl⟩ := mapContents_mem.mp hf'
    exact (densityFileNew_facts hb (hwf f hf)).1
  have huD : PathsUnique (mapContents t
      (fun f => densityFileNew (baseDensity ctx) f.content)) :=
    mapContents_paths _ hu
  have hsetD : DensitySettled (baseDensity ctx) (mapContents t
      (fun f => densityFileNew (baseDensity ctx) f.content)) := by
    intro f' hf'
    obtain ⟨f, hf, rfl⟩ := mapContents_mem.mp hf'
    exact ⟨(densityFileNew_facts hb (hwf f hf)).2.1,
      (densityFileNew_facts hb (hwf f hf)).2.2.1⟩
  by_cases hfound : t.any (fun f => containsSub (keyPat lcdKey) f.content) = true
  · have hD : updateDensity ctx t = mapContents t
        (fun f => densityFileNew (baseDensity ctx) f.content) := by
      simp only [updateDensity]
      rw [if_pos hfound]
      rfl
    rw [hD]
    refine ⟨hwfD, huD, hsetD, Or.inr ?_⟩
    obtain ⟨f0, hf0, hf0c⟩ := List.any_eq_true.mp hfound
    apply List.any_eq_true.mpr
    refine ⟨PFile.mk f0.part f0.sub (densityFileNew (baseDensity ctx) f0.content),
      mapContents_mem.mpr ⟨f0, hf0, rfl⟩, ?_⟩
    show containsSub (keyPat lcdKey)
        (densityFileNew (baseDensity ctx) f0.content) = true
    rw [(densityFileNew_facts hb (hwf f0 hf0)).2.2.2]
    simpa using hf0c
  · cases hget : getFile (mapContents t
        (fun f => densityFileNew (baseDensity ctx) f.content))
        prodPart prodSub with
    | none =>
      have hD : updateDensity ctx t = mapContents t
          (fun f => densityFileNew (baseDensity ctx) f.content) := by
        simp only [updateDensity]
        rw [if_neg hfound]
        rw [show (t.map (fun f => PFile.mk f.part f.sub
            (densityFileNew (baseDensity ctx) f.content)))
          = mapContents t (fun f => densityFileNew (baseDensity ctx) f.content)
          from rfl, hget]
      rw [hD]
      exact ⟨hwfD, huD, hsetD, Or.inl hget⟩
    | some c =>
      have hD : updateDensity ctx t
          = setFile (mapContents t
              (fun f => densityFileNew (baseDensity ctx) f.content))
            prodPart prodSub
            (c ++ '\n' :: keyPat lcdKey ++ baseDensity ctx ++ ['\n']) := by
        simp only [updateDensity]
        rw [if_neg hfound]
        rw [show (t.map (fun f => PFile.mk f.part f.sub
            (densityFileNew (baseDensity ctx) f.content)))
          = mapContents t (fun f => densityFileNew (baseDensity ctx) f.content)
          from rfl, hget]
      have hstep := setStep_eq huD prodPart prodSub
        (fun x => x ++ '\n' :: keyPat lcdKey ++ baseDensity ctx ++ ['\n'])
      rw [hget] at hstep
      have hstep2 : setFile (mapContents t
            (fun f => densityFileNew (baseDensity ctx) f.content))
          prodPart prodSub
          (c ++ '\n' :: keyPat lcdKey ++ baseDensity ctx ++ ['\n'])
        = mapContents (mapContents t
            (fun f => densityFileNew (baseDensity ctx) f.content))
          (fun f => if f.part = prodPart ∧ f.sub = prodSub
            then f.content ++ '\n' :: keyPat lcdKey ++ baseDensity ctx ++ ['\n']
            else f.content) := hstep
      rw [hD, hstep2]
      have happsegs : ∀ (d : Str),
          splitOnNl (d ++ '\n' :: keyPat lcdKey ++ baseDensity ctx ++ ['\n'])
            = splitOnNl d ++ [keyPat lcdKey ++ baseDensity ctx, []] := by
        intro d
        rw [show d ++ '\n' :: keyPat lcdKey ++ baseDensity ctx ++ ['\n']
            = d ++ '\n' :: (keyPat lcdKey ++ baseDensity ctx) ++ ['\n'] from by
          simp]
        exact splitOnNl_append_line (by
          intro hm
          rcases List.mem_append.mp hm with h1 | h2
          · exact keyPat_no_nl (by decide) h1
          · exact cleanVal_no_nl hb h2)
      have hXlcd : Occurs (keyPat lcdKey)
          (keyPat lcdKey ++ baseDensity ctx) →
          subKeySeg lcdKey (baseDensity ctx)
            (keyPat lcdKey ++ baseDensity ctx)
            = keyPat lcdKey ++ baseDensity ctx := by
        intro ho
        rw [show keyPat lcdKey ++ baseDensity ctx
            = lcdKey ++ '=' :: baseDensity ctx from by simp [keyPat]] at ho ⊢
        exact subKeySeg_keyline (by decide) (by decide) (cleanVal_no_eq hb) ho
      have hXv2 : Occurs (keyPat densityV2Key)
          (keyPat lcdKey ++ baseDensity ctx) →
          subKeySeg densityV2Key (baseDensity ctx)
            (keyPat lcdKey ++ baseDensity ctx)
            = keyPat lcdKey ++ baseDensity ctx := by
        intro ho
        exfalso
        rw [show keyPat lcdKey ++ baseDensity ctx
            = ([] : Str) ++ lcdKey ++ '=' :: baseDensity ctx from by
          simp [keyPat]] at ho
        have := (occurs_keyPat_seg (by decide) (Or.inl rfl) (by decide) hb).mp ho
        revert this
        decide
      refine ⟨?_, mapContents_paths _ huD, ?_, Or.inr ?_⟩
      · intro f' hf'
        obtain ⟨f, hf, rfl⟩ := mapContents_mem.mp hf'
        by_cases hm : f.part = prodPart ∧ f.sub = prodSub
        · show WFfile (if f.part = prodPart ∧ f.sub = prodSub
            then f.content ++ '\n' :: keyPat lcdKey ++ baseDensity ctx ++ ['\n']
            else f.content)
          rw [if_pos hm]
          exact wffile_append_line (hwfD f hf) (by decide) hb (happsegs f.content)
        · show WFfile (if f.part = prodPart ∧ f.sub = prodSub
            then f.content ++ '\n' :: keyPat lcdKey ++ baseDensity ctx ++ ['\n']
            else f.content)
          rw [if_neg hm]
          exact hwfD f hf
      · intro f' hf'
        obtain ⟨f, hf, rfl⟩ := mapContents_mem.mp hf'
        by_cases hm : f.part = prodPart ∧ f.sub = prodSub
        · constructor
          · show SegValSettled lcdKey (baseDensity ctx)
              (if f.part = prodPart ∧ f.sub = prodSub
               then f.content ++ '\n' :: keyPat lcdKey ++ baseDensity ctx ++ ['\n']
               else f.content)
            rw [if_pos hm]
            exact segValSettled_append (happsegs f.content) hXlcd
              (hsetD f hf).1
          · show SegValSettled densityV2Key (baseDensity ctx)
              (if f.part = prodPart ∧ f.sub = prodSub
               then f.content ++ '\n' :: keyPat lcdKey ++ baseDensity ctx ++ ['\n']
               else f.content)
            rw [if_pos hm]
            exact segValSettled_append (happsegs f.content) hXv2
              (hsetD f hf).2
        · constructor
          · show SegValSettled lcdKey (baseDensity ctx)
              (if f.part = prodPart ∧ f.sub = prodSub
               then f.content ++ '\n' :: keyPat lcdKey ++ baseDensity ctx ++ ['\n']
               else f.content)
            rw [if_neg hm]
            exact (hsetD f hf).1
          · show SegValSettled densityV2Key (baseDensity ctx)
              (if f.part = prodPart ∧ f.sub = prodSub
               then f.content ++ '\n' :: keyPat lcdKey ++ baseDensity ctx ++ ['\n']
               else f.content)
            rw [if_neg hm]
            exact (hsetD f hf).2
      · -- the appended canonical product file now carries the pattern
        obtain ⟨f0, hfind, hf0c⟩ := Option.map_eq_some'.mp hget
        have hf0mem := List.mem_of_find?_eq_some hfind
        have hf0pred := @List.find?_some PFile
          (fun f => decide (f.part = prodPart ∧ f.sub = prodSub)) f0 _ hfind
        have hf0p : f0.part = prodPart ∧ f0.sub = prodSub := by
          simpa using hf0pred
        apply List.any_eq_true.mpr
        refine ⟨PFile.mk f0.part f0.sub
          (if f0.part = prodPart ∧ f0.sub = prodSub
           then f0.content ++ '\n' :: keyPat lcdKey ++ baseDensity ctx ++ ['\n']
           else f0.content),
          mapContents_mem.mpr ⟨f0, hf0mem, rfl⟩, ?_⟩
        show containsSub (keyPat lcdKey)
          (if f0.part = prodPart ∧ f0.sub = prodSub
           then f0.content ++ '\n' :: keyPat lcdKey ++ baseDensity ctx ++ ['\n']
           else f0.content) = true
        rw [if_pos hf0p]
        apply (containsSub_iff _ _).mpr
        exact ⟨f0.content ++ ['\n'], baseDensity ctx ++ ['\n'], by simp⟩

/-! ### Update-or-append: establishment and transport of settledness -/

theorem uoaW_id_of_search {c k v : Str}
    (h : reSearchKey k c = some (keyPat k ++ v)) :
    updateOrAppendPropW c k v = (c, false) := by
  simp [updateOrAppendPropW, h]

theorem uoaW_establishes {c k v : Str} (hk : '\n' ∉ k) (hv : '\n' ∉ v) :
    reSearchKey k (updateOrAppendPropW c k v).1 = some (keyPat k ++ v) := by
  have hx : '\n' ∉ keyPat k ++ v := by
    intro hmem
    rcases List.mem_append.mp hmem with h1 | h2
    · rcases List.mem_append.mp h1 with h3 | h4
      · exact hk h3
      · exact absurd (List.mem_singleton.mp h4) (by decide)
    · exact hv h2
  cases hsearch : reSearchKey k c with
  | none =>
    have happ : (updateOrAppendPropW c k v).1
        = c ++ '\n' :: (keyPat k ++ v) ++ ['\n'] := by
      unfold updateOrAppendPropW
      rw [hsearch]
    rw [happ]
    unfold reSearchKey
    rw [splitOnNl_append_line hx, List.findSome?_append]
    have hn1 : (splitOnNl c).findSome?
        (fun seg => (splitFirst (keyPat k) seg).map Prod.snd) = none := hsearch
    rw [hn1]
    rw [Option.none_or]
    rw [List.findSome?_cons]
    rw [splitFirst_head]
    rfl
  | some m =>
    by_cases hrepl : m ≠ keyPat k ++ v
    · have hsub : (updateOrAppendPropW c k v).1 = reSubKey k v c := by
        simp [updateOrAppendPropW, hsearch, hrepl]
      rw [hsub]
      exact reSearchKey_reSubKey v hk hv hsearch
    · have hm := not_not.mp hrepl
      have hid : (updateOrAppendPropW c k v).1 = c := by
        simp [updateOrAppendPropW, hsearch, hm]
      rw [hid, hsearch, hm]

theorem reSearchKey_of_keyStable {k c c' : Str} {f : Str → Str}
    (hsegs : splitOnNl c' = (splitOnNl c).map f)
    (hks : KeyStable f k (splitOnNl c)) :
    reSearchKey k c' = reSearchKey k c := by
  unfold reSearchKey
  rw [hsegs, List.findSome?_map]
  apply findSome?_congr
  intro seg hseg
  by_cases ho : Occurs (keyPat k) seg
  · show (splitFirst (keyPat k) (f seg)).map Prod.snd
      = (splitFirst (keyPat k) seg).map Prod.snd
    rw [(hks seg hseg).2 ho]
  · have h1 : splitFirst (keyPat k) seg = none := (splitFirst_none_iff _ _).mpr ho
    have h2 : splitFirst (keyPat k) (f seg) = none :=
      (splitFirst_none_iff _ _).mpr (fun hocc => ho (((hks seg hseg).1).mp hocc))
    show (splitFirst (keyPat k) (f seg)).map Prod.snd
      = (splitFirst (keyPat k) seg).map Prod.snd
    rw [h1, h2]

theorem reSearchKey_append {k c c' X m : Str}
    (hsegs : splitOnNl c' = splitOnNl c ++ [X, []])
    (h : reSearchKey k c = some m) : reSearchKey k c' = some m := by
  unfold reSearchKey at h ⊢
  rw [hsegs, List.findSome?_append, h]
  rfl

theorem compKeys_clean : ∀ x ∈ compKeys, CleanKey x := by decide

/-- All facts transported (and preserved) by one update-or-append on a
single well-formed file. -/
theorem uoaW_content_facts {c k v : Str} {C : FpComps} {base : Str}
    (hwfc : WFfile c) (hk : CleanKey k) (hv : CleanVal v) (hC : CleanComps C)
    (hnlcd : NonComp k lcdKey) (hnv2 : NonComp k densityV2Key)
    (hnfp : ∀ fk ∈ fpRuleKeys, ¬ k <:+ fk)
    (hnck : ∀ ck ∈ compKeys, ¬ k <:+ ck) :
    WFfile (updateOrAppendPropW c k v).1 ∧
    (∀ k' v', CleanKey k' → NonComp k k' →
      reSearchKey k' c = some (keyPat k' ++ v') →
      reSearchKey k' (updateOrAppendPropW c k v).1 = some (keyPat k' ++ v')) ∧
    (SegValSettled lcdKey base c →
      SegValSettled lcdKey base (updateOrAppendPropW c k v).1) ∧
    (SegValSettled densityV2Key base c →
      SegValSettled densityV2Key base (updateOrAppendPropW c k v).1) ∧
    (containsSub (keyPat lcdKey) c = true →
      containsSub (keyPat lcdKey) (updateOrAppendPropW c k v).1 = true) ∧
    ((∀ seg ∈ splitOnNl c, fpSegOut (rulesOfComps C) seg = seg) →
      ∀ seg ∈ splitOnNl (updateOrAppendPropW c k v).1,
        fpSegOut (rulesOfComps C) seg = seg) ∧
    (∀ ck ∈ compKeys, filePropVal ck (updateOrAppendPropW c k v).1
      = filePropVal ck c) := by
  have hknl : '\n' ∉ k := cleanKey_no_nl hk
  have hvnl : '\n' ∉ v := cleanVal_no_nl hv
  have hlcdc : CleanKey lcdKey := by decide
  have hv2c : CleanKey densityV2Key := by decide
  rcases uoaW_desc c k v hknl hvnl with hid | ⟨hkp, hrw, hsegs⟩ |
    ⟨hnp, happ, hsegs⟩
  · rw [hid]
    exact ⟨hwfc, fun k' v' _ _ h => h, fun h => h, fun h => h, fun h => h,
      fun h => h, fun ck _ => rfl⟩
  · have hwf' : WFfile (updateOrAppendPropW c k v).1 :=
      wffile_map hwfc hsegs
        (fun seg hseg => subKeySeg_wf hk hv (hwfc.2 seg hseg))
        (subKeySeg_nil k v)
    refine ⟨hwf', ?_, ?_, ?_, ?_, ?_, ?_⟩
    · intro k' v' hk' hnc h
      rw [reSearchKey_of_keyStable hsegs
        (keyStable_subKeySeg hk hv hk' hnc hwfc.2)]
      exact h
    · exact fun h => segValSettled_of_keyStable hsegs
        (keyStable_subKeySeg hk hv hlcdc hnlcd hwfc.2) h
    · exact fun h => segValSettled_of_keyStable hsegs
        (keyStable_subKeySeg hk hv hv2c hnv2 hwfc.2) h
    · intro h
      rw [contains_of_keyStable (keyPat_no_nl hlcdc) hsegs
        (keyStable_subKeySeg hk hv hlcdc hnlcd hwfc.2)]
      exact h
    · intro hset seg' hseg'
      rw [hsegs] at hseg'
      obtain ⟨seg, hseg, rfl⟩ := List.mem_map.mp hseg'
      exact fpSettledSeg_subKeySeg hC hk hv (hwfc.2 seg hseg) hnfp
        (hset seg hseg)
    · intro ck hck
      exact filePropVal_map_congr hwfc hwf' hsegs
        (fun seg hseg => segPropVal_subKeySeg hk (compKeys_clean ck hck)
          (hwfc.2 seg hseg) (hnck ck hck))
  · have hwf' : WFfile (updateOrAppendPropW c k v).1 :=
      wffile_append_line hwfc hk hv hsegs
    have hXeq : keyPat k ++ v = ([] : Str) ++ k ++ '=' :: v := by
      simp [keyPat]
    refine ⟨hwf', ?_, ?_, ?_, ?_, ?_, ?_⟩
    · intro k' v' hk' hnc h
      exact reSearchKey_append hsegs h
    · intro h
      apply segValSettled_append hsegs ?hX h
      case hX =>
        intro ho
        exfalso
        rw [hXeq] at ho
        have := (occurs_keyPat_seg hlcdc (Or.inl rfl) hk hv).mp ho
        exact hnlcd.2 this
    · intro h
      apply segValSettled_append hsegs ?hX2 h
      case hX2 =>
        intro ho
        exfalso
        rw [hXeq] at ho
        have := (occurs_keyPat_seg hv2c (Or.inl rfl) hk hv).mp ho
        exact hnv2.2 this
    · intro h
      rw [happ]
      apply (containsSub_iff _ _).mpr
      have h1 : Occurs (keyPat lcdKey) c := (containsSub_iff _ _).mp h
      obtain ⟨a, b, rfl⟩ := h1
      exact ⟨a, b ++ '\n' :: (keyPat k ++ v) ++ ['\n'], by simp⟩
    · intro hset seg' hseg'
      rw [hsegs] at hseg'
      rcases List.mem_append.mp hseg' with h1 | h2
      · exact hset seg' h1
      · rcases List.mem_cons.mp h2 with rfl | h3
        · rw [hXeq]
          apply fpSegOut_id_of_notRuleKey hC (Or.inl rfl) hk hv
          left
          intro hmem
          exact hnfp k hmem (List.suffix_refl k)
        · rw [List.mem_singleton.mp h3]
          exact fpSegOut_nil _ (rulesOfComps_pre_ne C)
    · intro ck hck
      apply filePropVal_append hwfc hwf' hsegs
      have hkne : k ≠ ck := fun he => hnck ck hck (he ▸ List.suffix_refl k)
      have := segPropVal_none_of_keyne (V := v) (compKeys_clean ck hck)
        (Or.inl rfl) hk (Or.inl hkne)
      rw [hXeq]
      exact this

/-- One update-or-append step on the canonical product file: the new key is
settled; all previously established facts survive. -/
theorem uoa_pass {t : Tree} {k v : Str} {C : FpComps} {base : Str}
    (hu : PathsUnique t) (hwf : TreeWF t) (hk : CleanKey k) (hv : CleanVal v)
    (hC : CleanComps C)
    (hnlcd : NonComp k lcdKey) (hnv2 : NonComp k densityV2Key)
    (hnfp : ∀ fk ∈ fpRuleKeys, ¬ k <:+ fk)
    (hnck : ∀ ck ∈ compKeys, ¬ k <:+ ck) :
    TreeWF (uoaTree t prodPart prodSub k v) ∧
    PathsUnique (uoaTree t prodPart prodSub k v) ∧
    ProdSettled k v (uoaTree t prodPart prodSub k v) ∧
    (∀ k' v', CleanKey k' → NonComp k k' → ProdSettled k' v' t →
      ProdSettled k' v' (uoaTree t prodPart prodSub k v)) ∧
    (DensitySettled base t →
      DensitySettled base (uoaTree t prodPart prodSub k v)) ∧
    (DensityFound t → DensityFound (uoaTree t prodPart prodSub k v)) ∧
    getFile (uoaTree t prodPart prodSub k v) vendPart vendSub
      = getFile t vendPart vendSub ∧
    (FpSettled (rulesOfComps C) t →
      FpSettled (rulesOfComps C) (uoaTree t prodPart prodSub k v)) ∧
    readFpComps (uoaTree t prodPart prodSub k v) = readFpComps t := by
  cases hget : getFile t prodPart prodSub with
  | none =>
    have hT : uoaTree t prodPart prodSub k v = t := by
      unfold uoaTree
      rw [hget]
    rw [hT]
    refine ⟨hwf, hu, ?_, fun k' v' _ _ h => h, fun h => h, fun h => h, rfl,
      fun h => h, rfl⟩
    intro c hc
    rw [hget] at hc
    exact absurd hc (by simp)
  | some c0 =>
    have hT := uoaTree_eq hu prodPart prodSub k v
    rw [hT]
    have hfacts := fun (f : PFile) (hf : f ∈ t) =>
      @uoaW_content_facts f.content k v C base (hwf f hf)
        hk hv hC hnlcd hnv2 hnfp hnck
    refine ⟨?_, mapContents_paths _ hu, ?_, ?_, ?_, ?_, ?_, ?_, ?_⟩
    · -- TreeWF
      intro f' hf'
      obtain ⟨f, hf, rfl⟩ := mapContents_mem.mp hf'
      show WFfile (if f.part = prodPart ∧ f.sub = prodSub
        then (updateOrAppendPropW f.content k v).1 else f.content)
      by_cases hm : f.part = prodPart ∧ f.sub = prodSub
      · rw [if_pos hm]
        exact (hfacts f hf).1
      · rw [if_neg hm]
        exact hwf f hf
    · -- the new key is settled
      intro c' hc'
      rw [mapContents_getFile] at hc'
      obtain ⟨f0, hfind, hΦ⟩ := Option.map_eq_some'.mp hc'
      have hf0mem := List.mem_of_find?_eq_some hfind
      have hf0pred := @List.find?_some PFile
        (fun f => decide (f.part = prodPart ∧ f.sub = prodSub)) f0 _ hfind
      have hf0p : f0.part = prodPart ∧ f0.sub = prodSub := by simpa using hf0pred
      rw [← hΦ]
      show reSearchKey k (if f0.part = prodPart ∧ f0.sub = prodSub
        then (updateOrAppendPropW f0.content k v).1 else f0.content)
        = some (keyPat k ++ v)
      rw [if_pos hf0p]
      exact uoaW_establishes (cleanKey_no_nl hk) (cleanVal_no_nl hv)
    · -- previously settled keys stay settled
      intro k' v' hk' hnc h c' hc'
      rw [mapContents_getFile] at hc'
      obtain ⟨f0, hfind, hΦ⟩ := Option.map_eq_some'.mp hc'
      have hf0mem := List.mem_of_find?_eq_some hfind
      have hf0pred := @List.find?_some PFile
        (fun f => decide (f.part = prodPart ∧ f.sub = prodSub)) f0 _ hfind
      have hf0p : f0.part = prodPart ∧ f0.sub = prodSub := by simpa using hf0pred
      have hold : reSearchKey k' f0.content = some (keyPat k' ++ v') := by
        apply h
        rw [getFile_eq_find, hfind]
        rfl
      rw [← hΦ]
      show reSearchKey k' (if f0.part = prodPart ∧ f0.sub = prodSub
        then (updateOrAppendPropW f0.content k v).1 else f0.content)
        = some (keyPat k' ++ v')
      rw [if_pos hf0p]
      exact (hfacts f0 hf0mem).2.1 k' v' hk' hnc hold
    · -- density settledness survives
      intro h f' hf'
      obtain ⟨f, hf, rfl⟩ := mapContents_mem.mp hf'
      show SegValSettled lcdKey base (if f.part = prodPart ∧ f.sub = prodSub
          then (updateOrAppendPropW f.content k v).1 else f.content) ∧
        SegValSettled densityV2Key base
          (if f.part = prodPart ∧ f.sub = prodSub
           then (updateOrAppendPropW f.content k v).1 else f.content)
      by_cases hm : f.part = prodPart ∧ f.sub = prodSub
      · rw [if_pos hm]
        exact ⟨(hfacts f hf).2.2.1 (h f hf).1, (hfacts f hf).2.2.2.1 (h f hf).2⟩
      · rw [if_neg hm]
        exact h f hf
    · -- the density found-flag survives
      intro h
      rcases h with hnone | hany
      · rw [hget] at hnone
        exact absurd hnone (by simp)
      · right
        obtain ⟨f0, hf0, hf0c⟩ := List.any_eq_true.mp hany
        apply List.any_eq_true.mpr
        refine ⟨PFile.mk f0.part f0.sub
          (if f0.part = prodPart ∧ f0.sub = prodSub
           then (updateOrAppendPropW f0.content k v).1 else f0.content),
          mapContents_mem.mpr ⟨f0, hf0, rfl⟩, ?_⟩
        show containsSub (keyPat lcdKey)
          (if f0.part = prodPart ∧ f0.sub = prodSub
           then (updateOrAppendPropW f0.content k v).1 else f0.content) = true
        by_cases hm : f0.part = prodPart ∧ f0.sub = prodSub
        · rw [if_pos hm]
          exact (hfacts f0 hf0).2.2.2.2.1 (by simpa using hf0c)
        · rw [if_neg hm]
          simpa using hf0c
    · -- the vendor file is untouched
      apply getFile_mapContents_eq
      intro f _ hfp _
      rw [if_neg]
      intro hm
      rw [hfp] at hm
      exact absurd hm.1 (by decide)
    · -- fingerprint settledness survives
      intro h f' hf'
      obtain ⟨f, hf, rfl⟩ := mapContents_mem.mp hf'
      show ∀ seg ∈ splitOnNl (if f.part = prodPart ∧ f.sub = prodSub
          then (updateOrAppendPropW f.content k v).1 else f.content),
        fpSegOut (rulesOfComps C) seg = seg
      by_cases hm : f.part = prodPart ∧ f.sub = prodSub
      · rw [if_pos hm]
        exact (hfacts f hf).2.2.2.2.2.1 (h f hf)
      · rw [if_neg hm]
        exact h f hf
    · -- the fingerprint components are unchanged
      apply readFpComps_mapContents
      intro f hf ck hck
      show filePropVal ck (if f.part = prodPart ∧ f.sub = prodSub
          then (updateOrAppendPropW f.content k v).1 else f.content)
        = filePropVal ck f.content
      by_cases hm : f.part = prodPart ∧ f.sub = prodSub
      · rw [if_pos hm]
        exact (hfacts f hf).2.2.2.2.2.2 ck hck
      · rw [if_neg hm]

/-- Per-file facts established and preserved by the millet cgroup fix. -/
theorem milletFix_facts {c : Str} {base : Str} (hwfc : WFfile c) :
    WFfile (milletFix c) ∧
    (containsSub milletNeedle (milletFix c) = false ∨
     containsSub hashNeedle (milletFix c) = true) ∧
    (SegValSettled lcdKey base c → SegValSettled lcdKey base (milletFix c)) ∧
    (SegValSettled densityV2Key base c →
      SegValSettled densityV2Key base (milletFix c)) ∧
    (containsSub (keyPat lcdKey) c = true →
      containsSub (keyPat lcdKey) (milletFix c) = true) := by
  unfold milletFix
  by_cases hg : (containsSub milletNeedle c && !containsSub hashNeedle c) = true
  · rw [if_pos hg]
    have hgb := Bool.and_eq_true_iff.mp hg
    have hocc : Occurs milletNeedle c := (containsSub_iff _ _).mp hgb.1
    have hnh : containsSub hashNeedle c = false := by
      have := hgb.2
      cases hh : containsSub hashNeedle c with
      | false => rfl
      | true => rw [hh] at this; simp at this
    have hnhc : ¬ Occurs hashNeedle c := (containsSub_eq_false_iff _ _).mp hnh
    have hsegnh : ∀ seg ∈ splitOnNl c, ¬ Occurs hashNeedle seg := by
      intro seg hseg hcon
      exact hnhc (occurs_trans_sub hcon (splitOnNl_seg_occurs hseg))
    have hsegs : splitOnNl (replaceAllSub milletNeedle ('#' :: milletNeedle) c)
        = (splitOnNl c).map (replaceAllSub milletNeedle ('#' :: milletNeedle)) :=
      splitOnNl_replaceAllSub (by decide) (by decide) (by decide) c
    have hwfsegs : ∀ seg ∈ splitOnNl c, WFseg seg := hwfc.2
    refine ⟨?_, Or.inr ?_, ?_, ?_, ?_⟩
    · apply wffile_map hwfc hsegs ?hseg (replaceAllSub_nil _ _)
      case hseg =>
        intro seg hseg
        rcases milletSeg_cases (hwfsegs seg hseg) (hsegnh seg hseg) with
          ⟨-, hid⟩ | ⟨V, hs, hV, hres⟩ | ⟨hne, hnl, -⟩
        · rw [hid]
          exact hwfsegs seg hseg
        · rw [hres]
          have := wfseg_keyline (Or.inr rfl) (show CleanKey milletNeedle by decide) hV
          simpa using this
        · apply wfseg_of_no_eq
          · intro hm
            rcases mem_replaceAllSub hm with h1 | h2
            · exact hne h1
            · exact absurd h2 (by decide)
          · intro hm
            rcases mem_replaceAllSub hm with h1 | h2
            · exact hnl h1
            · exact absurd h2 (by decide)
    · apply (containsSub_iff _ _).mpr
      apply occurs_trans_sub (show Occurs hashNeedle ('#' :: milletNeedle) from
        ⟨[], S (".sys.millet.cgroup1"), by decide⟩)
      exact occurs_replaceAllSub_of_occurs (by decide) hocc
    · exact fun h => segValSettled_of_keyStable hsegs
        (keyStable_millet (by decide) (by decide) hwfsegs hsegnh) h
    · exact fun h => segValSettled_of_keyStable hsegs
        (keyStable_millet (by decide) (by decide) hwfsegs hsegnh) h
    · intro h
      rw [contains_of_keyStable (by decide) hsegs
        (keyStable_millet (by decide) (by decide) hwfsegs hsegnh)]
      exact h
  · rw [if_neg hg]
    refine ⟨hwfc, ?_, fun h => h, fun h => h, fun h => h⟩
    rcases Bool.and_eq_false_iff.mp (Bool.eq_false_iff.mpr hg) with h1 | h2
    · exact Or.inl h1
    · right
      cases hh : containsSub hashNeedle c with
      | true => rfl
      | false => rw [hh] at h2; simp at h2

instance (C : FpComps) : Decidable (CleanComps C) := by
  unfold CleanComps
  infer_instance

/-- The millet vendor step of the specific-fixes pass. -/
theorem millet_step {t : Tree} {base : Str} (hu : PathsUnique t)
    (hwf : TreeWF t) :
    TreeWF (match getFile t vendPart vendSub with
      | none => t
      | some c => setFile t vendPart vendSub (milletFix c)) ∧
    PathsUnique (match getFile t vendPart vendSub with
      | none => t
      | some c => setFile t vendPart vendSub (milletFix c)) ∧
    MilletOk (match getFile t vendPart vendSub with
      | none => t
      | some c => setFile t vendPart vendSub (milletFix c)) ∧
    (∀ k v', ProdSettled k v' t → ProdSettled k v'
      (match getFile t vendPart vendSub with
       | none => t
       | some c => setFile t vendPart vendSub (milletFix c))) ∧
    (DensitySettled base t → DensitySettled base
      (match getFile t vendPart vendSub with
       | none => t
       | some c => setFile t vendPart vendSub (milletFix c))) ∧
    (DensityFound t → DensityFound
      (match getFile t vendPart vendSub with
       | none => t
       | some c => setFile t vendPart vendSub (milletFix c))) := by
  have hstep := setStep_eq hu vendPart vendSub milletFix
  rw [hstep]
  have hprodeq : getFile (mapContents t
      (fun f => if f.part = vendPart ∧ f.sub = vendSub
        then milletFix f.content else f.content)) prodPart prodSub
      = getFile t prodPart prodSub := by
    apply getFile_mapContents_eq
    intro f _ hfp _
    rw [if_neg]
    intro hm
    rw [hfp] at hm
    exact absurd hm.1 (by decide)
  refine ⟨?_, mapContents_paths _ hu, ?_, ?_, ?_, ?_⟩
  · intro f' hf'
    obtain ⟨f, hf, rfl⟩ := mapContents_mem.mp hf'
    show WFfile (if f.part = vendPart ∧ f.sub = vendSub
      then milletFix f.content else f.content)
    by_cases hm : f.part = vendPart ∧ f.sub = vendSub
    · rw [if_pos hm]
      exact (@milletFix_facts f.content base (hwf f hf)).1
    · rw [if_neg hm]
      exact hwf f hf
  · intro c'' hc''
    rw [mapContents_getFile] at hc''
    obtain ⟨f0, hfind, hΦ⟩ := Option.map_eq_some'.mp hc''
    have hf0mem := List.mem_of_find?_eq_some hfind
    have hf0pred := @List.find?_some PFile
      (fun f => decide (f.part = vendPart ∧ f.sub = vendSub)) f0 _ hfind
    have hf0p : f0.part = vendPart ∧ f0.sub = vendSub := by simpa using hf0pred
    rw [← hΦ]
    show containsSub milletNeedle (if f0.part = vendPart ∧ f0.sub = vendSub
        then milletFix f0.content else f0.content) = false ∨
      containsSub hashNeedle (if f0.part = vendPart ∧ f0.sub = vendSub
        then milletFix f0.content else f0.content) = true
    rw [if_pos hf0p]
    exact (@milletFix_facts f0.content base (hwf f0 hf0mem)).2.1
  · intro k v' h c hc
    rw [hprodeq] at hc
    exact h c hc
  · intro h f' hf'
    obtain ⟨f, hf, rfl⟩ := mapContents_mem.mp hf'
    show SegValSettled lcdKey base (if f.part = vendPart ∧ f.sub = vendSub
        then milletFix f.content else f.content) ∧
      SegValSettled densityV2Key base
        (if f.part = vendPart ∧ f.sub = vendSub
         then milletFix f.content else f.content)
    by_cases hm : f.part = vendPart ∧ f.sub = vendSub
    · rw [if_pos hm]
      exact ⟨(milletFix_facts (hwf f hf)).2.2.1 (h f hf).1,
        (milletFix_facts (hwf f hf)).2.2.2.1 (h f hf).2⟩
    · rw [if_neg hm]
      exact h f hf
  · intro h
    rcases h with hnone | hany
    · exact Or.inl (by rw [hprodeq]; exact hnone)
    · right
      obtain ⟨f0, hf0, hf0c⟩ := List.any_eq_true.mp hany
      apply List.any_eq_true.mpr
      refine ⟨PFile.mk f0.part f0.sub
        (if f0.part = vendPart ∧ f0.sub = vendSub
         then milletFix f0.content else f0.content),
        mapContents_mem.mpr ⟨f0, hf0, rfl⟩, ?_⟩
      show containsSub (keyPat lcdKey)
        (if f0.part = vendPart ∧ f0.sub = vendSub
         then milletFix f0.content else f0.content) = true
      by_cases hm : f0.part = vendPart ∧ f0.sub = vendSub
      · rw [if_pos hm]
        exact (@milletFix_facts f0.content base (hwf f0 hf0)).2.2.2.2
          (by simpa using hf0c)
      · rw [if_neg hm]
        simpa using hf0c

/-- The specific-fixes pass establishes its four key/value pairs and the
millet invariant, preserving well-formedness and the density facts. -/
theorem fix_pass {ctx : Ctx} {t : Tree} {base : Str}
    (hu : PathsUnique t) (hwf : TreeWF t) (hctx : CtxHyg ctx) :
    TreeWF (applySpecificFixes ctx t) ∧
    PathsUnique (applySpecificFixes ctx t) ∧
    (∀ kv ∈ fixPairs ctx, ProdSettled kv.1 kv.2 (applySpecificFixes ctx t)) ∧
    MilletOk (applySpecificFixes ctx t) ∧
    (DensitySettled base t → DensitySettled base (applySpecificFixes ctx t)) ∧
    (DensityFound t → DensityFound (applySpecificFixes ctx t)) := by
  have hC0 : CleanComps (FpComps.mk [] [] [] [] [] [] [] []) := by decide
  have u1 := @uoa_pass t (S ("ro.miui.cust_erofs")) (S ("0"))
    (FpComps.mk [] [] [] [] [] [] [] []) base hu hwf
    (by decide) (by decide) hC0 (by decide) (by decide) (by decide) (by decide)
  have u2 := @uoa_pass
    (uoaTree t prodPart prodSub (S ("ro.miui.cust_erofs")) (S ("0")))
    (S ("ro.millet.netlink")) (milletVer ctx)
    (FpComps.mk [] [] [] [] [] [] [] []) base u1.2.1 u1.1
    (by decide) hctx.2 hC0 (by decide) (by decide) (by decide) (by decide)
  have u3 := @uoa_pass
    (uoaTree (uoaTree t prodPart prodSub (S ("ro.miui.cust_erofs")) (S ("0")))
      prodPart prodSub (S ("ro.millet.netlink")) (milletVer ctx))
    (S ("persist.sys.background_blur_supported")) (S ("true"))
    (FpComps.mk [] [] [] [] [] [] [] []) base u2.2.1 u2.1
    (by decide) (by decide) hC0 (by decide) (by decide) (by decide) (by decide)
  have u4 := @uoa_pass
    (uoaTree (uoaTree (uoaTree t prodPart prodSub
        (S ("ro.miui.cust_erofs")) (S ("0")))
      prodPart prodSub (S ("ro.millet.netlink")) (milletVer ctx))
      prodPart prodSub (S ("persist.sys.background_blur_supported"))
      (S ("true")))
    (S ("persist.sys.background_blur_version")) (S ("2"))
    (FpComps.mk [] [] [] [] [] [] [] []) base u3.2.1 u3.1
    (by decide) (by decide) hC0 (by decide) (by decide) (by decide) (by decide)
  have s14 := u4.2.2.2.1 _ _ (by decide) (by decide)
    (u3.2.2.2.1 _ _ (by decide) (by decide)
      (u2.2.2.2.1 _ _ (by decide) (by decide) u1.2.2.1))
  have s24 := u4.2.2.2.1 _ (milletVer ctx) (by decide) (by decide)
    (u3.2.2.2.1 _ (milletVer ctx) (by decide) (by decide) u2.2.2.1)
  have s34 := u4.2.2.2.1 _ _ (by decide) (by decide) u3.2.2.1
  have s44 := u4.2.2.1
  have m := @millet_step
    (uoaTree (uoaTree (uoaTree (uoaTree t prodPart prodSub
        (S ("ro.miui.cust_erofs")) (S ("0")))
      prodPart prodSub (S ("ro.millet.netlink")) (milletVer ctx))
      prodPart prodSub (S ("persist.sys.background_blur_supported"))
      (S ("true")))
      prodPart prodSub (S ("persist.sys.background_blur_version")) (S ("2")))
    base u4.2.1 u4.1
  refine ⟨m.1, m.2.1, ?_, m.2.2.1, ?_, ?_⟩
  · intro kv hkv
    simp only [fixPairs, List.mem_cons, List.not_mem_nil, or_false] at hkv
    rcases hkv with rfl | rfl | rfl | rfl
    · exact m.2.2.2.1 _ _ s14
    · exact m.2.2.2.1 _ _ s24
    · exact m.2.2.2.1 _ _ s34
    · exact m.2.2.2.1 _ _ s44
  · intro h
    exact m.2.2.2.2.1 (u4.2.2.2.2.1 (u3.2.2.2.2.1 (u2.2.2.2.2.1
      (u1.2.2.2.2.1 h))))
  · intro h
    exact m.2.2.2.2.2 (u4.2.2.2.2.2.1 (u3.2.2.2.2.2.1 (u2.2.2.2.2.2.1
      (u1.2.2.2.2.2.1 h))))

theorem strip_append_ws {V : Str} {w : Char} (hw : isSpaceChar w = true) :
    strip (V ++ [w]) = strip V := by
  unfold strip
  rw [List.dropWhile_append]
  cases hd : V.dropWhile isSpaceChar with
  | nil =>
    simp [hd, hw]
  | cons d ds =>
    simp only [hd, List.isEmpty_cons, Bool.false_eq_true, if_false]
    rw [List.reverse_append]
    show (List.dropWhile isSpaceChar ([w] ++ (d :: ds).reverse)).reverse = _
    rw [List.dropWhile_append]
    simp [hw]

theorem cleanVal_strip {v : Str} (h : CleanVal v) : CleanVal (strip v) := by
  constructor
  · intro ch hch
    exact h.1 ch (mem_strip hch)
  · cases hc : containsSub milletNeedle (strip v) with
    | false => rfl
    | true =>
      have ho := occurs_strip ((containsSub_iff _ _).mp hc)
      exact absurd ((containsSub_iff _ _).mpr ho) (by simp [h.2])

/-- A value read off a well-formed file by the component search is clean. -/
theorem cleanVal_filePropVal {key c v : Str} (hwf : WFfile c)
    (h : filePropVal key c = some v) : CleanVal v := by
  obtain ⟨L, hL, hnl, _, hrl⟩ := wffile_dest hwf
  unfold filePropVal at h
  rw [hrl, List.findSome?_map] at h
  obtain ⟨seg, hseg, hF⟩ := List.exists_of_findSome?_eq_some h
  have hwseg : WFseg seg := hwf.2 seg (hL ▸ List.mem_append.mpr (Or.inl hseg))
  simp only [Function.comp] at hF
  by_cases hpre : (keyPat key).isPrefixOf (strip (seg ++ ['\n'])) = true
  · rw [if_pos hpre] at hF
    have hv : v = lineVal (seg ++ ['\n']) := (Option.some.inj hF).symm
    unfold WFseg at hwseg
    cases hsp : splitFirst ['='] seg with
    | none =>
      have hocc : ¬ Occurs ['='] seg := (splitFirst_none_iff _ _).mp hsp
      have hmem : '=' ∉ seg ++ ['\n'] := by
        intro hm
        rcases List.mem_append.mp hm with hm1 | hm2
        · exact hocc (occurs_singleton.mpr hm1)
        · exact absurd (List.mem_singleton.mp hm2) (by decide)
      rw [hv]
      unfold lineVal
      rw [afterFirstEq_no_eq hmem]
      decide
    | some pr =>
      obtain ⟨p, rest⟩ := pr
      rw [hsp] at hwseg
      obtain ⟨hdec, hpref⟩ := splitFirst_eq_append hsp
      have hne : '=' ∉ p := splitFirst_char_not_mem hsp
      obtain ⟨V, rfl⟩ : ∃ V, rest = '=' :: V := by
        cases rest with
        | nil => exact absurd hpref (by decide)
        | cons r0 rt =>
          obtain ⟨u, hu⟩ := List.isPrefixOf_iff_prefix.mp hpref
          have hr0 : r0 = '=' := (List.cons.inj hu).1.symm
          exact ⟨rt, by rw [hr0]⟩
      rw [hv]
      unfold lineVal
      have hsegnl : seg ++ ['\n'] = p ++ '=' :: (V ++ ['\n']) := by
        rw [hdec]; simp
      rw [hsegnl, afterFirstEq_keyline hne, strip_append_ws (by decide)]
      exact cleanVal_strip hwseg.1
  · rw [if_neg hpre] at hF
    exact absurd hF (by simp)

theorem cleanVal_getCurrentProp {t : Tree} {key dflt : Str} (hwf : TreeWF t)
    (hd : CleanVal dflt) : CleanVal (getCurrentProp t key dflt) := by
  unfold getCurrentProp
  cases hfs : fpParts.findSome? (fun p =>
      (partFiles t p).findSome? (fun f => filePropVal key f.content)) with
  | none => exact hd
  | some v =>
    obtain ⟨p, _, hpv⟩ := List.exists_of_findSome?_eq_some hfs
    obtain ⟨f, hf, hfv⟩ := List.exists_of_findSome?_eq_some hpv
    exact cleanVal_filePropVal (hwf f (List.mem_of_mem_filter hf)) hfv

/-- The components read off a well-formed tree are clean. -/
theorem cleanComps_readFpComps {t : Tree} (hwf : TreeWF t) :
    CleanComps (readFpComps t) := by
  refine ⟨?_, ?_, ?_, ?_, ?_, ?_, ?_, ?_⟩ <;>
    exact cleanVal_getCurrentProp hwf (by decide)

/-- The fingerprint pass settles its own rules and preserves every earlier
invariant whose key is not comparable with a fingerprint-rule key. -/
theorem fp_pass {t : Tree} {base : Str}
    (hu : PathsUnique t) (hwf : TreeWF t) :
    TreeWF (regenerateFingerprint t) ∧
    PathsUnique (regenerateFingerprint t) ∧
    FpSettled (rulesOfComps (readFpComps (regenerateFingerprint t)))
      (regenerateFingerprint t) ∧
    readFpComps (regenerateFingerprint t) = readFpComps t ∧
    (∀ k v, CleanKey k → (∀ fk ∈ fpRuleKeys, ¬ k <:+ fk) →
      ProdSettled k v t → ProdSettled k v (regenerateFingerprint t)) ∧
    (DensitySettled base t → DensitySettled base (regenerateFingerprint t)) ∧
    (DensityFound t → DensityFound (regenerateFingerprint t)) ∧
    (MilletOk t → MilletOk (regenerateFingerprint t)) := by
  have hC : CleanComps (readFpComps t) := cleanComps_readFpComps hwf
  have hre : regenerateFingerprint t
      = mapContents t
        (fun f => (fpFileW (rulesOfComps (readFpComps t)) f.content).1) := rfl
  have hwfsegs : ∀ f ∈ t, ∀ seg ∈ splitOnNl f.content, WFseg seg :=
    fun f hf => (hwf f hf).2
  have hsegs : ∀ f ∈ t,
      splitOnNl ((fpFileW (rulesOfComps (readFpComps t)) f.content).1)
        = (splitOnNl f.content).map (fpSegOut (rulesOfComps (readFpComps t))) :=
    fun f hf => fpFileW_segs hC (hwf f hf)
  have hwfn : ∀ f ∈ t,
      WFfile ((fpFileW (rulesOfComps (readFpComps t)) f.content).1) :=
    fun f hf => wffile_map (hwf f hf) (hsegs f hf)
      (fun seg hseg => fpSegOut_wf hC (hwfsegs f hf seg hseg))
      (fpSegOut_nil _ (rulesOfComps_pre_ne _))
  have hnotfp : ∀ ck ∈ compKeys, ck ∉ fpRuleKeys := by decide
  have hcomps : readFpComps (mapContents t
      (fun f => (fpFileW (rulesOfComps (readFpComps t)) f.content).1))
      = readFpComps t :=
    readFpComps_mapContents (fun f hf ck hck =>
      filePropVal_map_congr (hwf f hf) (hwfn f hf) (hsegs f hf)
        (fun seg hseg => segPropVal_fpSegOut hC (hwfsegs f hf seg hseg)
          (compKeys_clean ck hck) (hnotfp ck hck)))
  rw [hre]
  refine ⟨?_, mapContents_paths _ hu, ?_, hcomps, ?_, ?_, ?_, ?_⟩
  · intro f' hf'
    obtain ⟨f, hf, rfl⟩ := mapContents_mem.mp hf'
    exact hwfn f hf
  · rw [hcomps]
    intro f' hf' seg' hseg'
    obtain ⟨f, hf, rfl⟩ := mapContents_mem.mp hf'
    have hseg2 : seg' ∈ (splitOnNl f.content).map
        (fpSegOut (rulesOfComps (readFpComps t))) := by
      rw [← hsegs f hf]
      exact hseg'
    obtain ⟨seg, hseg, rfl⟩ := List.mem_map.mp hseg2
    exact fpSegOut_settles hC (hwfsegs f hf seg hseg)
  · intro k v hk hnfp hps c' hc'
    rw [mapContents_getFile] at hc'
    obtain ⟨f0, hfind, hΦ⟩ := Option.map_eq_some'.mp hc'
    have hf0 := List.mem_of_find?_eq_some hfind
    have hold : getFile t prodPart prodSub = some f0.content := by
      unfold getFile
      rw [hfind]
      rfl
    rw [← hΦ, reSearchKey_of_keyStable (hsegs f0 hf0)
      (keyStable_fpSegOut hC hk hnfp (hwfsegs f0 hf0))]
    exact hps _ hold
  · intro h f' hf'
    obtain ⟨f, hf, rfl⟩ := mapContents_mem.mp hf'
    refine ⟨?_, ?_⟩
    · exact segValSettled_of_keyStable (hsegs f hf)
        (keyStable_fpSegOut hC (by decide) (by decide) (hwfsegs f hf))
        (h f hf).1
    · exact segValSettled_of_keyStable (hsegs f hf)
        (keyStable_fpSegOut hC (by decide) (by decide) (hwfsegs f hf))
        (h f hf).2
  · intro h
    rcases h with hnone | hany
    · left
      rw [mapContents_getFile]
      unfold getFile at hnone
      rw [Option.map_eq_none'.mp hnone]
      rfl
    · right
      obtain ⟨f0, hf0, hc⟩ := List.any_eq_true.mp hany
      have hc' : containsSub (keyPat lcdKey) f0.content = true := by
        simpa using hc
      obtain ⟨seg, hseg, ho⟩ := (containsSub_segs_iff
        (keyPat_no_nl (by decide))).mp hc'
      apply List.any_eq_true.mpr
      refine ⟨PFile.mk f0.part f0.sub
        ((fpFileW (rulesOfComps (readFpComps t)) f0.content).1),
        mapContents_mem.mpr ⟨f0, hf0, rfl⟩, ?_⟩
      show containsSub (keyPat lcdKey)
        ((fpFileW (rulesOfComps (readFpComps t)) f0.content).1) = true
      apply (containsSub_segs_iff (keyPat_no_nl (by decide))).mpr
      refine ⟨fpSegOut (rulesOfComps (readFpComps t)) seg, ?_, ?_⟩
      · rw [hsegs f0 hf0]
        exact List.mem_map_of_mem _ hseg
      · exact (fpSegOut_keyOcc_iff hC (hwfsegs f0 hf0 seg hseg)
          (by decide) (by decide)).mpr ho
  · intro h c'' hc''
    rw [mapContents_getFile] at hc''
    obtain ⟨f0, hfind, hΦ⟩ := Option.map_eq_some'.mp hc''
    have hf0 := List.mem_of_find?_eq_some hfind
    have hold : getFile t vendPart vendSub = some f0.content := by
      unfold getFile
      rw [hfind]
      rfl
    rcases h _ hold with hfree | hhash
    · left
      rw [← hΦ]
      apply Bool.eq_false_iff.mpr
      intro hx
      obtain ⟨seg', hseg', ho'⟩ := (containsSub_segs_iff (by decide)).mp hx
      have hseg2 : seg' ∈ (splitOnNl f0.content).map
          (fpSegOut (rulesOfComps (readFpComps t))) := by
        rw [← hsegs f0 hf0]
        exact hseg'
      obtain ⟨seg, hseg, rfl⟩ := List.mem_map.mp hseg2
      refine fpSegOut_no_needle hC (hwfsegs f0 hf0 seg hseg) ?_ ho'
      intro ho
      exact absurd ((containsSub_segs_iff (by decide)).mpr ⟨seg, hseg, ho⟩)
        (by simp [hfree])
    · right
      rw [← hΦ]
      apply (containsSub_segs_iff (by decide)).mpr
      obtain ⟨seg, hseg, ho⟩ := (containsSub_segs_iff (by decide)).mp hhash
      refine ⟨fpSegOut (rulesOfComps (readFpComps t)) seg, ?_, ?_⟩
      · rw [hsegs f0 hf0]
        exact List.mem_map_of_mem _ hseg
      · exact fpSegOut_hash_stable hC (hwfsegs f0 hf0 seg hseg) ho

/-! ### Identity of each pass on a settled tree -/

theorem setFile_same {t : Tree} (hu : PathsUnique t) {p s c : Str}
    (hget : getFile t p s = some c) : setFile t p s c = t := by
  unfold setFile
  apply map_id_of_forall
  intro f hf
  by_cases hm : f.part = p ∧ f.sub = s
  · rw [if_pos hm, ← pathsUnique_content hu hget f hf hm.1 hm.2]
  · rw [if_neg hm]

theorem foldl_id {α β : Type} (f : α → β → α) (a : α) :
    ∀ l : List β, (∀ x ∈ l, f a x = a) → l.foldl f a = a := by
  intro l
  induction l with
  | nil => intro _; rfl
  | cons x xs ih =>
    intro h
    rw [List.foldl_cons, h x (List.mem_cons_self x xs)]
    exact ih (fun y hy => h y (List.mem_cons_of_mem x hy))

theorem milletFix_id {c : Str}
    (h : containsSub milletNeedle c = false ∨ containsSub hashNeedle c = true) :
    milletFix c = c := by
  have hb : (containsSub milletNeedle c && !(containsSub hashNeedle c))
      = false := by
    rcases h with h | h <;> simp [h]
  simp [milletFix, hb]

theorem densityFileNew_id {base c : Str}
    (h1 : SegValSettled lcdKey base c) (h2 : SegValSettled densityV2Key base c) :
    densityFileNew base c = c := by
  have hsub : ∀ k, SegValSettled k base c → reSubKey k base c = c := by
    intro k h
    unfold reSubKey
    rw [map_id_of_forall, joinNl_splitOnNl]
    intro seg hseg
    by_cases ho : containsSub (keyPat k) seg = true
    · exact h seg hseg ((containsSub_iff _ _).mp ho)
    · exact subKeySeg_id_of_no_occ
        (fun hx => ho ((containsSub_iff _ _).mpr hx))
  unfold densityFileNew
  rw [hsub _ h1, ite_self]
  show (if containsSub (keyPat densityV2Key) c = true
    then reSubKey densityV2Key base c else c) = c
  rw [hsub _ h2, ite_self]

theorem updateDensity_id {ctx : Ctx} {T : Tree}
    (hds : DensitySettled (baseDensity ctx) T) (hdf : DensityFound T) :
    updateDensity ctx T = T := by
  have hmap : T.map (fun f =>
      PFile.mk f.part f.sub (densityFileNew (baseDensity ctx) f.content))
      = T := by
    show mapContents T (fun f => densityFileNew (baseDensity ctx) f.content) = T
    rw [mapContents_congr (fun f hf =>
      densityFileNew_id (hds f hf).1 (hds f hf).2), mapContents_id]
  simp only [updateDensity]
  by_cases hb : T.any (fun f => containsSub (keyPat lcdKey) f.content) = true
  · rw [hmap, if_pos hb]
  · rw [hmap, if_neg hb]
    rcases hdf with hnone | hany
    · rw [hnone]
    · exact absurd hany hb

theorem applySpecificFixes_id {ctx : Ctx} {T : Tree} (hu : PathsUnique T)
    (hfix : ∀ kv ∈ fixPairs ctx, ProdSettled kv.1 kv.2 T) (hm2 : MilletOk T) :
    applySpecificFixes ctx T = T := by
  have huoa : ∀ k v, ProdSettled k v T → uoaTree T prodPart prodSub k v = T := by
    intro k v h
    unfold uoaTree
    cases hget : getFile T prodPart prodSub with
    | none => rfl
    | some c =>
      show setFile T prodPart prodSub (updateOrAppendPropW c k v).1 = T
      rw [uoaW_id_of_search (h c hget)]
      exact setFile_same hu hget
  have h1 := huoa _ _ (hfix (S ("ro.miui.cust_erofs"), S ("0"))
    (by simp [fixPairs]))
  have h2 := huoa _ _ (hfix (S ("ro.millet.netlink"), milletVer ctx)
    (by simp [fixPairs]))
  have h3 := huoa _ _ (hfix (S ("persist.sys.background_blur_supported"),
    S ("true")) (by simp [fixPairs]))
  have h4 := huoa _ _ (hfix (S ("persist.sys.background_blur_version"),
    S ("2")) (by simp [fixPairs]))
  simp only [applySpecificFixes]
  rw [h1, h2, h3, h4]
  cases hget : getFile T vendPart vendSub with
  | none => rfl
  | some c =>
    show setFile T vendPart vendSub (milletFix c) = T
    rw [milletFix_id (hm2 c hget)]
    exact setFile_same hu hget

theorem regenerateFingerprint_id {T : Tree} (hwf : TreeWF T)
    (hfp : FpSettled (rulesOfComps (readFpComps T)) T) :
    regenerateFingerprint T = T := by
  show mapContents T
    (fun f => (fpFileW (rulesOfComps (readFpComps T)) f.content).1) = T
  rw [mapContents_congr (fun f hf => fpFileW_id (hwf f hf) (hfp f hf)),
    mapContents_id]

/-- The scheduler table actually in force: empty unless the file loaded. -/
def cfgOf : Load SCfg → SCfg
  | Load.ok cfg => cfg
  | _ => []

theorem lookupA_mem {α : Type} {l : List (Str × α)} {k : Str} {v : α}
    (h : lookupA l k = some v) : ∃ e ∈ l, e.2 = v := by
  unfold lookupA at h
  obtain ⟨e, he, hv⟩ := Option.map_eq_some'.mp h
  exact ⟨e, List.mem_of_find?_eq_some he, hv⟩

theorem selectSchedProps_nil (p a : Str) : selectSchedProps [] p a = [] := by
  simp [selectSchedProps, lookupA]

theorem selectSchedProps_mem (cfg : SCfg) (p a : Str) :
    selectSchedProps cfg p a = [] ∨
      ∃ e ∈ cfg, selectSchedProps cfg p a = e.2 := by
  unfold selectSchedProps
  cases h1 : lookupA cfg p with
  | some ps =>
    obtain ⟨e, he, hv⟩ := lookupA_mem h1
    exact Or.inr ⟨e, he, hv.symm⟩
  | none =>
    by_cases h2 : p = S ("unknown") ∧ a = S ("15")
    · rw [if_pos h2]
      cases h3 : lookupA cfg (S ("android_15")) with
      | some ps =>
        obtain ⟨e, he, hv⟩ := lookupA_mem h3
        exact Or.inr ⟨e, he, hv.symm⟩
      | none =>
        cases h4 : lookupA cfg (S ("default")) with
        | some ps =>
          obtain ⟨e, he, hv⟩ := lookupA_mem h4
          exact Or.inr ⟨e, he, hv.symm⟩
        | none => exact Or.inl rfl
    · rw [if_neg h2]
      cases h4 : lookupA cfg (S ("default")) with
      | some ps =>
        obtain ⟨e, he, hv⟩ := lookupA_mem h4
        exact Or.inr ⟨e, he, hv.symm⟩
      | none => exact Or.inl rfl

theorem getPlatformCode_congr {t t' : Tree}
    (h : getFile t' vendPart vendSub = getFile t vendPart vendSub) :
    getPlatformCode t' = getPlatformCode t := by
  unfold getPlatformCode
  rw [h]

theorem optimizeCoreAffinity_id {ctx : Ctx} {s : Load SCfg} {T : Tree}
    (hu : PathsUnique T)
    (hok : SchedOk (cfgOf s) ctx.port_android_version T) :
    optimizeCoreAffinity ctx s T = T := by
  unfold optimizeCoreAffinity
  cases hget : getFile T prodPart prodSub with
  | none => rfl
  | some c0 =>
    cases s with
    | malformed => rfl
    | missing =>
      show applySched ctx [] T = T
      show List.foldl (fun acc kv => uoaTree acc prodPart prodSub kv.1 kv.2) T
        (selectSchedProps [] (getPlatformCode T) ctx.port_android_version) = T
      rw [selectSchedProps_nil]
      rfl
    | ok cfg =>
      show applySched ctx cfg T = T
      unfold applySched
      apply foldl_id
      intro kv hkv
      unfold uoaTree
      rw [hget]
      show setFile T prodPart prodSub
        (updateOrAppendPropW c0 kv.1 kv.2).1 = T
      rw [uoaW_id_of_search (hok c0 hget kv hkv)]
      exact setFile_same hu hget

/-- A tree satisfying the full post-run invariant is a fixed point of the
pipeline. -/
theorem runPipeline_id {ctx : Ctx} {m : BuildMeta} {g : Load GCfg}
    {s : Load SCfg} {T : Tree}
    (hg : g = Load.missing ∨ g = Load.malformed)
    (hu : PathsUnique T) (hwf : TreeWF T)
    (hds : DensitySettled (baseDensity ctx) T) (hdf : DensityFound T)
    (hfix : ∀ kv ∈ fixPairs ctx, ProdSettled kv.1 kv.2 T)
    (hm2 : MilletOk T)
    (hfp : FpSettled (rulesOfComps (readFpComps T)) T)
    (hok : SchedOk (cfgOf s) ctx.port_android_version T) :
    runPipeline ctx m g s T = Except.ok T := by
  have hG : updateGeneralInfo ctx m g T = Except.ok T := by
    rcases hg with rfl | rfl <;> rfl
  unfold runPipeline
  rw [hG]
  show Except.ok (optimizeCoreAffinity ctx s (regenerateFingerprint
    (applySpecificFixes ctx (updateDensity ctx T)))) = Except.ok T
  rw [updateDensity_id hds hdf, applySpecificFixes_id hu hfix hm2,
    regenerateFingerprint_id hwf hfp, optimizeCoreAffinity_id hu hok]

theorem protKeys_clean : ∀ x ∈ protKeys, CleanKey x := by decide

theorem fpRuleKeys_sub_prot : ∀ fk ∈ fpRuleKeys, fk ∈ protKeys := by decide

theorem compKeys_sub_prot : ∀ ck ∈ compKeys, ck ∈ protKeys := by decide

/-- Folding a hygienic batch of update-or-append steps over the canonical
product file settles every pair of the batch and preserves the rest of the
invariant. -/
theorem sched_fold {base : Str} {CF : FpComps} (hCF : CleanComps CF) :
    ∀ (props : List (Str × Str)) (t : Tree),
    (∀ kv ∈ props, CleanKey kv.1 ∧ CleanVal kv.2 ∧
      NonComp kv.1 lcdKey ∧ NonComp kv.1 densityV2Key ∧
      (∀ fk ∈ fpRuleKeys, ¬ kv.1 <:+ fk) ∧ (∀ ck ∈ compKeys, ¬ kv.1 <:+ ck)) →
    props.Pairwise (fun a b => NonComp a.1 b.1) →
    PathsUnique t → TreeWF t →
    TreeWF (props.foldl
      (fun acc kv => uoaTree acc prodPart prodSub kv.1 kv.2) t) ∧
    PathsUnique (props.foldl
      (fun acc kv => uoaTree acc prodPart prodSub kv.1 kv.2) t) ∧
    (∀ kv ∈ props, ProdSettled kv.1 kv.2 (props.foldl
      (fun acc kv => uoaTree acc prodPart prodSub kv.1 kv.2) t)) ∧
    (∀ k' v', CleanKey k' → (∀ kv ∈ props, NonComp kv.1 k') →
      ProdSettled k' v' t → ProdSettled k' v' (props.foldl
        (fun acc kv => uoaTree acc prodPart prodSub kv.1 kv.2) t)) ∧
    (DensitySettled base t → DensitySettled base (props.foldl
      (fun acc kv => uoaTree acc prodPart prodSub kv.1 kv.2) t)) ∧
    (DensityFound t → DensityFound (props.foldl
      (fun acc kv => uoaTree acc prodPart prodSub kv.1 kv.2) t)) ∧
    getFile (props.foldl
      (fun acc kv => uoaTree acc prodPart prodSub kv.1 kv.2) t)
      vendPart vendSub = getFile t vendPart vendSub ∧
    (FpSettled (rulesOfComps CF) t → FpSettled (rulesOfComps CF) (props.foldl
      (fun acc kv => uoaTree acc prodPart prodSub kv.1 kv.2) t)) ∧
    readFpComps (props.foldl
      (fun acc kv => uoaTree acc prodPart prodSub kv.1 kv.2) t)
      = readFpComps t := by
  intro props
  induction props with
  | nil =>
    intro t _ _ hu hwf
    exact ⟨hwf, hu, fun kv hkv => absurd hkv (by simp),
      fun k' v' _ _ h => h, fun h => h, fun h => h, rfl, fun h => h, rfl⟩
  | cons kv props ih =>
    intro t hcl hpw hu hwf
    obtain ⟨hhead, htail⟩ := List.pairwise_cons.mp hpw
    have hc0 := hcl kv (List.mem_cons_self kv props)
    have u := @uoa_pass t kv.1 kv.2 CF base hu hwf hc0.1 hc0.2.1 hCF
      hc0.2.2.1 hc0.2.2.2.1 hc0.2.2.2.2.1 hc0.2.2.2.2.2
    have F := ih (uoaTree t prodPart prodSub kv.1 kv.2)
      (fun kv' hkv' => hcl kv' (List.mem_cons_of_mem kv hkv'))
      htail u.2.1 u.1
    rw [List.foldl_cons]
    refine ⟨F.1, F.2.1, ?_, ?_, ?_, ?_, ?_, ?_, ?_⟩
    · intro kv' hkv'
      rcases List.mem_cons.mp hkv' with rfl | hmem
      · exact F.2.2.2.1 kv'.1 kv'.2 hc0.1
          (fun kv2 hkv2 => ⟨(hhead kv2 hkv2).2, (hhead kv2 hkv2).1⟩)
          u.2.2.1
      · exact F.2.2.1 kv' hmem
    · intro k' v' hk' hnc hps
      exact F.2.2.2.1 k' v' hk'
        (fun kv2 hkv2 => hnc kv2 (List.mem_cons_of_mem kv hkv2))
        (u.2.2.2.1 k' v' hk' (hnc kv (List.mem_cons_self kv props)) hps)
    · intro h
      exact F.2.2.2.2.1 (u.2.2.2.2.1 h)
    · intro h
      exact F.2.2.2.2.2.1 (u.2.2.2.2.2.1 h)
    · exact F.2.2.2.2.2.2.1.trans u.2.2.2.2.2.2.1
    · intro h
      exact F.2.2.2.2.2.2.2.1 (u.2.2.2.2.2.2.2.1 h)
    · exact F.2.2.2.2.2.2.2.2.trans u.2.2.2.2.2.2.2.2

/-- The core-affinity pass establishes the scheduler part of the invariant
and preserves every other part. -/
theorem sched_pass {ctx : Ctx} {s : Load SCfg} {t : Tree} {base : Str}
    {CF : FpComps} (hu : PathsUnique t) (hwf : TreeWF t) (hsh : SchedHygL s)
    (hCF : CleanComps CF) :
    TreeWF (optimizeCoreAffinity ctx s t) ∧
    PathsUnique (optimizeCoreAffinity ctx s t) ∧
    SchedOk (cfgOf s) ctx.port_android_version (optimizeCoreAffinity ctx s t) ∧
    (∀ k' v', k' ∈ protKeys → ProdSettled k' v' t →
      ProdSettled k' v' (optimizeCoreAffinity ctx s t)) ∧
    (DensitySettled base t →
      DensitySettled base (optimizeCoreAffinity ctx s t)) ∧
    (DensityFound t → DensityFound (optimizeCoreAffinity ctx s t)) ∧
    (MilletOk t → MilletOk (optimizeCoreAffinity ctx s t)) ∧
    (FpSettled (rulesOfComps CF) t →
      FpSettled (rulesOfComps CF) (optimizeCoreAffinity ctx s t)) ∧
    readFpComps (optimizeCoreAffinity ctx s t) = readFpComps t := by
  unfold optimizeCoreAffinity
  cases hget : getFile t prodPart prodSub with
  | none =>
    refine ⟨hwf, hu, ?_, fun k' v' _ h => h, fun h => h, fun h => h,
      fun h => h, fun h => h, rfl⟩
    intro c hc
    have hc' : getFile t prodPart prodSub = some c := hc
    rw [hget] at hc'
    exact absurd hc' (by simp)
  | some c0 =>
    cases s with
    | malformed =>
      refine ⟨hwf, hu, ?_, fun k' v' _ h => h, fun h => h, fun h => h,
        fun h => h, fun h => h, rfl⟩
      intro c _ kv hkv
      simp only [cfgOf] at hkv
      rw [selectSchedProps_nil] at hkv
      exact absurd hkv (by simp)
    | missing =>
      have hT : applySched ctx [] t = t := by
        show List.foldl (fun acc kv => uoaTree acc prodPart prodSub kv.1 kv.2)
          t (selectSchedProps [] (getPlatformCode t) ctx.port_android_version)
          = t
        rw [selectSchedProps_nil]
        rfl
      show TreeWF (applySched ctx [] t) ∧ _
      rw [hT]
      refine ⟨hwf, hu, ?_, fun k' v' _ h => h, fun h => h, fun h => h,
        fun h => h, fun h => h, rfl⟩
      intro c _ kv hkv
      simp only [cfgOf] at hkv
      rw [selectSchedProps_nil] at hkv
      exact absurd hkv (by simp)
    | ok cfg =>
      show TreeWF (applySched ctx cfg t) ∧
        PathsUnique (applySched ctx cfg t) ∧
        SchedOk (cfgOf (Load.ok cfg)) ctx.port_android_version
          (applySched ctx cfg t) ∧
        (∀ k' v', k' ∈ protKeys → ProdSettled k' v' t →
          ProdSettled k' v' (applySched ctx cfg t)) ∧
        (DensitySettled base t →
          DensitySettled base (applySched ctx cfg t)) ∧
        (DensityFound t → DensityFound (applySched ctx cfg t)) ∧
        (MilletOk t → MilletOk (applySched ctx cfg t)) ∧
        (FpSettled (rulesOfComps CF) t →
          FpSettled (rulesOfComps CF) (applySched ctx cfg t)) ∧
        readFpComps (applySched ctx cfg t) = readFpComps t
      rcases selectSchedProps_mem cfg (getPlatformCode t)
        ctx.port_android_version with hnil | ⟨e, he, hsel⟩
      · have hT : applySched ctx cfg t = t := by
          show List.foldl
            (fun acc kv => uoaTree acc prodPart prodSub kv.1 kv.2) t
            (selectSchedProps cfg (getPlatformCode t)
              ctx.port_android_version) = t
          rw [hnil]
          rfl
        rw [hT]
        refine ⟨hwf, hu, ?_, fun k' v' _ h => h, fun h => h, fun h => h,
          fun h => h, fun h => h, rfl⟩
        intro c _ kv hkv
        simp only [cfgOf] at hkv
        rw [hnil] at hkv
        exact absurd hkv (by simp)
      · obtain ⟨hcl, hpw⟩ := hsh e he
        have hside : ∀ kv ∈ e.2, CleanKey kv.1 ∧ CleanVal kv.2 ∧
            NonComp kv.1 lcdKey ∧ NonComp kv.1 densityV2Key ∧
            (∀ fk ∈ fpRuleKeys, ¬ kv.1 <:+ fk) ∧
            (∀ ck ∈ compKeys, ¬ kv.1 <:+ ck) := by
          intro kv hkv
          obtain ⟨h1, h2, h3⟩ := hcl kv hkv
          exact ⟨h1, h2, h3 lcdKey (by decide), h3 densityV2Key (by decide),
            fun fk hfk => (h3 fk (fpRuleKeys_sub_prot fk hfk)).1,
            fun ck hck => (h3 ck (compKeys_sub_prot ck hck)).1⟩
        have F := @sched_fold base CF hCF e.2 t hside hpw hu hwf
        have hT : applySched ctx cfg t = e.2.foldl
            (fun acc kv => uoaTree acc prodPart prodSub kv.1 kv.2) t := by
          show List.foldl
            (fun acc kv => uoaTree acc prodPart prodSub kv.1 kv.2) t
            (selectSchedProps cfg (getPlatformCode t)
              ctx.port_android_version) = _
          rw [hsel]
        rw [hT]
        refine ⟨F.1, F.2.1, ?_, ?_, F.2.2.2.2.1, F.2.2.2.2.2.1, ?_,
          F.2.2.2.2.2.2.2.1, F.2.2.2.2.2.2.2.2⟩
        · intro c hc kv hkv
          simp only [cfgOf] at hkv
          rw [getPlatformCode_congr F.2.2.2.2.2.2.1, hsel] at hkv
          exact F.2.2.1 kv hkv c hc
        · intro k' v' hk'p hps
          exact F.2.2.2.1 k' v' (protKeys_clean k' hk'p)
            (fun kv hkv => (hcl kv hkv).2.2 k' hk'p) hps
        · intro h c hc
          rw [F.2.2.2.2.2.2.1] at hc
          exact h c hc

/-- **C1 (amended).** Running the full pipeline twice with the same context,
config tables and environment produces no further modification on the second
run, provided the general-info rule table is missing or malformed (so that
pass is a no-op), every file of the working tree is a well-formed property
file with unique paths, the build context resolves to clean single-line
density and millet values, and the scheduler table is hygienic (clean
keys/values that do not collide with an engine-owned key or each other):
under these hypotheses a tree produced by one full run is a fixed point of
the pipeline. -/
theorem c1_pipeline_idempotent_amended {ctx : Ctx} {m : BuildMeta}
    {g : Load GCfg} {s : Load SCfg} {t0 t1 : Tree}
    (hg : g = Load.missing ∨ g = Load.malformed)
    (hwf : TreeWF t0) (hu : PathsUnique t0)
    (hctx : CtxHyg ctx) (hsh : SchedHygL s)
    (hrun : runPipeline ctx m g s t0 = Except.ok t1) :
    runPipeline ctx m g s t1 = Except.ok t1 := by
  have hG : updateGeneralInfo ctx m g t0 = Except.ok t0 := by
    rcases hg with rfl | rfl <;> rfl
  have ht1 : t1 = optimizeCoreAffinity ctx s (regenerateFingerprint
      (applySpecificFixes ctx (updateDensity ctx t0))) := by
    unfold runPipeline at hrun
    rw [hG] at hrun
    have hrun' : Except.ok (optimizeCoreAffinity ctx s (regenerateFingerprint
        (applySpecificFixes ctx (updateDensity ctx t0)))) = Except.ok t1 :=
      hrun
    exact (Except.ok.inj hrun').symm
  subst ht1
  have D := density_pass ctx hwf hu hctx.1
  have X := @fix_pass ctx (updateDensity ctx t0) (baseDensity ctx)
    D.2.1 D.1 hctx
  have hXd : DensitySettled (baseDensity ctx)
      (applySpecificFixes ctx (updateDensity ctx t0)) :=
    X.2.2.2.2.1 D.2.2.1
  have hXf : DensityFound (applySpecificFixes ctx (updateDensity ctx t0)) :=
    X.2.2.2.2.2 D.2.2.2
  have P := @fp_pass (applySpecificFixes ctx (updateDensity ctx t0))
    (baseDensity ctx) X.2.1 X.1
  have hFfix : ∀ kv ∈ fixPairs ctx, ProdSettled kv.1 kv.2
      (regenerateFingerprint
        (applySpecificFixes ctx (updateDensity ctx t0))) := by
    intro kv hkv
    have h0 := X.2.2.1 kv hkv
    simp only [fixPairs, List.mem_cons, List.not_mem_nil, or_false] at hkv
    rcases hkv with rfl | rfl | rfl | rfl
    · exact P.2.2.2.2.1 _ _ (by decide) (by decide) h0
    · exact P.2.2.2.2.1 _ _
        (show CleanKey (S ("ro.millet.netlink")) by decide)
        (show ∀ fk ∈ fpRuleKeys, ¬ (S ("ro.millet.netlink")) <:+ fk by decide)
        h0
    · exact P.2.2.2.2.1 _ _ (by decide) (by decide) h0
    · exact P.2.2.2.2.1 _ _ (by decide) (by decide) h0
  have hFm : MilletOk (regenerateFingerprint
      (applySpecificFixes ctx (updateDensity ctx t0))) :=
    P.2.2.2.2.2.2.2 X.2.2.2.1
  have hFd : DensitySettled (baseDensity ctx) (regenerateFingerprint
      (applySpecificFixes ctx (updateDensity ctx t0))) :=
    P.2.2.2.2.2.1 hXd
  have hFf : DensityFound (regenerateFingerprint
      (applySpecificFixes ctx (updateDensity ctx t0))) :=
    P.2.2.2.2.2.2.1 hXf
  have hCF : CleanComps (readFpComps (regenerateFingerprint
      (applySpecificFixes ctx (updateDensity ctx t0)))) :=
    cleanComps_readFpComps P.1
  have Sc := @sched_pass ctx s (regenerateFingerprint
      (applySpecificFixes ctx (updateDensity ctx t0))) (baseDensity ctx)
    (readFpComps (regenerateFingerprint
      (applySpecificFixes ctx (updateDensity ctx t0))))
    P.2.1 P.1 hsh hCF
  have hTfix : ∀ kv ∈ fixPairs ctx, ProdSettled kv.1 kv.2
      (optimizeCoreAffinity ctx s (regenerateFingerprint
        (applySpecificFixes ctx (updateDensity ctx t0)))) := by
    intro kv hkv
    have h0 := hFfix kv hkv
    simp only [fixPairs, List.mem_cons, List.not_mem_nil, or_false] at hkv
    rcases hkv with rfl | rfl | rfl | rfl
    · exact Sc.2.2.2.1 _ _ (by decide) h0
    · exact Sc.2.2.2.1 _ _
        (show (S ("ro.millet.netlink")) ∈ protKeys by decide) h0
    · exact Sc.2.2.2.1 _ _ (by decide) h0
    · exact Sc.2.2.2.1 _ _ (by decide) h0
  have hTfp : FpSettled (rulesOfComps (readFpComps
      (optimizeCoreAffinity ctx s (regenerateFingerprint
        (applySpecificFixes ctx (updateDensity ctx t0))))))
      (optimizeCoreAffinity ctx s (regenerateFingerprint
        (applySpecificFixes ctx (updateDensity ctx t0)))) := by
    rw [Sc.2.2.2.2.2.2.2.2]
    exact Sc.2.2.2.2.2.2.2.1 P.2.2.1
  exact runPipeline_id hg Sc.2.1 Sc.1
    (Sc.2.2.2.2.1 hFd) (Sc.2.2.2.2.2.1 hFf) hTfix
    (Sc.2.2.2.2.2.2.1 hFm) hTfp Sc.2.2.1

instance (t : Tree) : Decidable (TreeWF t) := by
  unfold TreeWF
  infer_instance

instance (t : Tree) : Decidable (PathsUnique t) := by
  unfold PathsUnique
  infer_instance

def c1wCtx : Ctx :=
  Ctx.mk (S ("x")) (S ("OS2.0")) false (S ("15")) (fun _ => [])

def c1wMeta : BuildMeta := BuildMeta.mk [] [] [] []

def c1wS : Load SCfg :=
  Load.ok [(S ("default"), [(S ("ro.example.x"), S ("1"))])]

def c1wT0 : Tree :=
  [PFile.mk (S ("product")) (S ("etc")) (S ("ro.sf.lcd_density=440\n")),
   PFile.mk (S ("vendor")) [] (S ("persist.sys.millet.cgroup1=1\nsm8450\n"))]

/-- The tree produced by one full run of the pipeline on `c1wT0`. -/
def c1wT1 : Tree :=
  [PFile.mk (S ("product")) (S ("etc"))
    (S ("ro.sf.lcd_density=560\n\nro.miui.cust_erofs=0\n\nro.millet.netlink=29\n\npersist.sys.background_blur_supported=true\n\npersist.sys.background_blur_version=2\n\nro.example.x=1\n")),
   PFile.mk (S ("vendor")) [] (S ("#persist.sys.millet.cgroup1=1\nsm8450\n"))]

theorem c1_pipeline_idempotent_amended_witness :
    runPipeline c1wCtx c1wMeta Load.missing c1wS c1wT1 = Except.ok c1wT1 :=
  @c1_pipeline_idempotent_amended c1wCtx c1wMeta Load.missing c1wS c1wT0 c1wT1
    (Or.inl rfl) (by decide) (by decide) (by decide) (by decide) (by rfl)

end HyperProps
